import Mathlib

/-!
Verification of the algorithm/data-structure core (`algo_ds_complete.py`).

Shallow embedding: Python lists become `List Nat` (or `List Char` for
strings), Python dicts with insertion order become association lists,
`float('inf')` becomes `⊤ : WithTop _`, and fallible code returns
`Option`/`Except`.  Each definition mirrors the corresponding Python
function; loops become structural or well-founded recursion on an
explicit state.
-/

namespace AlgoDS

open scoped List

/-! ### Sorting algorithms (`SortingAlgorithms`, src lines 433-603) -/

/-- Non-decreasing sequence: the correctness order for ascending sorts. -/
def NonDec (l : List Nat) : Prop := List.Sorted (· ≤ ·) l

/-- One bounded bubble pass: `k` adjacent compare-swaps from the left,
mirroring `for j in range(0, n - i - 1)` with `k = n - i - 1`; the Bool is
the `swapped` flag. -/
def bpass : List Nat → Nat → List Nat × Bool
  | l, 0 => (l, false)
  | [], _ + 1 => ([], false)
  | [a], _ + 1 => ([a], false)
  | a :: b :: t, k + 1 =>
    if b < a then
      -- arr[j] > arr[j+1]: swap and continue with the (old) larger element
      let p := bpass (a :: t) k
      (b :: p.1, true)
    else
      let p := bpass (b :: t) k
      (a :: p.1, p.2)

/-- The outer `for i in range(n)` loop of bubble sort with the
early-exit-on-no-swap optimisation; `fuel = n - i`. -/
def bubbleGo : Nat → List Nat → List Nat
  | 0, l => l
  | fuel + 1, l =>
    let p := bpass l fuel
    if p.2 then bubbleGo fuel p.1 else p.1

/-- `SortingAlgorithms.bubble_sort`. -/
def bubble_sort (arr : List Nat) : List Nat := bubbleGo arr.length arr

/-- Minimum of `a` and the elements of `t`: the running minimum of the
selection-sort inner scan. -/
def minOf (a : Nat) (t : List Nat) : Nat := t.foldl min a

/-- Replace the first occurrence of `x` by `y` (the receiving end of the
selection-sort swap `arr[i], arr[min_idx] = arr[min_idx], arr[i]`). -/
def replaceFirst : List Nat → Nat → Nat → List Nat
  | [], _, _ => []
  | b :: t, x, y => if b = x then y :: t else b :: replaceFirst t x y

theorem replaceFirst_length (t : List Nat) (x y : Nat) :
    (replaceFirst t x y).length = t.length := by
  induction t with
  | nil => rfl
  | cons b t ih => by_cases h : b = x <;> simp [replaceFirst, h, ih]

/-- `SortingAlgorithms.selection_sort`: each outer iteration finds the first
index of the minimum of the remaining suffix and swaps it to the front. -/
def selection_sort (arr : List Nat) : List Nat :=
  match arr with
  | [] => []
  | a :: t =>
    let M := minOf a t
    if a = M then a :: selection_sort t
    else M :: selection_sort (replaceFirst t M a)
termination_by arr.length
decreasing_by
  · simp
  · simp [replaceFirst_length]

/-- Insert `key` into the sorted prefix, shifting while `arr[j] > key`
(`SortingAlgorithms.insertion_sort`, inner while loop). -/
def insertKey : List Nat → Nat → List Nat
  | [], key => [key]
  | a :: t, key => if key < a then key :: a :: t else a :: insertKey t key

/-- `SortingAlgorithms.insertion_sort`: left-to-right fold of `insertKey`. -/
def insertion_sort (arr : List Nat) : List Nat := arr.foldl insertKey []

/-- `SortingAlgorithms._merge`: merge two sorted lists, taking from the left
on ties (`left[i] <= right[j]`). -/
def mergeLists : List Nat → List Nat → List Nat
  | [], r => r
  | l, [] => l
  | a :: l, b :: r =>
    if a ≤ b then a :: mergeLists l (b :: r) else b :: mergeLists (a :: l) r

/-- `SortingAlgorithms.merge_sort`: split at the midpoint and merge. -/
def merge_sort (arr : List Nat) : List Nat :=
  if h : arr.length ≤ 1 then arr
  else
    let mid := arr.length / 2
    mergeLists (merge_sort (arr.take mid)) (merge_sort (arr.drop mid))
termination_by arr.length
decreasing_by
  · simp only [List.length_take]
    omega
  · simp only [List.length_drop]
    omega

/-- `SortingAlgorithms.quick_sort`: pivot is the middle element, partition
into strictly-less / equal / strictly-greater. -/
def quick_sort (arr : List Nat) : List Nat :=
  if h : arr.length ≤ 1 then arr
  else
    let pivot := arr.getD (arr.length / 2) 0
    quick_sort (arr.filter (fun x => x < pivot)) ++
      arr.filter (fun x => x = pivot) ++
      quick_sort (arr.filter (fun x => pivot < x))
termination_by arr.length
decreasing_by
  · have hlt : arr.length / 2 < arr.length := by omega
    have hp : arr.getD (arr.length / 2) 0 ∈ arr := by
      rw [List.getD_eq_getElem?_getD, List.getElem?_eq_getElem hlt]
      exact List.getElem_mem hlt
    exact List.length_filter_lt_length_iff_exists.2 ⟨_, hp, by simp⟩
  · have hlt : arr.length / 2 < arr.length := by omega
    have hp : arr.getD (arr.length / 2) 0 ∈ arr := by
      rw [List.getD_eq_getElem?_getD, List.getElem?_eq_getElem hlt]
      exact List.getElem_mem hlt
    exact List.length_filter_lt_length_iff_exists.2 ⟨_, hp, by simp⟩

/-- Array read `arr[i]` for the in-place heap sort (all accesses in the
source are in bounds; the default is never reached under the proofs). -/
def lget (a : List Nat) (i : Nat) : Nat := a.getD i 0

/-- In-place swap `arr[i], arr[j] = arr[j], arr[i]`. -/
def lswap (a : List Nat) (i j : Nat) : List Nat :=
  (a.set i (lget a j)).set j (lget a i)

/-- The `largest` selection inside `heapify`: the larger of node `i` and its
in-range children. -/
def largestIdx (a : List Nat) (n i : Nat) : Nat :=
  let l1 := if 2 * i + 1 < n ∧ lget a i < lget a (2 * i + 1) then 2 * i + 1 else i
  if 2 * i + 2 < n ∧ lget a l1 < lget a (2 * i + 2) then 2 * i + 2 else l1

theorem largestIdx_eq_or (a : List Nat) (n i : Nat) :
    largestIdx a n i = i ∨ (i < largestIdx a n i ∧ largestIdx a n i < n) := by
  simp only [largestIdx]
  split <;> split <;> omega

/-- `heapify(arr, n, i)` from `SortingAlgorithms.heap_sort`: sift down at
index `i` within the first `n` positions of a max-heap. -/
def heapify (a : List Nat) (n i : Nat) : List Nat :=
  if h : largestIdx a n i = i then a
  else heapify (lswap a i (largestIdx a n i)) n (largestIdx a n i)
termination_by n - i
decreasing_by
  rcases largestIdx_eq_or a n i with he | ⟨h1, h2⟩
  · exact absurd he h
  · omega

/-- The heap-construction loop `for i in range(n // 2 - 1, -1, -1)`:
`buildHeap a n k` runs `heapify` at `k-1, k-2, …, 0`. -/
def buildHeap (a : List Nat) (n : Nat) : Nat → List Nat
  | 0 => a
  | k + 1 => buildHeap (heapify a n k) n k

/-- The extraction loop `for i in range(n - 1, 0, -1)`: swap the root with
position `i` and re-heapify the first `i` positions. -/
def extractLoop (a : List Nat) : Nat → List Nat
  | 0 => a
  | j + 1 => extractLoop (heapify (lswap a 0 (j + 1)) (j + 1) 0) j

/-- `SortingAlgorithms.heap_sort`. -/
def heap_sort (arr : List Nat) : List Nat :=
  extractLoop (buildHeap arr arr.length (arr.length / 2)) (arr.length - 1)

/-- `SortingAlgorithms.counting_sort`: frequency table up to the maximum,
expanded in value order.  `maxOf` mirrors Python `max(arr)`. -/
def maxOf (a : Nat) (t : List Nat) : Nat := t.foldl max a

/-- `SortingAlgorithms.counting_sort`. -/
def counting_sort (arr : List Nat) : List Nat :=
  match arr with
  | [] => []
  | a :: t =>
    let max_val := maxOf a t
    (List.range (max_val + 1)).flatMap
      (fun num => List.replicate ((a :: t).count num) num)

/-! ### Sorting proofs -/

theorem insertKey_perm (l : List Nat) (k : Nat) : insertKey l k ~ k :: l := by
  induction l with
  | nil => rfl
  | cons a t ih =>
    by_cases h : k < a
    · simp [insertKey, h]
    · simp only [insertKey, h, if_false]
      exact (ih.cons a).trans (List.Perm.swap k a t)

theorem insertKey_sorted {l : List Nat} (k : Nat) (h : NonDec l) :
    NonDec (insertKey l k) := by
  induction l with
  | nil => simp [insertKey, NonDec]
  | cons a t ih =>
    rw [NonDec, List.sorted_cons] at h
    by_cases hk : k < a
    · rw [NonDec, insertKey, if_pos hk, List.sorted_cons]
      refine ⟨?_, (List.sorted_cons).2 h⟩
      intro b hb
      rcases List.mem_cons.1 hb with rfl | hb
      · omega
      · exact le_trans (le_of_lt hk) (h.1 b hb)
    · rw [NonDec, insertKey, if_neg hk, List.sorted_cons]
      refine ⟨?_, ih h.2⟩
      intro b hb
      have hb2 := (insertKey_perm t k).mem_iff.1 hb
      rcases List.mem_cons.1 hb2 with rfl | hb2
      · omega
      · exact h.1 b hb2

theorem insertion_sort_perm (arr : List Nat) : insertion_sort arr ~ arr := by
  have key : ∀ (l acc : List Nat), l.foldl insertKey acc ~ acc ++ l := by
    intro l
    induction l with
    | nil => simp
    | cons x l ih =>
      intro acc
      calc (x :: l).foldl insertKey acc = l.foldl insertKey (insertKey acc x) := rfl
        _ ~ insertKey acc x ++ l := ih _
        _ ~ (x :: acc) ++ l := (insertKey_perm acc x).append_right l
        _ ~ acc ++ x :: l := List.perm_middle.symm.trans (by simp)
  simpa using key arr []

theorem insertion_sort_sorted (arr : List Nat) : NonDec (insertion_sort arr) := by
  have key : ∀ (l acc : List Nat), NonDec acc → NonDec (l.foldl insertKey acc) := by
    intro l
    induction l with
    | nil => exact fun acc h => h
    | cons x l ih => exact fun acc h => ih _ (insertKey_sorted x h)
  exact key arr [] (by simp [NonDec])

theorem mergeLists_perm (l r : List Nat) : mergeLists l r ~ l ++ r := by
  induction l, r using mergeLists.induct with
  | case1 r => simp [mergeLists]
  | case2 l h => cases l <;> simp [mergeLists]
  | case3 a l b r hab ih =>
    simp only [mergeLists, if_pos hab]
    exact ih.cons a
  | case4 a l b r hab ih =>
    simp only [mergeLists, if_neg hab]
    exact (ih.cons b).trans List.perm_middle.symm

theorem mergeLists_sorted {l r : List Nat} (hl : NonDec l) (hr : NonDec r) :
    NonDec (mergeLists l r) := by
  induction l, r using mergeLists.induct with
  | case1 r => simpa [mergeLists]
  | case2 l h => cases l <;> simpa [mergeLists]
  | case3 a l b r hab ih =>
    rw [NonDec, List.sorted_cons] at hl
    simp only [mergeLists, if_pos hab]
    rw [NonDec, List.sorted_cons]
    refine ⟨?_, ih hl.2 hr⟩
    intro c hc
    have := (mergeLists_perm l (b :: r)).mem_iff.1 hc
    rcases List.mem_append.1 this with h1 | h1
    · exact hl.1 c h1
    · rcases List.mem_cons.1 h1 with rfl | h1
      · exact hab
      · rw [NonDec, List.sorted_cons] at hr
        exact le_trans hab (hr.1 c h1)
  | case4 a l b r hab ih =>
    rw [NonDec, List.sorted_cons] at hr
    simp only [mergeLists, if_neg hab]
    rw [NonDec, List.sorted_cons]
    refine ⟨?_, ih hl hr.2⟩
    intro c hc
    have := (mergeLists_perm (a :: l) r).mem_iff.1 hc
    rcases List.mem_append.1 this with h1 | h1
    · have hba : b ≤ a := by omega
      rcases List.mem_cons.1 h1 with rfl | h1
      · exact hba
      · rw [NonDec, List.sorted_cons] at hl
        exact le_trans hba (hl.1 c h1)
    · exact hr.1 c h1

theorem merge_sort_perm (arr : List Nat) : merge_sort arr ~ arr := by
  induction arr using merge_sort.induct with
  | case1 arr h => rw [merge_sort, dif_pos h]
  | case2 arr h mid ih1 ih2 =>
    rw [merge_sort, dif_neg h]
    calc mergeLists (merge_sort (arr.take (arr.length / 2)))
          (merge_sort (arr.drop (arr.length / 2)))
        ~ merge_sort (arr.take (arr.length / 2)) ++
            merge_sort (arr.drop (arr.length / 2)) := mergeLists_perm _ _
      _ ~ arr.take (arr.length / 2) ++ arr.drop (arr.length / 2) := ih1.append ih2
      _ = arr := List.take_append_drop _ arr

theorem merge_sort_sorted (arr : List Nat) : NonDec (merge_sort arr) := by
  induction arr using merge_sort.induct with
  | case1 arr h =>
    rw [merge_sort, dif_pos h]
    rcases arr with _ | ⟨a, _ | ⟨b, t⟩⟩
    · simp [NonDec]
    · simp [NonDec]
    · simp at h
  | case2 arr h mid ih1 ih2 =>
    rw [merge_sort, dif_neg h]
    exact mergeLists_sorted ih1 ih2

theorem filter_three_perm (l : List Nat) (p : Nat) :
    l ~ l.filter (fun x => x < p) ++ l.filter (fun x => x = p) ++
        l.filter (fun x => p < x) := by
  rw [List.perm_iff_count]
  intro v
  simp only [List.count_append]
  have z1 : ¬ v < p → (l.filter (fun x => decide (x < p))).count v = 0 := fun h =>
    List.count_eq_zero_of_not_mem (fun hm => h (by simpa using (List.mem_filter.1 hm).2))
  have z2 : v ≠ p → (l.filter (fun x => decide (x = p))).count v = 0 := fun h =>
    List.count_eq_zero_of_not_mem (fun hm => h (by simpa using (List.mem_filter.1 hm).2))
  have z3 : ¬ p < v → (l.filter (fun x => decide (p < x))).count v = 0 := fun h =>
    List.count_eq_zero_of_not_mem (fun hm => h (by simpa using (List.mem_filter.1 hm).2))
  rcases Nat.lt_trichotomy v p with h | h | h
  · rw [z2 (by omega), z3 (by omega), List.count_filter (by simpa using h)]
    omega
  · rw [z1 (by omega), z3 (by omega), List.count_filter (by simpa using h)]
    omega
  · rw [z1 (by omega), z2 (by omega), List.count_filter (by simpa using h)]
    omega

theorem quick_sort_eq_of_big (arr : List Nat) (h : ¬ arr.length ≤ 1) :
    quick_sort arr =
      quick_sort (arr.filter (fun x => x < arr.getD (arr.length / 2) 0)) ++
        arr.filter (fun x => x = arr.getD (arr.length / 2) 0) ++
        quick_sort (arr.filter (fun x => arr.getD (arr.length / 2) 0 < x)) := by
  rw [quick_sort, dif_neg h]

theorem quick_sort_perm (arr : List Nat) : quick_sort arr ~ arr := by
  induction arr using quick_sort.induct with
  | case1 arr h => rw [quick_sort, dif_pos h]
  | case2 arr h piv ih1 ih2 =>
    rw [quick_sort_eq_of_big arr h]
    have ih1' : quick_sort (arr.filter (fun x => x < arr.getD (arr.length / 2) 0)) ~
        arr.filter (fun x => x < arr.getD (arr.length / 2) 0) := ih1
    have ih2' : quick_sort (arr.filter (fun x => arr.getD (arr.length / 2) 0 < x)) ~
        arr.filter (fun x => arr.getD (arr.length / 2) 0 < x) := ih2
    refine List.Perm.trans ?_ (filter_three_perm arr (arr.getD (arr.length / 2) 0)).symm
    exact (ih1'.append_right _).append ih2'

theorem quick_sort_sorted (arr : List Nat) : NonDec (quick_sort arr) := by
  induction arr using quick_sort.induct with
  | case1 arr h =>
    rw [quick_sort, dif_pos h]
    rcases arr with _ | ⟨a, _ | ⟨b, t⟩⟩
    · simp [NonDec]
    · simp [NonDec]
    · simp at h
  | case2 arr h piv ih1 ih2 =>
    rw [quick_sort_eq_of_big arr h]
    set p := arr.getD (arr.length / 2) 0 with hp
    have ih1' : NonDec (quick_sort (arr.filter (fun x => x < p))) := ih1
    have ih2' : NonDec (quick_sort (arr.filter (fun x => p < x))) := ih2
    have mem1 : ∀ x ∈ quick_sort (arr.filter (fun x => x < p)), x < p := by
      intro x hx
      have := (quick_sort_perm _).mem_iff.1 hx
      simpa using List.of_mem_filter this
    have mem2 : ∀ x ∈ arr.filter (fun x => x = p), x = p := by
      intro x hx
      simpa using List.of_mem_filter hx
    have mem3 : ∀ x ∈ quick_sort (arr.filter (fun x => p < x)), p < x := by
      intro x hx
      have := (quick_sort_perm _).mem_iff.1 hx
      simpa using List.of_mem_filter this
    rw [NonDec, List.Sorted, List.pairwise_append]
    refine ⟨?_, ih2', ?_⟩
    · rw [List.pairwise_append]
      refine ⟨ih1', ?_, ?_⟩
      · rw [List.pairwise_iff_forall_sublist]
        intro a b hs
        have ha := mem2 a (hs.subset (by simp))
        have hb := mem2 b (hs.subset (by simp))
        omega
      · intro a ha b hb
        have := mem1 a ha
        have := mem2 b hb
        omega
    · intro a ha b hb
      have hb3 := mem3 b hb
      rcases List.mem_append.1 ha with h1 | h1
      · have := mem1 a h1
        omega
      · have := mem2 a h1
        omega

theorem maxOf_le (a : Nat) (t : List Nat) : ∀ x ∈ a :: t, x ≤ maxOf a t := by
  induction t generalizing a with
  | nil => simp [maxOf]
  | cons b t ih =>
    intro x hx
    have step : maxOf a (b :: t) = maxOf (max a b) t := rfl
    rcases List.mem_cons.1 hx with rfl | hx
    · rw [step]
      exact le_trans (Nat.le_max_left x b) (ih _ _ (by simp))
    · rcases List.mem_cons.1 hx with rfl | hx
      · rw [step]
        exact le_trans (Nat.le_max_right a x) (ih _ _ (by simp))
      · rw [step]
        exact ih _ _ (by simp [hx])

theorem count_range_flatMap (c : Nat → Nat) (v m : Nat) :
    ((List.range m).flatMap (fun num => List.replicate (c num) num)).count v =
      if v < m then c v else 0 := by
  induction m with
  | zero => simp
  | succ m ih =>
    rw [List.range_succ, List.flatMap_append, List.count_append, ih]
    simp only [List.flatMap_cons, List.flatMap_nil, List.append_nil,
      List.count_replicate, beq_iff_eq]
    by_cases h2 : m = v
    · subst h2
      simp [Nat.lt_irrefl, Nat.lt_succ_self]
    · rw [if_neg h2]
      by_cases h3 : v < m
      · rw [if_pos h3, if_pos (by omega)]
        omega
      · rw [if_neg h3, if_neg (by omega)]

theorem counting_sort_perm (arr : List Nat) : counting_sort arr ~ arr := by
  match arr with
  | [] => rfl
  | a :: t =>
    rw [List.perm_iff_count]
    intro v
    show ((List.range (maxOf a t + 1)).flatMap
        (fun num => List.replicate ((a :: t).count num) num)).count v = _
    rw [count_range_flatMap]
    by_cases h : v < maxOf a t + 1
    · simp [h]
    · rw [if_neg h]
      have : v ∉ a :: t := by
        intro hv
        exact h (Nat.lt_succ_of_le (maxOf_le a t v hv))
      simp [List.count_eq_zero_of_not_mem this]

theorem sorted_range_flatMap (c : Nat → Nat) (m : Nat) :
    NonDec ((List.range m).flatMap (fun num => List.replicate (c num) num)) := by
  induction m with
  | zero => simp [NonDec]
  | succ m ih =>
    rw [List.range_succ, List.flatMap_append]
    simp only [List.flatMap_cons, List.flatMap_nil, List.append_nil]
    rw [NonDec, List.Sorted, List.pairwise_append]
    refine ⟨ih, ?_, ?_⟩
    · rw [List.pairwise_iff_forall_sublist]
      intro a b hs
      have ha := List.eq_of_mem_replicate (hs.subset (show a ∈ [a, b] by simp))
      have hb := List.eq_of_mem_replicate (hs.subset (show b ∈ [a, b] by simp))
      omega
    · intro a ha b hb
      have hb2 := List.eq_of_mem_replicate hb
      subst hb2
      rcases List.mem_flatMap.1 ha with ⟨num, hnum, ha2⟩
      have := List.eq_of_mem_replicate ha2
      subst this
      have := List.mem_range.1 hnum
      omega

theorem counting_sort_sorted (arr : List Nat) : NonDec (counting_sort arr) := by
  match arr with
  | [] => simp [counting_sort, NonDec]
  | a :: t => exact sorted_range_flatMap _ _

theorem minOf_le (a : Nat) (t : List Nat) : ∀ x ∈ a :: t, minOf a t ≤ x := by
  induction t generalizing a with
  | nil => simp [minOf]
  | cons b t ih =>
    intro x hx
    have step : minOf a (b :: t) = minOf (min a b) t := rfl
    rcases List.mem_cons.1 hx with rfl | hx
    · rw [step]
      exact le_trans (ih _ _ (by simp)) (Nat.min_le_left x b)
    · rcases List.mem_cons.1 hx with rfl | hx
      · rw [step]
        exact le_trans (ih _ _ (by simp)) (Nat.min_le_right a x)
      · rw [step]
        exact ih _ _ (by simp [hx])

theorem minOf_mem (a : Nat) (t : List Nat) : minOf a t ∈ a :: t := by
  induction t generalizing a with
  | nil => simp [minOf]
  | cons b t ih =>
    have step : minOf a (b :: t) = minOf (min a b) t := rfl
    rw [step]
    have := ih (min a b)
    rcases List.mem_cons.1 this with h | h
    · rcases min_choice a b with h2 | h2 <;>
        rw [h2] at h ⊢ <;> simp [h]
    · simp [h]

theorem replaceFirst_cons_perm {M : Nat} (t : List Nat) (a : Nat) (hM : M ∈ t) :
    M :: replaceFirst t M a ~ a :: t := by
  induction t with
  | nil => simp at hM
  | cons b t ih =>
    by_cases h : b = M
    · subst h
      simp only [replaceFirst, if_pos rfl]
      exact List.Perm.swap a b t
    · rcases List.mem_cons.1 hM with h2 | h2
      · exact absurd h2.symm h
      · simp only [replaceFirst, if_neg h]
        calc M :: b :: replaceFirst t M a
            ~ b :: M :: replaceFirst t M a := List.Perm.swap b M _
          _ ~ b :: a :: t := (ih h2).cons b
          _ ~ a :: b :: t := List.Perm.swap a b t

theorem selection_sort_perm (arr : List Nat) : selection_sort arr ~ arr := by
  induction arr using selection_sort.induct with
  | case1 => simp [selection_sort]
  | case2 a t M hM ih =>
    rw [selection_sort, if_pos hM]
    exact ih.cons a
  | case3 a t M hM ih =>
    rw [selection_sort, if_neg hM]
    have hMt : M ∈ t := by
      rcases List.mem_cons.1 (minOf_mem a t) with h | h
      · exact absurd h.symm hM
      · exact h
    exact (ih.cons M).trans (replaceFirst_cons_perm t a hMt)

theorem selection_sort_sorted (arr : List Nat) : NonDec (selection_sort arr) := by
  induction arr using selection_sort.induct with
  | case1 => simp [selection_sort, NonDec]
  | case2 a t M hM ih =>
    rw [selection_sort, if_pos hM]
    rw [NonDec, List.sorted_cons]
    refine ⟨?_, ih⟩
    intro b hb
    have := (selection_sort_perm t).mem_iff.1 hb
    have hle := minOf_le a t b (by simp [this])
    omega
  | case3 a t M hM ih =>
    rw [selection_sort, if_neg hM]
    rw [NonDec, List.sorted_cons]
    refine ⟨?_, ih⟩
    intro b hb
    have hMt : M ∈ t := by
      rcases List.mem_cons.1 (minOf_mem a t) with h | h
      · exact absurd h.symm hM
      · exact h
    have hmem := (selection_sort_perm _).mem_iff.1 hb
    have : b ∈ M :: replaceFirst t M a := by simp [hmem]
    have hb2 := (replaceFirst_cons_perm t a hMt).mem_iff.1 this
    exact minOf_le a t b (by
      rcases List.mem_cons.1 hb2 with rfl | h
      · simp
      · simp [h])

theorem bpass_perm (l : List Nat) (k : Nat) : (bpass l k).1 ~ l := by
  induction l, k using bpass.induct with
  | case1 l => rcases l with _ | ⟨a, _ | ⟨b, t⟩⟩ <;> rfl
  | case2 k => rfl
  | case3 a k => rfl
  | case4 a b t k h ih =>
    simp only [bpass, if_pos h]
    exact (ih.cons b).trans (List.Perm.swap a b t)
  | case5 a b t k h ih =>
    simp only [bpass, if_neg h]
    exact ih.cons a

theorem bpass_length (l : List Nat) (k : Nat) : (bpass l k).1.length = l.length :=
  (bpass_perm l k).length_eq

theorem bpass_drop (l : List Nat) (k : Nat) :
    (bpass l k).1.drop (k + 1) = l.drop (k + 1) := by
  induction l, k using bpass.induct with
  | case1 l => rcases l with _ | ⟨a, _ | ⟨b, t⟩⟩ <;> rfl
  | case2 k => rfl
  | case3 a k => rfl
  | case4 a b t k h ih =>
    simp only [bpass, if_pos h]
    show (b :: (bpass (a :: t) k).1).drop (k + 2) = t.drop k
    rw [List.drop_succ_cons, ih]
    rfl
  | case5 a b t k h ih =>
    simp only [bpass, if_neg h]
    show (a :: (bpass (b :: t) k).1).drop (k + 2) = t.drop k
    rw [List.drop_succ_cons, ih]
    rfl

theorem bpass_take_perm (l : List Nat) (k : Nat) :
    (bpass l k).1.take (k + 1) ~ l.take (k + 1) := by
  induction l, k using bpass.induct with
  | case1 l => rcases l with _ | ⟨a, _ | ⟨b, t⟩⟩ <;> rfl
  | case2 k => rfl
  | case3 a k => rfl
  | case4 a b t k h ih =>
    simp only [bpass, if_pos h]
    show (b :: (bpass (a :: t) k).1).take (k + 2) ~ (a :: b :: t).take (k + 2)
    rw [List.take_succ_cons, List.take_succ_cons, List.take_succ_cons]
    exact ((ih.cons b).trans ((List.Perm.swap a b _).trans (List.Perm.refl _)))
  | case5 a b t k h ih =>
    simp only [bpass, if_neg h]
    show (a :: (bpass (b :: t) k).1).take (k + 2) ~ (a :: b :: t).take (k + 2)
    rw [List.take_succ_cons, List.take_succ_cons]
    exact ih.cons a

theorem bpass_last_max (l : List Nat) (k : Nat) (hk : k < l.length) :
    ∀ x ∈ (bpass l k).1.take (k + 1), x ≤ (bpass l k).1.getD k 0 := by
  induction l, k using bpass.induct with
  | case1 l =>
    intro x hx
    rcases l with _ | ⟨a, t⟩
    · simp at hk
    · simp only [bpass] at hx ⊢
      rw [List.take_succ_cons, List.take_zero] at hx
      simp at hx
      simp [hx, lget]
  | case2 k => simp at hk
  | case3 a k => simp at hk
  | case4 a b t k h ih =>
    have hk2 : k < (a :: t).length := by simpa using Nat.lt_of_succ_lt_succ hk
    intro x hx
    simp only [bpass, if_pos h] at hx ⊢
    rw [List.take_succ_cons] at hx
    have hgd : (b :: (bpass (a :: t) k).1).getD (k + 1) 0 = (bpass (a :: t) k).1.getD k 0 := rfl
    rw [hgd]
    have ha_mem : a ∈ (bpass (a :: t) k).1.take (k + 1) := by
      have : a ∈ (a :: t).take (k + 1) := by
        rw [List.take_succ_cons]
        simp
      exact (bpass_take_perm (a :: t) k).mem_iff.2 this
    rcases List.mem_cons.1 hx with rfl | hx
    · exact le_trans (le_of_lt h) (ih hk2 a ha_mem)
    · exact ih hk2 x hx
  | case5 a b t k h ih =>
    have hk2 : k < (b :: t).length := by simpa using Nat.lt_of_succ_lt_succ hk
    intro x hx
    simp only [bpass, if_neg h] at hx ⊢
    rw [List.take_succ_cons] at hx
    have hgd : (a :: (bpass (b :: t) k).1).getD (k + 1) 0 = (bpass (b :: t) k).1.getD k 0 := rfl
    rw [hgd]
    have hb_mem : b ∈ (bpass (b :: t) k).1.take (k + 1) := by
      have : b ∈ (b :: t).take (k + 1) := by
        rw [List.take_succ_cons]
        simp
      exact (bpass_take_perm (b :: t) k).mem_iff.2 this
    rcases List.mem_cons.1 hx with rfl | hx
    · exact le_trans (Nat.le_of_not_lt h) (ih hk2 b hb_mem)
    · exact ih hk2 x hx

theorem bpass_no_swap_eq (l : List Nat) (k : Nat) (h : (bpass l k).2 = false) :
    (bpass l k).1 = l := by
  induction l, k using bpass.induct with
  | case1 l => rcases l with _ | ⟨a, _ | ⟨b, t⟩⟩ <;> rfl
  | case2 k => rfl
  | case3 a k => rfl
  | case4 a b t k hlt ih => simp [bpass, if_pos hlt] at h
  | case5 a b t k hlt ih =>
    simp only [bpass, if_neg hlt] at h ⊢
    rw [ih h]

theorem bpass_no_swap_chain (l : List Nat) (k : Nat) (h : (bpass l k).2 = false) :
    List.Chain' (· ≤ ·) (l.take (k + 1)) := by
  induction l, k using bpass.induct with
  | case1 l =>
    rcases l with _ | ⟨a, t⟩
    · simp
    · rw [List.take_succ_cons, List.take_zero]
      simp
  | case2 k => simp
  | case3 a k => simp
  | case4 a b t k hlt ih => simp [bpass, if_pos hlt] at h
  | case5 a b t k hlt ih =>
    simp only [bpass, if_neg hlt] at h
    rw [List.take_succ_cons]
    have hch := ih h
    rcases k with _ | k
    · simp
      omega
    · rw [List.take_succ_cons] at hch ⊢
      exact List.Chain'.cons (Nat.le_of_not_lt hlt) hch

/-- The sortedness invariant of the outer bubble loop: positions at or past
`f` hold an already-sorted suffix that dominates the unsorted prefix. -/
def BubbleInv (f : Nat) (l : List Nat) : Prop :=
  (∀ x ∈ l.take f, ∀ y ∈ l.drop f, x ≤ y) ∧ NonDec (l.drop f)

theorem getD_mem_take (l : List Nat) : ∀ (f : Nat), f < l.length →
    l.getD f 0 ∈ l.take (f + 1) := by
  induction l with
  | nil => intro f h; simp at h
  | cons a t ih =>
    intro f h
    cases f with
    | zero => simp
    | succ f =>
      rw [List.getD_cons_succ, List.take_succ_cons]
      exact List.mem_cons.2 (Or.inr (ih f (by simpa using h)))

theorem mem_take_succ_of_mem_take {x : Nat} {l : List Nat} {f : Nat}
    (h : x ∈ l.take f) : x ∈ l.take (f + 1) := by
  rw [List.take_succ]
  exact List.mem_append.2 (Or.inl h)

theorem bubbleGo_sorted : ∀ (f : Nat) (l : List Nat), f ≤ l.length →
    BubbleInv f l → NonDec (bubbleGo f l) := by
  intro f
  induction f with
  | zero =>
    intro l hf hinv
    simpa [bubbleGo] using hinv.2
  | succ f ih =>
    intro l hf hinv
    have hfl : f < l.length := by omega
    rw [bubbleGo]
    cases hsw : (bpass l f).2 with
    | false =>
      simp only [hsw, Bool.false_eq_true, if_false]
      have heq := bpass_no_swap_eq l f hsw
      rw [heq]
      have hch := bpass_no_swap_chain l f hsw
      have hsorted_take : List.Sorted (· ≤ ·) (l.take (f + 1)) :=
        List.chain'_iff_pairwise.1 hch
      rw [NonDec, ← List.take_append_drop (f + 1) l, List.Sorted, List.pairwise_append]
      exact ⟨hsorted_take, hinv.2, hinv.1⟩
    | true =>
      simp only [hsw, if_true]
      have hlen := bpass_length l f
      have hflp : f < (bpass l f).1.length := by omega
      have hd := List.getD_eq_getElem?_getD (bpass l f).1 f 0
      have hdval : (bpass l f).1.getD f 0 = (bpass l f).1[f] := by
        rw [hd, List.getElem?_eq_getElem hflp]
        rfl
      have hdmem_p : (bpass l f).1.getD f 0 ∈ (bpass l f).1.take (f + 1) :=
        getD_mem_take _ f hflp
      have hdmem_l : (bpass l f).1.getD f 0 ∈ l.take (f + 1) :=
        (bpass_take_perm l f).mem_iff.1 hdmem_p
      apply ih
      · omega
      constructor
      · intro x hx y hy
        have hx1 : x ∈ (bpass l f).1.take (f + 1) := mem_take_succ_of_mem_take hx
        have hdrop : (bpass l f).1.drop f =
            (bpass l f).1.getD f 0 :: l.drop (f + 1) := by
          rw [List.drop_eq_getElem_cons hflp, hdval, bpass_drop]
        rw [hdrop] at hy
        rcases List.mem_cons.1 hy with rfl | hy2
        · exact bpass_last_max l f hfl x hx1
        · have hx2 : x ∈ l.take (f + 1) := (bpass_take_perm l f).mem_iff.1 hx1
          exact hinv.1 x hx2 y hy2
      · have hdrop : (bpass l f).1.drop f =
            (bpass l f).1.getD f 0 :: l.drop (f + 1) := by
          rw [List.drop_eq_getElem_cons hflp, hdval, bpass_drop]
        rw [hdrop, NonDec, List.sorted_cons]
        refine ⟨?_, hinv.2⟩
        intro b hb
        exact hinv.1 _ hdmem_l b hb

theorem bubbleGo_perm : ∀ (f : Nat) (l : List Nat), bubbleGo f l ~ l := by
  intro f
  induction f with
  | zero => intro l; rfl
  | succ f ih =>
    intro l
    rw [bubbleGo]
    cases hsw : (bpass l f).2 with
    | false =>
      simp only [hsw, Bool.false_eq_true, if_false]
      exact bpass_perm l f
    | true =>
      simp only [hsw, if_true]
      exact (ih _).trans (bpass_perm l f)

theorem bubble_sort_perm (arr : List Nat) : bubble_sort arr ~ arr :=
  bubbleGo_perm arr.length arr

theorem bubble_sort_sorted (arr : List Nat) : NonDec (bubble_sort arr) := by
  apply bubbleGo_sorted arr.length arr le_rfl
  constructor
  · intro x hx y hy
    simp at hy
  · simp [NonDec]

/-! ### Heap sort proofs -/

theorem lget_set (a : List Nat) (i k v : Nat) :
    lget (a.set i v) k = if i = k ∧ i < a.length then v else lget a k := by
  unfold lget
  rw [List.getD_eq_getElem?_getD, List.getD_eq_getElem?_getD, List.getElem?_set]
  by_cases h1 : i = k
  · subst h1
    by_cases h2 : i < a.length
    · simp [h2]
    · rw [if_pos rfl, if_neg h2, if_neg (by omega), List.getElem?_eq_none (by omega)]
  · simp [h1]

theorem lswap_length (a : List Nat) (i j : Nat) : (lswap a i j).length = a.length := by
  simp [lswap]

theorem lget_lswap_fst {a : List Nat} {i j : Nat} (hj : j < a.length) :
    lget (lswap a i j) j = lget a i := by
  unfold lswap
  rw [lget_set, if_pos ⟨rfl, by simpa using hj⟩]

theorem lget_lswap_snd {a : List Nat} {i j : Nat} (hi : i < a.length) (hne : i ≠ j) :
    lget (lswap a i j) i = lget a j := by
  unfold lswap
  rw [lget_set, if_neg (fun hcon => hne hcon.1.symm), lget_set, if_pos ⟨rfl, hi⟩]

theorem lget_lswap_other {a : List Nat} {i j k : Nat} (h1 : k ≠ i) (h2 : k ≠ j) :
    lget (lswap a i j) k = lget a k := by
  unfold lswap
  rw [lget_set, if_neg (fun hcon => h2 hcon.1.symm),
    lget_set, if_neg (fun hcon => h1 hcon.1.symm)]

theorem set_cons_perm (t : List Nat) : ∀ (m : Nat) (x : Nat), m < t.length →
    lget t m :: t.set m x ~ x :: t := by
  induction t with
  | nil => intro m x h; simp at h
  | cons y s ih =>
    intro m x h
    cases m with
    | zero =>
      rw [List.set_cons_zero]
      show lget (y :: s) 0 :: x :: s ~ x :: y :: s
      rw [show lget (y :: s) 0 = y from rfl]
      exact List.Perm.swap x y s
    | succ m =>
      rw [List.set_cons_succ]
      show lget s m :: y :: s.set m x ~ x :: y :: s
      calc lget s m :: y :: s.set m x
          ~ y :: lget s m :: s.set m x := List.Perm.swap y (lget s m) _
        _ ~ y :: x :: s := (ih m x (by simpa using h)).cons y
        _ ~ x :: y :: s := List.Perm.swap x y s

theorem lswap_perm : ∀ (a : List Nat) (i j : Nat), i < a.length → j < a.length →
    lswap a i j ~ a := by
  intro a
  induction a with
  | nil => intro i j hi hj; simp at hi
  | cons x t ih =>
    intro i j hi hj
    cases i with
    | zero =>
      cases j with
      | zero =>
        unfold lswap
        rw [show lget (x :: t) 0 = x from rfl, List.set_cons_zero, List.set_cons_zero]
      | succ m =>
        unfold lswap
        rw [show lget (x :: t) 0 = x from rfl,
          show lget (x :: t) (m + 1) = lget t m from rfl,
          List.set_cons_zero, List.set_cons_succ]
        exact set_cons_perm t m x (by simpa using hj)
    | succ p =>
      cases j with
      | zero =>
        unfold lswap
        rw [show lget (x :: t) 0 = x from rfl,
          show lget (x :: t) (p + 1) = lget t p from rfl,
          List.set_cons_succ, List.set_cons_zero]
        exact set_cons_perm t p x (by simpa using hi)
      | succ m =>
        unfold lswap
        rw [show lget (x :: t) (p + 1) = lget t p from rfl,
          show lget (x :: t) (m + 1) = lget t m from rfl,
          List.set_cons_succ, List.set_cons_succ]
        show x :: (t.set p (lget t m)).set m (lget t p) ~ x :: t
        exact (ih p m (by simpa using hi) (by simpa using hj)).cons x

theorem drop_lswap (a : List Nat) (i j n : Nat) (hi : i < n) (hj : j < n) :
    (lswap a i j).drop n = a.drop n := by
  unfold lswap
  rw [List.drop_set, if_pos hj, List.drop_set, if_pos hi]

theorem perm_take_of_drop_eq {b a : List Nat} (n : Nat) (hp : b ~ a)
    (hd : b.drop n = a.drop n) : b.take n ~ a.take n := by
  have h2 : b.take n ++ b.drop n ~ a.take n ++ a.drop n := by
    rw [List.take_append_drop, List.take_append_drop]
    exact hp
  rw [hd] at h2
  exact (List.perm_append_right_iff _).1 h2

/-- Binary-heap descendant relation on array indices: `HeapDesc i k` holds
when `k` lies in the subtree rooted at `i`. -/
inductive HeapDesc : Nat → Nat → Prop
  | refl (i : Nat) : HeapDesc i i
  | left {i c : Nat} : HeapDesc i c → HeapDesc i (2 * c + 1)
  | right {i c : Nat} : HeapDesc i c → HeapDesc i (2 * c + 2)

theorem HeapDesc.le {i k : Nat} (h : HeapDesc i k) : i ≤ k := by
  induction h with
  | refl => exact le_rfl
  | left _ ih => omega
  | right _ ih => omega

theorem HeapDesc.trans {i j k : Nat} (h1 : HeapDesc i j) (h2 : HeapDesc j k) :
    HeapDesc i k := by
  induction h2 with
  | refl => exact h1
  | left _ ih => exact HeapDesc.left ih
  | right _ ih => exact HeapDesc.right ih

theorem not_heapDesc_of_lt {i k : Nat} (h : k < i) : ¬ HeapDesc i k :=
  fun hd => absurd hd.le (by omega)

theorem not_heapDesc_child {L j c : Nat} (hL : ¬ HeapDesc L j)
    (hc : c = 2 * j + 1 ∨ c = 2 * j + 2) (hne : c ≠ L) : ¬ HeapDesc L c := by
  intro h
  cases h with
  | refl => exact hne rfl
  | @left x hd =>
    have hxj : x = j := by omega
    subst hxj
    exact hL hd
  | @right x hd =>
    have hxj : x = j := by omega
    subst hxj
    exact hL hd

theorem largestIdx_cases (a : List Nat) (n i : Nat) :
    largestIdx a n i = i ∨ largestIdx a n i = 2 * i + 1 ∨
      largestIdx a n i = 2 * i + 2 := by
  simp only [largestIdx]
  split <;> split <;> omega

theorem largestIdx_ge_self (a : List Nat) (n i : Nat) :
    lget a i ≤ lget a (largestIdx a n i) := by
  simp only [largestIdx]
  split <;> split <;> omega

theorem largestIdx_ge_left (a : List Nat) (n i : Nat) (h : 2 * i + 1 < n) :
    lget a (2 * i + 1) ≤ lget a (largestIdx a n i) := by
  simp only [largestIdx]
  split <;> split <;> omega

theorem largestIdx_ge_right (a : List Nat) (n i : Nat) (h : 2 * i + 2 < n) :
    lget a (2 * i + 2) ≤ lget a (largestIdx a n i) := by
  simp only [largestIdx]
  split <;> split <;> omega

theorem heapify_length (a : List Nat) (n i : Nat) :
    (heapify a n i).length = a.length := by
  induction a, n, i using heapify.induct with
  | case1 a n i hL => rw [heapify, dif_pos hL]
  | case2 a n i hL ih =>
    rw [heapify, dif_neg hL]
    rw [ih, lswap_length]

theorem heapify_perm (a : List Nat) (n i : Nat) (hn : n ≤ a.length) :
    heapify a n i ~ a := by
  induction a, n, i using heapify.induct with
  | case1 a n i hL => rw [heapify, dif_pos hL]
  | case2 a n i hL ih =>
    rw [heapify, dif_neg hL]
    rcases largestIdx_eq_or a n i with he | ⟨h1, h2⟩
    · exact absurd he hL
    · have hi : i < a.length := by omega
      have hLlen : largestIdx a n i < a.length := by omega
      exact (ih (by rw [lswap_length]; exact hn)).trans (lswap_perm a i _ hi hLlen)

theorem heapify_drop (a : List Nat) (n i : Nat) :
    (heapify a n i).drop n = a.drop n := by
  induction a, n, i using heapify.induct with
  | case1 a n i hL => rw [heapify, dif_pos hL]
  | case2 a n i hL ih =>
    rw [heapify, dif_neg hL]
    rcases largestIdx_eq_or a n i with he | ⟨h1, h2⟩
    · exact absurd he hL
    · rw [ih, drop_lswap a i _ n (by omega) h2]

theorem heapify_local (a : List Nat) (n i : Nat) (hn : n ≤ a.length) :
    ∀ k, ¬ HeapDesc i k → lget (heapify a n i) k = lget a k := by
  induction a, n, i using heapify.induct with
  | case1 a n i hL => intro k hk; rw [heapify, dif_pos hL]
  | case2 a n i hL ih =>
    intro k hk
    rw [heapify, dif_neg hL]
    rcases largestIdx_eq_or a n i with he | ⟨h1, h2⟩
    · exact absurd he hL
    · have hdescL : HeapDesc i (largestIdx a n i) := by
        rcases largestIdx_cases a n i with he | he | he
        · exact absurd he hL
        · rw [he]; exact HeapDesc.left (HeapDesc.refl i)
        · rw [he]; exact HeapDesc.right (HeapDesc.refl i)
      have hnotdesc : ¬ HeapDesc (largestIdx a n i) k := by
        intro h
        exact hk (hdescL.trans h)
      rw [ih (by rw [lswap_length]; exact hn) k hnotdesc]
      exact lget_lswap_other (fun he => hk (he ▸ HeapDesc.refl i))
        (fun he => hk (he ▸ hdescL))

theorem heapify_root (a : List Nat) (n i : Nat) (hn : n ≤ a.length) :
    lget (heapify a n i) i = lget a (largestIdx a n i) := by
  rw [heapify]
  by_cases hL : largestIdx a n i = i
  · rw [dif_pos hL, hL]
  · rw [dif_neg hL]
    rcases largestIdx_eq_or a n i with he | ⟨h1, h2⟩
    · exact absurd he hL
    · rw [heapify_local _ n _ (by rw [lswap_length]; exact hn) i
        (not_heapDesc_of_lt h1)]
      exact lget_lswap_snd (by omega) (by omega)

/-- Max-heap property restricted to nodes with index at least `i` among the
first `n` array positions. -/
def IsHeapAbove (a : List Nat) (n i : Nat) : Prop :=
  ∀ j, i ≤ j → ∀ c, (c = 2 * j + 1 ∨ c = 2 * j + 2) → c < n → lget a c ≤ lget a j

theorem heapify_above (a : List Nat) (n i : Nat) (hn : n ≤ a.length)
    (h : IsHeapAbove a n (i + 1)) : IsHeapAbove (heapify a n i) n i := by
  induction a, n, i using heapify.induct with
  | case1 a n i hL =>
    rw [heapify]
    simp only [hL, dif_pos]
    intro j hj c hc hcn
    rcases Nat.eq_or_lt_of_le hj with rfl | hj2
    · rcases hc with rfl | rfl
      · calc lget a (2 * i + 1) ≤ lget a (largestIdx a n i) :=
            largestIdx_ge_left a n i hcn
          _ = lget a i := by rw [hL]
      · calc lget a (2 * i + 2) ≤ lget a (largestIdx a n i) :=
            largestIdx_ge_right a n i hcn
          _ = lget a i := by rw [hL]
    · exact h j hj2 c hc hcn
  | case2 a n i hL ih =>
    rw [heapify, dif_neg hL]
    rcases largestIdx_eq_or a n i with he | ⟨h1, h2⟩
    · exact absurd he hL
    set LL := largestIdx a n i with hLL
    have hia : i < a.length := by omega
    have hLa : LL < a.length := by omega
    have hLchild : LL = 2 * i + 1 ∨ LL = 2 * i + 2 := by
      rcases largestIdx_cases a n i with he | he | he
      · exact absurd he hL
      · exact Or.inl he
      · exact Or.inr he
    have hdescL : HeapDesc i LL := by
      rcases hLchild with he | he
      · rw [he]; exact HeapDesc.left (HeapDesc.refl i)
      · rw [he]; exact HeapDesc.right (HeapDesc.refl i)
    have hblen : (lswap a i LL).length = a.length := lswap_length a i LL
    -- the swapped array is still a heap strictly below LL
    have hstep : IsHeapAbove (lswap a i LL) n (LL + 1) := by
      intro j hj c hc hcn
      have hcL : lget (lswap a i LL) c = lget a c :=
        lget_lswap_other (by omega) (by omega)
      have hjL : lget (lswap a i LL) j = lget a j :=
        lget_lswap_other (by omega) (by omega)
      rw [hcL, hjL]
      exact h j (by omega) c hc hcn
    have ihR := ih (by rw [hblen]; exact hn) hstep
    intro j hj c hc hcn
    rcases Nat.lt_or_ge j LL with hjlt | hjge
    case inr => exact ihR j hjge c hc hcn
    rcases Nat.eq_or_lt_of_le hj with rfl | hj2
    · -- j = i: the root of this sift step
      have hvi : lget (heapify (lswap a i LL) n LL) i = lget a LL := by
        rw [heapify_local _ n _ (by rw [hblen]; exact hn) i
          (not_heapDesc_of_lt h1)]
        exact lget_lswap_snd hia (by omega)
      rw [hvi]
      by_cases hceq : c = LL
      · subst hceq
        rw [heapify_root _ n _ (by rw [hblen]; exact hn)]
        rcases largestIdx_eq_or (lswap a i LL) n LL with he2 | ⟨h1b, h2b⟩
        · rw [he2]
          rw [lget_lswap_fst hLa]
          exact largestIdx_ge_self a n i
        · have hCchild : largestIdx (lswap a i LL) n LL = 2 * LL + 1 ∨
              largestIdx (lswap a i LL) n LL = 2 * LL + 2 := by
            rcases largestIdx_cases (lswap a i LL) n LL with he | he | he
            · omega
            · exact Or.inl he
            · exact Or.inr he
          have hCval : lget (lswap a i LL) (largestIdx (lswap a i LL) n LL) =
              lget a (largestIdx (lswap a i LL) n LL) :=
            lget_lswap_other (by omega) (by omega)
          rw [hCval]
          exact h LL (by omega) _ hCchild h2b
      · -- c is the other child of i, untouched by the recursion
        have hcval : lget (heapify (lswap a i LL) n LL) c = lget a c := by
          rw [heapify_local _ n _ (by rw [hblen]; exact hn) c
            (not_heapDesc_child (not_heapDesc_of_lt h1) hc hceq)]
          exact lget_lswap_other (by omega) (by omega)
        rw [hcval]
        rcases hc with rfl | rfl
        · exact largestIdx_ge_left a n i hcn
        · exact largestIdx_ge_right a n i hcn
    · -- i < j < LL: strictly between the root and the swapped child
      have hcgt : c > LL := by omega
      have hjval : lget (heapify (lswap a i LL) n LL) j = lget a j := by
        rw [heapify_local _ n _ (by rw [hblen]; exact hn) j
          (not_heapDesc_of_lt hjlt)]
        exact lget_lswap_other (by omega) (by omega)
      have hcval : lget (heapify (lswap a i LL) n LL) c = lget a c := by
        rw [heapify_local _ n _ (by rw [hblen]; exact hn) c
          (not_heapDesc_child (not_heapDesc_of_lt hjlt) hc (by omega))]
        exact lget_lswap_other (by omega) (by omega)
      rw [hjval, hcval]
      exact h j (by omega) c hc hcn

theorem isHeapAbove_root_max {a : List Nat} {n : Nat} (h : IsHeapAbove a n 0) :
    ∀ j, j < n → lget a j ≤ lget a 0 := by
  intro j
  induction j using Nat.strong_induction_on with
  | _ j ih =>
    intro hj
    cases j with
    | zero => exact le_rfl
    | succ m =>
      have hp : (m + 1 - 1) / 2 < m + 1 := by omega
      have hchild : m + 1 = 2 * ((m + 1 - 1) / 2) + 1 ∨
          m + 1 = 2 * ((m + 1 - 1) / 2) + 2 := by omega
      exact le_trans (h _ (Nat.zero_le _) _ hchild hj) (ih _ hp (by omega))

theorem buildHeap_length (a : List Nat) (n : Nat) : ∀ k,
    (buildHeap a n k).length = a.length := by
  intro k
  induction k generalizing a with
  | zero => rfl
  | succ k ih => rw [buildHeap, ih, heapify_length]

theorem buildHeap_perm (a : List Nat) (n : Nat) (hn : n ≤ a.length) : ∀ k,
    buildHeap a n k ~ a := by
  intro k
  induction k generalizing a with
  | zero => rfl
  | succ k ih =>
    rw [buildHeap]
    exact (ih _ (by rw [heapify_length]; exact hn)).trans (heapify_perm a n k hn)

theorem buildHeap_drop (a : List Nat) (n : Nat) : ∀ k,
    (buildHeap a n k).drop n = a.drop n := by
  intro k
  induction k generalizing a with
  | zero => rfl
  | succ k ih => rw [buildHeap, ih, heapify_drop]

theorem buildHeap_above (a : List Nat) (n : Nat) (hn : n ≤ a.length) : ∀ k,
    IsHeapAbove a n k → IsHeapAbove (buildHeap a n k) n 0 := by
  intro k
  induction k generalizing a with
  | zero => exact fun h => h
  | succ k ih =>
    intro h
    rw [buildHeap]
    exact ih _ (by rw [heapify_length]; exact hn) (heapify_above a n k hn h)

theorem isHeapAbove_init (a : List Nat) : IsHeapAbove a a.length (a.length / 2) := by
  intro j hj c hc hcn
  omega

theorem exists_lget_of_mem_take {x : Nat} {a : List Nat} {n : Nat}
    (h : x ∈ a.take n) : ∃ m, m < n ∧ m < a.length ∧ lget a m = x := by
  obtain ⟨i, hi, hEq⟩ := List.getElem_of_mem h
  have hlen : i < n ∧ i < a.length := by
    have := hi
    rw [List.length_take] at this
    omega
  refine ⟨i, hlen.1, hlen.2, ?_⟩
  rw [← hEq, List.getElem_take]
  unfold lget
  rw [List.getD_eq_getElem?_getD, List.getElem?_eq_getElem hlen.2]
  rfl

theorem mem_take_of_le {x : Nat} {l : List Nat} {m n : Nat} (hmn : m ≤ n)
    (h : x ∈ l.take m) : x ∈ l.take n := by
  have h1 : l.take m = (l.take n).take m := by
    rw [List.take_take, Nat.min_eq_left hmn]
  rw [h1] at h
  exact (List.take_sublist _ _).subset h

theorem extractLoop_perm : ∀ (i : Nat) (a : List Nat), i < a.length →
    extractLoop a i ~ a := by
  intro i
  induction i with
  | zero => intro a ha; rfl
  | succ j ih =>
    intro a ha
    rw [extractLoop]
    have h0 : 0 < a.length := by omega
    have hj1 : j + 1 < a.length := ha
    have hlenb : (lswap a 0 (j + 1)).length = a.length := lswap_length a 0 (j + 1)
    have hlenc : (heapify (lswap a 0 (j + 1)) (j + 1) 0).length = a.length := by
      rw [heapify_length, hlenb]
    calc extractLoop (heapify (lswap a 0 (j + 1)) (j + 1) 0) j
        ~ heapify (lswap a 0 (j + 1)) (j + 1) 0 := ih _ (by omega)
      _ ~ lswap a 0 (j + 1) := heapify_perm _ _ _ (by omega)
      _ ~ a := lswap_perm a 0 (j + 1) h0 hj1

theorem drop_lswap_head (a : List Nat) (j : Nat) (h : j + 1 < a.length) :
    (lswap a 0 (j + 1)).drop (j + 1) = lget a 0 :: a.drop (j + 2) := by
  unfold lswap
  rw [List.drop_set, if_neg (by omega), List.drop_set, if_pos (by omega)]
  have hsub : j + 1 - (j + 1) = 0 := by omega
  rw [hsub, List.drop_eq_getElem_cons h, List.set_cons_zero]

theorem extractLoop_sorted : ∀ (i : Nat) (a : List Nat), i + 1 ≤ a.length →
    IsHeapAbove a (i + 1) 0 → NonDec (a.drop (i + 1)) →
    (∀ x ∈ a.take (i + 1), ∀ y ∈ a.drop (i + 1), x ≤ y) →
    NonDec (extractLoop a i) := by
  intro i
  induction i with
  | zero =>
    intro a hlen hheap hsorted hcross
    show NonDec a
    rw [NonDec, ← List.take_append_drop 1 a, List.Sorted, List.pairwise_append]
    refine ⟨?_, hsorted, hcross⟩
    rcases a with _ | ⟨x, t⟩
    · simp
    · simp
  | succ j ih =>
    intro a hlen hheap hsorted hcross
    rw [extractLoop]
    have hj1 : j + 1 < a.length := by omega
    have h0 : 0 < a.length := by omega
    have hlenb : (lswap a 0 (j + 1)).length = a.length := lswap_length a 0 (j + 1)
    set b := lswap a 0 (j + 1) with hb
    set c := heapify b (j + 1) 0 with hc
    have hlenc : c.length = a.length := by rw [hc, heapify_length, hlenb]
    -- every element of the first j+2 positions is at most the root value
    have hroot : ∀ x ∈ a.take (j + 2), x ≤ lget a 0 := by
      intro x hx
      obtain ⟨m, hm1, hm2, hm3⟩ := exists_lget_of_mem_take hx
      rw [← hm3]
      exact isHeapAbove_root_max hheap m hm1
    -- membership transfer from the shrunk prefix into the old prefix
    have htake2 : (lswap a 0 (j + 1)).take (j + 2) ~ a.take (j + 2) := by
      apply perm_take_of_drop_eq
      · exact lswap_perm a 0 (j + 1) h0 hj1
      · unfold lswap
        rw [List.drop_set, if_pos (by omega), List.drop_set, if_pos (by omega)]
    have hmem_c_a : ∀ x ∈ c.take (j + 1), x ∈ a.take (j + 2) := by
      intro x hx
      have h1 : c.take (j + 1) ~ b.take (j + 1) := by
        apply perm_take_of_drop_eq
        · exact heapify_perm b (j + 1) 0 (by rw [hlenb]; omega)
        · exact heapify_drop b (j + 1) 0
      have h2 : x ∈ b.take (j + 1) := h1.mem_iff.1 hx
      have h3 : x ∈ b.take (j + 2) := mem_take_of_le (by omega) h2
      exact htake2.mem_iff.1 h3
    have hdropc : c.drop (j + 1) = lget a 0 :: a.drop (j + 2) := by
      rw [hc, heapify_drop, hb, drop_lswap_head a j hj1]
    apply ih c (by omega)
    · -- heap property on the shrunk prefix
      apply heapify_above b (j + 1) 0 (by rw [hlenb]; omega)
      intro j2 hj2 c2 hc2 hc2n
      have hc2ne : c2 ≠ 0 ∧ c2 ≠ j + 1 := by omega
      have hj2ne : j2 ≠ 0 ∧ j2 ≠ j + 1 := by omega
      rw [hb, lget_lswap_other hc2ne.1 hc2ne.2, lget_lswap_other hj2ne.1 hj2ne.2]
      exact hheap j2 (by omega) c2 hc2 (by omega)
    · -- sorted suffix grows by the extracted root
      rw [hdropc, NonDec, List.sorted_cons]
      refine ⟨?_, hsorted⟩
      intro y hy
      exact hcross _ (mem_take_of_le (by omega) (getD_mem_take a 0 (by omega))) y hy
    · -- the remaining prefix is still dominated by the new suffix
      intro x hx y hy
      rw [hdropc] at hy
      have hxa : x ∈ a.take (j + 2) := hmem_c_a x hx
      rcases List.mem_cons.1 hy with rfl | hy2
      · exact hroot x hxa
      · exact hcross x hxa y hy2

theorem heap_sort_perm (arr : List Nat) : heap_sort arr ~ arr := by
  unfold heap_sort
  rcases arr with _ | ⟨x, t⟩
  · rfl
  · have hlen : (x :: t).length - 1 < (buildHeap (x :: t) (x :: t).length
        ((x :: t).length / 2)).length := by
      rw [buildHeap_length]
      simp
    exact (extractLoop_perm _ _ hlen).trans
      (buildHeap_perm (x :: t) (x :: t).length le_rfl _)

theorem heap_sort_sorted (arr : List Nat) : NonDec (heap_sort arr) := by
  unfold heap_sort
  rcases arr with _ | ⟨x, t⟩
  · simp [buildHeap, extractLoop, NonDec]
  · set a := x :: t with ha
    set B := buildHeap a a.length (a.length / 2) with hB
    have hlenB : B.length = a.length := buildHeap_length a a.length _
    have hpos : 1 ≤ a.length := by rw [ha]; simp
    have hsub : a.length - 1 + 1 = a.length := by omega
    apply extractLoop_sorted (a.length - 1) B (by omega)
    · rw [hsub]
      exact buildHeap_above a a.length le_rfl _ (isHeapAbove_init a)
    · rw [hsub, ← hlenB, List.drop_length]
      simp [NonDec]
    · intro x2 hx2 y hy
      rw [hsub, ← hlenB, List.drop_length] at hy
      simp at hy

/-- Two sorted permutations of the same list are equal. -/
theorem sorted_perm_unique {l1 l2 a : List Nat} (h1 : l1 ~ a) (s1 : NonDec l1)
    (h2 : l2 ~ a) (s2 : NonDec l2) : l1 = l2 :=
  List.eq_of_perm_of_sorted (h1.trans h2.symm) s1 s2

/-- C1: each of the seven sorting functions (`bubble_sort`, `selection_sort`,
`insertion_sort`, `merge_sort`, `quick_sort`, `heap_sort`, `counting_sort`)
returns a non-decreasing permutation of its input, each is idempotent
(`sort (sort a) = sort a`), and all seven produce the same (in particular
multiset-equal) output on every input. -/
theorem C1_sorting_algorithms_correct (a : List Nat) :
    (bubble_sort a ~ a ∧ NonDec (bubble_sort a)) ∧
    (selection_sort a ~ a ∧ NonDec (selection_sort a)) ∧
    (insertion_sort a ~ a ∧ NonDec (insertion_sort a)) ∧
    (merge_sort a ~ a ∧ NonDec (merge_sort a)) ∧
    (quick_sort a ~ a ∧ NonDec (quick_sort a)) ∧
    (heap_sort a ~ a ∧ NonDec (heap_sort a)) ∧
    (counting_sort a ~ a ∧ NonDec (counting_sort a)) ∧
    bubble_sort (bubble_sort a) = bubble_sort a ∧
    selection_sort (selection_sort a) = selection_sort a ∧
    insertion_sort (insertion_sort a) = insertion_sort a ∧
    merge_sort (merge_sort a) = merge_sort a ∧
    quick_sort (quick_sort a) = quick_sort a ∧
    heap_sort (heap_sort a) = heap_sort a ∧
    counting_sort (counting_sort a) = counting_sort a ∧
    selection_sort a = bubble_sort a ∧
    insertion_sort a = bubble_sort a ∧
    merge_sort a = bubble_sort a ∧
    quick_sort a = bubble_sort a ∧
    heap_sort a = bubble_sort a ∧
    counting_sort a = bubble_sort a := by
  refine ⟨⟨bubble_sort_perm a, bubble_sort_sorted a⟩,
    ⟨selection_sort_perm a, selection_sort_sorted a⟩,
    ⟨insertion_sort_perm a, insertion_sort_sorted a⟩,
    ⟨merge_sort_perm a, merge_sort_sorted a⟩,
    ⟨quick_sort_perm a, quick_sort_sorted a⟩,
    ⟨heap_sort_perm a, heap_sort_sorted a⟩,
    ⟨counting_sort_perm a, counting_sort_sorted a⟩, ?_, ?_, ?_, ?_, ?_, ?_, ?_,
    ?_, ?_, ?_, ?_, ?_, ?_⟩
  · exact sorted_perm_unique (bubble_sort_perm _) (bubble_sort_sorted _)
      (List.Perm.refl _) (bubble_sort_sorted a)
  · exact sorted_perm_unique (selection_sort_perm _) (selection_sort_sorted _)
      (List.Perm.refl _) (selection_sort_sorted a)
  · exact sorted_perm_unique (insertion_sort_perm _) (insertion_sort_sorted _)
      (List.Perm.refl _) (insertion_sort_sorted a)
  · exact sorted_perm_unique (merge_sort_perm _) (merge_sort_sorted _)
      (List.Perm.refl _) (merge_sort_sorted a)
  · exact sorted_perm_unique (quick_sort_perm _) (quick_sort_sorted _)
      (List.Perm.refl _) (quick_sort_sorted a)
  · exact sorted_perm_unique (heap_sort_perm _) (heap_sort_sorted _)
      (List.Perm.refl _) (heap_sort_sorted a)
  · exact sorted_perm_unique (counting_sort_perm _) (counting_sort_sorted _)
      (List.Perm.refl _) (counting_sort_sorted a)
  · exact sorted_perm_unique (selection_sort_perm a) (selection_sort_sorted a)
      (bubble_sort_perm a) (bubble_sort_sorted a)
  · exact sorted_perm_unique (insertion_sort_perm a) (insertion_sort_sorted a)
      (bubble_sort_perm a) (bubble_sort_sorted a)
  · exact sorted_perm_unique (merge_sort_perm a) (merge_sort_sorted a)
      (bubble_sort_perm a) (bubble_sort_sorted a)
  · exact sorted_perm_unique (quick_sort_perm a) (quick_sort_sorted a)
      (bubble_sort_perm a) (bubble_sort_sorted a)
  · exact sorted_perm_unique (heap_sort_perm a) (heap_sort_sorted a)
      (bubble_sort_perm a) (bubble_sort_sorted a)
  · exact sorted_perm_unique (counting_sort_perm a) (counting_sort_sorted a)
      (bubble_sort_perm a) (bubble_sort_sorted a)

/-! ### Binary search tree (`BST`, src lines 218-287) -/

/-- `TreeNode`: ownership tree of left/right children with a data field. -/
inductive Tree where
  | leaf : Tree
  | node (left : Tree) (data : Nat) (right : Tree) : Tree
deriving DecidableEq

/-- `BST.insert` / `BST._insert_recursive`: values `< data` go left,
everything else (including duplicates) goes right. -/
def insertT : Tree → Nat → Tree
  | Tree.leaf, d => Tree.node Tree.leaf d Tree.leaf
  | Tree.node l v r, d =>
    if d < v then Tree.node (insertT l d) v r
    else Tree.node l v (insertT r d)

/-- `BST.find_min` on the nonempty tree `node l v _`: follow left children. -/
def find_min : Tree → Nat → Nat
  | Tree.leaf, v => v
  | Tree.node ll lv _, _ => find_min ll lv

/-- `BST.find_min` applied to a tree known to be nonempty in `delete`; the
leaf value is never used there. -/
def find_minT : Tree → Nat
  | Tree.leaf => 0
  | Tree.node l v _ => find_min l v

/-- `BST.delete` / `BST._delete_recursive`: splice out nodes with at most one
child; replace a two-child node by the minimum of its right subtree and
delete that minimum from the right subtree. -/
def deleteT : Tree → Nat → Tree
  | Tree.leaf, _ => Tree.leaf
  | Tree.node l v r, d =>
    if d < v then Tree.node (deleteT l d) v r
    else if v < d then Tree.node l v (deleteT r d)
    else if l = Tree.leaf then r
    else if r = Tree.leaf then l
    else Tree.node l (find_minT r) (deleteT r (find_minT r))

/-- `BinaryTree.inorder_traversal`: left, root, right. -/
def inorder : Tree → List Nat
  | Tree.leaf => []
  | Tree.node l v r => inorder l ++ v :: inorder r

/-- The BST shape invariant maintained by `insert`/`delete`: left values are
strictly smaller, right values are greater or equal (ties go right). -/
def IsBST : Tree → Prop
  | Tree.leaf => True
  | Tree.node l v r =>
    IsBST l ∧ IsBST r ∧ (∀ x ∈ inorder l, x < v) ∧ (∀ y ∈ inorder r, v ≤ y)

/-- One mutation step of the `BST` class interface. -/
inductive BSTOp where
  | ins (d : Nat)
  | del (d : Nat)

def applyOp (t : Tree) : BSTOp → Tree
  | BSTOp.ins d => insertT t d
  | BSTOp.del d => deleteT t d

/-- Run a finite sequence of inserts/deletes starting from the empty tree. -/
def runOps (ops : List BSTOp) : Tree := ops.foldl applyOp Tree.leaf

theorem isBST_sorted : ∀ {t : Tree}, IsBST t → NonDec (inorder t) := by
  intro t
  induction t with
  | leaf => intro h; simp [inorder, NonDec]
  | node l v r ihl ihr =>
    intro h
    obtain ⟨hl, hr, hlt, hge⟩ := h
    rw [inorder, NonDec, List.Sorted, List.pairwise_append]
    refine ⟨ihl hl, ?_, ?_⟩
    · rw [List.pairwise_cons]
      exact ⟨hge, ihr hr⟩
    · intro x hx y hy
      rcases List.mem_cons.1 hy with rfl | hy2
      · exact le_of_lt (hlt x hx)
      · exact le_trans (le_of_lt (hlt x hx)) (hge y hy2)

theorem inorder_insert_perm : ∀ (t : Tree) (d : Nat),
    inorder (insertT t d) ~ d :: inorder t := by
  intro t d
  induction t with
  | leaf => simp [insertT, inorder]
  | node l v r ihl ihr =>
    by_cases h : d < v
    · rw [insertT, if_pos h, inorder, inorder]
      calc inorder (insertT l d) ++ v :: inorder r
          ~ (d :: inorder l) ++ v :: inorder r := ihl.append_right _
        _ = d :: (inorder l ++ v :: inorder r) := rfl
    · rw [insertT, if_neg h, inorder, inorder]
      have step : inorder l ++ v :: inorder (insertT r d) ~
          inorder l ++ v :: d :: inorder r := by
        apply List.Perm.append_left
        exact ihr.cons v
      refine step.trans ?_
      have hmid : (inorder l ++ [v]) ++ d :: inorder r ~
          d :: ((inorder l ++ [v]) ++ inorder r) := List.perm_middle
      simp only [List.append_assoc, List.singleton_append] at hmid
      exact hmid

theorem insert_isBST : ∀ {t : Tree} (d : Nat), IsBST t → IsBST (insertT t d) := by
  intro t
  induction t with
  | leaf => intro d h; simp [insertT, IsBST, inorder]
  | node l v r ihl ihr =>
    intro d h
    obtain ⟨hl, hr, hlt, hge⟩ := h
    by_cases hd : d < v
    · rw [insertT, if_pos hd]
      refine ⟨ihl d hl, hr, ?_, hge⟩
      intro x hx
      rcases List.mem_cons.1 ((inorder_insert_perm l d).mem_iff.1 hx) with rfl | hx2
      · exact hd
      · exact hlt x hx2
    · rw [insertT, if_neg hd]
      refine ⟨hl, ihr d hr, hlt, ?_⟩
      intro y hy
      rcases List.mem_cons.1 ((inorder_insert_perm r d).mem_iff.1 hy) with rfl | hy2
      · omega
      · exact hge y hy2

theorem find_min_mem : ∀ (l : Tree) (v : Nat),
    find_min l v = v ∨ find_min l v ∈ inorder l := by
  intro l
  induction l with
  | leaf => intro v; exact Or.inl rfl
  | node ll lv lr ihl ihr =>
    intro v
    rw [find_min, inorder]
    rcases ihl lv with h | h
    · right
      rw [h]
      simp
    · right
      exact List.mem_append.2 (Or.inl h)

theorem find_min_le : ∀ {l : Tree} {v : Nat} {r : Tree},
    IsBST (Tree.node l v r) → ∀ y ∈ inorder (Tree.node l v r), find_min l v ≤ y := by
  intro l
  induction l with
  | leaf =>
    intro v r h y hy
    obtain ⟨_, _, _, hge⟩ := h
    rw [find_min]
    rw [inorder, inorder] at hy
    rcases List.mem_cons.1 (by simpa using hy) with rfl | hy2
    · exact le_rfl
    · exact hge y hy2
  | node ll lv lr ihll ihlr =>
    intro v r h y hy
    obtain ⟨hl, hr, hlt, hge⟩ := h
    rw [find_min]
    have hminmem : find_min ll lv ∈ inorder (Tree.node ll lv lr) := by
      rcases find_min_mem ll lv with he | he
      · rw [he, inorder]
        simp
      · rw [inorder]
        exact List.mem_append.2 (Or.inl he)
    have hminv : find_min ll lv < v := hlt _ hminmem
    rw [inorder] at hy
    rcases List.mem_append.1 hy with hy2 | hy2
    · exact ihll hl y hy2
    · rcases List.mem_cons.1 hy2 with rfl | hy3
      · exact le_of_lt hminv
      · exact le_trans (le_of_lt hminv) (hge y hy3)

theorem inorder_delete_subset : ∀ (t : Tree) (d : Nat),
    ∀ x ∈ inorder (deleteT t d), x ∈ inorder t := by
  intro t
  induction t with
  | leaf => intro d x hx; simpa [deleteT] using hx
  | node l v r ihl ihr =>
    intro d x hx
    rw [inorder]
    by_cases h1 : d < v
    · rw [deleteT, if_pos h1, inorder] at hx
      rcases List.mem_append.1 hx with hx2 | hx2
      · exact List.mem_append.2 (Or.inl (ihl d x hx2))
      · exact List.mem_append.2 (Or.inr hx2)
    · by_cases h2 : v < d
      · rw [deleteT, if_neg h1, if_pos h2, inorder] at hx
        rcases List.mem_append.1 hx with hx2 | hx2
        · exact List.mem_append.2 (Or.inl hx2)
        · rcases List.mem_cons.1 hx2 with rfl | hx3
          · simp
          · exact List.mem_append.2 (Or.inr (List.mem_cons.2 (Or.inr (ihr d x hx3))))
      · rw [deleteT, if_neg h1, if_neg h2] at hx
        by_cases hll : l = Tree.leaf
        · rw [if_pos hll] at hx
          exact List.mem_append.2 (Or.inr (List.mem_cons.2 (Or.inr hx)))
        · rw [if_neg hll] at hx
          by_cases hrl : r = Tree.leaf
          · rw [if_pos hrl] at hx
            exact List.mem_append.2 (Or.inl hx)
          · rw [if_neg hrl] at hx
            rcases r with _ | ⟨rl, rv, rr⟩
            · exact absurd rfl hrl
            rw [inorder] at hx
            rcases List.mem_append.1 hx with hx2 | hx2
            · exact List.mem_append.2 (Or.inl hx2)
            · rcases List.mem_cons.1 hx2 with rfl | hx3
              · refine List.mem_append.2 (Or.inr (List.mem_cons.2 (Or.inr ?_)))
                show find_minT (Tree.node rl rv rr) ∈ inorder (Tree.node rl rv rr)
                rw [find_minT]
                rcases find_min_mem rl rv with he | he
                · rw [he, inorder]
                  simp
                · rw [inorder]
                  exact List.mem_append.2 (Or.inl he)
              · exact List.mem_append.2 (Or.inr (List.mem_cons.2 (Or.inr
                  (ihr (find_minT (Tree.node rl rv rr)) x hx3))))

theorem delete_isBST : ∀ {t : Tree} (d : Nat), IsBST t → IsBST (deleteT t d) := by
  intro t
  induction t with
  | leaf => intro d h; simpa [deleteT] using h
  | node l v r ihl ihr =>
    intro d h
    obtain ⟨hl, hr, hlt, hge⟩ := h
    by_cases h1 : d < v
    · rw [deleteT, if_pos h1]
      exact ⟨ihl d hl, hr, fun x hx => hlt x (inorder_delete_subset l d x hx), hge⟩
    · by_cases h2 : v < d
      · rw [deleteT, if_neg h1, if_pos h2]
        exact ⟨hl, ihr d hr, hlt, fun y hy => hge y (inorder_delete_subset r d y hy)⟩
      · rw [deleteT, if_neg h1, if_neg h2]
        by_cases hll : l = Tree.leaf
        · rw [if_pos hll]
          exact hr
        · rw [if_neg hll]
          by_cases hrl : r = Tree.leaf
          · rw [if_pos hrl]
            exact hl
          · rw [if_neg hrl]
            rcases r with _ | ⟨rl, rv, rr⟩
            · exact absurd rfl hrl
            have hminmem : find_minT (Tree.node rl rv rr) ∈
                inorder (Tree.node rl rv rr) := by
              rw [find_minT]
              rcases find_min_mem rl rv with he | he
              · rw [he, inorder]
                simp
              · rw [inorder]
                exact List.mem_append.2 (Or.inl he)
            have hvm : v ≤ find_minT (Tree.node rl rv rr) := hge _ hminmem
            refine ⟨hl, ihr _ hr, ?_, ?_⟩
            · intro x hx
              exact lt_of_lt_of_le (hlt x hx) hvm
            · intro y hy
              have hy2 := inorder_delete_subset _ _ y hy
              show find_minT (Tree.node rl rv rr) ≤ y
              rw [find_minT]
              exact find_min_le hr y hy2

theorem runOps_isBST (ops : List BSTOp) : IsBST (runOps ops) := by
  suffices h : ∀ t, IsBST t → IsBST (ops.foldl applyOp t) from h Tree.leaf trivial
  induction ops with
  | nil => exact fun t h => h
  | cons op ops ih =>
    intro t h
    apply ih
    cases op with
    | ins d => exact insert_isBST d h
    | del d => exact delete_isBST d h

/-- C2: after any finite sequence of inserts and deletes starting from the
empty tree, the in-order traversal is non-decreasing; moreover insert sends
duplicate keys to the right subtree, and deleting a two-child node replaces
its value with the minimum of the right subtree and recursively deletes that
successor from the right subtree. -/
theorem C2_bst_invariant :
    (∀ ops : List BSTOp, NonDec (inorder (runOps ops))) ∧
    (∀ (l r : Tree) (v : Nat), insertT (Tree.node l v r) v =
      Tree.node l v (insertT r v)) ∧
    (∀ (ll lr rl rr : Tree) (lv v rv : Nat),
      deleteT (Tree.node (Tree.node ll lv lr) v (Tree.node rl rv rr)) v =
        Tree.node (Tree.node ll lv lr) (find_min rl rv)
          (deleteT (Tree.node rl rv rr) (find_min rl rv))) := by
  refine ⟨fun ops => isBST_sorted (runOps_isBST ops), ?_, ?_⟩
  · intro l r v
    rw [insertT, if_neg (lt_irrefl v)]
  · intro ll lr rl rr lv v rv
    rw [deleteT, if_neg (lt_irrefl v), if_neg (lt_irrefl v),
      if_neg (fun hc => Tree.noConfusion hc),
      if_neg (fun hc => Tree.noConfusion hc)]
    rfl

/-- C10: deleting a value that does not occur in the tree leaves the tree
(and hence its in-order traversal) unchanged. -/
theorem C10_delete_absent_frame : ∀ (t : Tree) (d : Nat),
    d ∉ inorder t → deleteT t d = t ∧ inorder (deleteT t d) = inorder t := by
  have key : ∀ (t : Tree) (d : Nat), d ∉ inorder t → deleteT t d = t := by
    intro t d
    induction t with
    | leaf => intro h; rfl
    | node l v r ihl ihr =>
      intro h
      rw [inorder] at h
      have hnl : d ∉ inorder l := fun hc => h (List.mem_append.2 (Or.inl hc))
      have hnr : d ∉ inorder r :=
        fun hc => h (List.mem_append.2 (Or.inr (List.mem_cons.2 (Or.inr hc))))
      have hnv : d ≠ v := fun hc => h (List.mem_append.2 (Or.inr (by simp [hc])))
      by_cases h1 : d < v
      · rw [deleteT, if_pos h1, ihl hnl]
      · rw [deleteT, if_neg h1, if_pos (by omega), ihr hnr]
  intro t d h
  exact ⟨key t d h, by rw [key t d h]⟩

/-- Witness for C10 at a concrete tree and absent key. -/
theorem C10_delete_absent_frame_witness :
    deleteT (Tree.node Tree.leaf 2 Tree.leaf) 5 = Tree.node Tree.leaf 2 Tree.leaf ∧
      inorder (deleteT (Tree.node Tree.leaf 2 Tree.leaf) 5) =
        inorder (Tree.node Tree.leaf 2 Tree.leaf) :=
  C10_delete_absent_frame (Tree.node Tree.leaf 2 Tree.leaf) 5 (by decide)

/-! ### Binary search (`SearchAlgorithms`, src lines 626-659);
indices are `Int` because `right` starts at `len(arr) - 1`, which is `-1`
on an empty array, and `/` on `Int` is floor division like Python `//`. -/

/-- The `while left <= right` loop of `SearchAlgorithms.binary_search`. -/
def bsearchLoop (arr : List Nat) (target : Nat) (left right : Int) : Int :=
  if h : left ≤ right then
    let mid := (left + right) / 2
    if arr.getD mid.toNat 0 = target then mid
    else if arr.getD mid.toNat 0 < target then bsearchLoop arr target (mid + 1) right
    else bsearchLoop arr target left (mid - 1)
  else -1
termination_by (right + 1 - left).toNat
decreasing_by
  · omega
  · omega

/-- `SearchAlgorithms.binary_search` (iterative). -/
def binary_search (arr : List Nat) (target : Nat) : Int :=
  bsearchLoop arr target 0 ((arr.length : Int) - 1)

/-- `SearchAlgorithms.binary_search_recursive`. -/
def binary_search_recursive (arr : List Nat) (target : Nat) (left right : Int) : Int :=
  if h : left > right then -1
  else
    let mid := (left + right) / 2
    if arr.getD mid.toNat 0 = target then mid
    else if arr.getD mid.toNat 0 < target then
      binary_search_recursive arr target (mid + 1) right
    else binary_search_recursive arr target left (mid - 1)
termination_by (right + 1 - left).toNat
decreasing_by
  · omega
  · omega

theorem getD_eq_getElem_of_lt (a : List Nat) {i : Nat} (h : i < a.length) :
    a.getD i 0 = a[i] := by
  rw [List.getD_eq_getElem?_getD, List.getElem?_eq_getElem h]
  rfl

theorem getD_sorted_mono {arr : List Nat} (hs : NonDec arr) {i j : Nat}
    (hij : i ≤ j) (hj : j < arr.length) : arr.getD i 0 ≤ arr.getD j 0 := by
  rcases Nat.eq_or_lt_of_le hij with rfl | hlt
  · exact le_rfl
  · have hi : i < arr.length := by omega
    rw [getD_eq_getElem_of_lt arr hi, getD_eq_getElem_of_lt arr hj]
    exact List.pairwise_iff_getElem.1 hs i j hi hj hlt

theorem mem_iff_exists_getD {arr : List Nat} {x : Nat} :
    x ∈ arr ↔ ∃ i : Nat, i < arr.length ∧ arr.getD i 0 = x := by
  constructor
  · intro h
    obtain ⟨i, hi, hEq⟩ := List.getElem_of_mem h
    exact ⟨i, hi, by rw [getD_eq_getElem_of_lt arr hi, hEq]⟩
  · rintro ⟨i, hi, hEq⟩
    rw [← hEq, getD_eq_getElem_of_lt arr hi]
    exact List.getElem_mem hi

theorem bsearchLoop_spec (arr : List Nat) (x : Nat) (hs : NonDec arr) :
    ∀ (left right : Int), 0 ≤ left → right < (arr.length : Int) →
    (∀ i : Nat, i < arr.length → arr.getD i 0 = x →
      left ≤ (i : Int) ∧ (i : Int) ≤ right) →
    (bsearchLoop arr x left right = -1 ∧ x ∉ arr) ∨
    (0 ≤ bsearchLoop arr x left right ∧
      (bsearchLoop arr x left right).toNat < arr.length ∧
      arr.getD (bsearchLoop arr x left right).toNat 0 = x) := by
  intro left right
  induction left, right using bsearchLoop.induct arr x with
  | case1 left right h mid hfound =>
    intro h0 hr hinv
    rw [bsearchLoop, dif_pos h, if_pos hfound]
    right
    refine ⟨by omega, by omega, ?_⟩
    simpa using hfound
  | case2 left right h mid hfound hlt ih =>
    intro h0 hr hinv
    rw [bsearchLoop, dif_pos h, if_neg hfound, if_pos hlt]
    apply ih (by omega) hr
    intro i hi hEq
    obtain ⟨hl2, hr2⟩ := hinv i hi hEq
    refine ⟨?_, hr2⟩
    by_contra hcon
    have hile : i ≤ mid.toNat := by omega
    have hmidlen : mid.toNat < arr.length := by omega
    have := getD_sorted_mono hs hile hmidlen
    omega
  | case3 left right h mid hfound hlt ih =>
    intro h0 hr hinv
    rw [bsearchLoop, dif_pos h, if_neg hfound, if_neg hlt]
    apply ih h0 (by omega)
    intro i hi hEq
    obtain ⟨hl2, hr2⟩ := hinv i hi hEq
    refine ⟨hl2, ?_⟩
    by_contra hcon
    have hile : mid.toNat ≤ i := by omega
    have := getD_sorted_mono hs hile hi
    omega
  | case4 left right h =>
    intro h0 hr hinv
    rw [bsearchLoop, dif_neg h]
    left
    refine ⟨rfl, ?_⟩
    intro hmem
    obtain ⟨i, hi, hEq⟩ := mem_iff_exists_getD.1 hmem
    obtain ⟨hl2, hr2⟩ := hinv i hi hEq
    omega

theorem binary_search_recursive_eq_loop (arr : List Nat) (x : Nat) :
    ∀ (left right : Int),
      binary_search_recursive arr x left right = bsearchLoop arr x left right := by
  intro left right
  induction left, right using bsearchLoop.induct arr x with
  | case1 left right h mid hfound =>
    rw [bsearchLoop, dif_pos h, if_pos hfound,
      binary_search_recursive, dif_neg (by omega), if_pos hfound]
  | case2 left right h mid hfound hlt ih =>
    rw [bsearchLoop, dif_pos h, if_neg hfound, if_pos hlt,
      binary_search_recursive, dif_neg (by omega), if_neg hfound, if_pos hlt, ih]
  | case3 left right h mid hfound hlt ih =>
    rw [bsearchLoop, dif_pos h, if_neg hfound, if_neg hlt,
      binary_search_recursive, dif_neg (by omega), if_neg hfound, if_neg hlt, ih]
  | case4 left right h =>
    rw [bsearchLoop, dif_neg h, binary_search_recursive, dif_pos (by omega)]

/-- C3: on an ascending-sorted list, `binary_search` (and the recursive
variant called on the full index range) returns an index holding the target
iff the target occurs, and `-1` otherwise. -/
theorem C3_binary_search_correct (arr : List Nat) (x : Nat) (hs : NonDec arr) :
    ((∃ i : Nat, i < arr.length ∧ binary_search arr x = i ∧ arr.getD i 0 = x)
        ↔ x ∈ arr) ∧
    (x ∉ arr → binary_search arr x = -1) ∧
    ((∃ i : Nat, i < arr.length ∧
        binary_search_recursive arr x 0 ((arr.length : Int) - 1) = i ∧
        arr.getD i 0 = x) ↔ x ∈ arr) ∧
    (x ∉ arr → binary_search_recursive arr x 0 ((arr.length : Int) - 1) = -1) := by
  have hspec := bsearchLoop_spec arr x hs 0 ((arr.length : Int) - 1) le_rfl
    (by omega) (fun i hi hEq => ⟨by omega, by omega⟩)
  have hbr : binary_search_recursive arr x 0 ((arr.length : Int) - 1) =
      binary_search arr x := binary_search_recursive_eq_loop arr x _ _
  have main : (∃ i : Nat, i < arr.length ∧ binary_search arr x = i ∧
      arr.getD i 0 = x) ↔ x ∈ arr := by
    constructor
    · rintro ⟨i, hi, _, hEq⟩
      exact mem_iff_exists_getD.2 ⟨i, hi, hEq⟩
    · intro hmem
      rcases hspec with ⟨_, habs⟩ | ⟨h1, h2, h3⟩
      · exact absurd hmem habs
      · exact ⟨(binary_search arr x).toNat, h2, by unfold binary_search; omega, h3⟩
  have habsent : x ∉ arr → binary_search arr x = -1 := by
    intro hmem
    rcases hspec with ⟨h1, _⟩ | ⟨h1, h2, h3⟩
    · exact h1
    · exact absurd (mem_iff_exists_getD.2 ⟨_, h2, h3⟩) hmem
  exact ⟨main, habsent, by rw [hbr]; exact main, fun h => by rw [hbr]; exact habsent h⟩

/-- Witness for C3 at a concrete sorted list, both for a present and an
absent target. -/
theorem C3_binary_search_correct_witness :
    (((∃ i : Nat, i < ([1, 3, 5] : List Nat).length ∧
        binary_search [1, 3, 5] 3 = i ∧ ([1, 3, 5] : List Nat).getD i 0 = 3)
          ↔ 3 ∈ ([1, 3, 5] : List Nat))) ∧
    (4 ∉ ([1, 3, 5] : List Nat) → binary_search [1, 3, 5] 4 = -1) :=
  ⟨(C3_binary_search_correct [1, 3, 5] 3 (by simp [NonDec])).1,
    (C3_binary_search_correct [1, 3, 5] 4 (by simp [NonDec])).2.1⟩

/-! ### Coin change (`DynamicProgramming.coin_change`, src lines 940-955);
`float('inf')` is modelled as `⊤ : WithTop Nat`. -/

/-- One inner-loop update `dp[i] = min(dp[i], dp[i - coin] + 1)` guarded by
`i >= coin`. -/
def coinStep (i : Nat) (d : List (WithTop Nat)) (coin : Nat) : List (WithTop Nat) :=
  if coin ≤ i then d.set i (min (d.getD i ⊤) (d.getD (i - coin) ⊤ + 1)) else d

/-- The inner `for coin in coins` loop at position `i`. -/
def coinInner (coins : List Nat) (i : Nat) (d : List (WithTop Nat)) :
    List (WithTop Nat) :=
  coins.foldl (coinStep i) d

/-- `dp = [inf] * (amount + 1); dp[0] = 0`. -/
def coinInit (amount : Nat) : List (WithTop Nat) :=
  (List.replicate (amount + 1) (⊤ : WithTop Nat)).set 0 0

/-- The filled table after `for i in range(1, amount + 1)`. -/
def coinDp (coins : List Nat) (amount : Nat) : List (WithTop Nat) :=
  (List.range' 1 amount).foldl (fun d i => coinInner coins i d) (coinInit amount)

/-- `DynamicProgramming.coin_change`: the final
`dp[amount] if dp[amount] != float('inf') else -1`. -/
def coin_change (coins : List Nat) (amount : Nat) : Int :=
  let v := (coinDp coins amount).getD amount ⊤
  if h : v = ⊤ then -1 else (v.untop h : Int)

/-- `CanMake coins i k`: some multiset of `k` coins drawn (with repetition)
from `coins` sums exactly to `i`. -/
def CanMake (coins : List Nat) (i k : Nat) : Prop :=
  ∃ sel : List Nat, (∀ c ∈ sel, c ∈ coins) ∧ sel.sum = i ∧ sel.length = k

/-- Guarded running minimum, the shape of both coin-change folds. -/
def minFold (cs : List Nat) (p : Nat → Bool) (v : Nat → WithTop Nat)
    (a : WithTop Nat) : WithTop Nat :=
  cs.foldl (fun acc c => if p c then min acc (v c) else acc) a

theorem minFold_le_init (cs : List Nat) (p : Nat → Bool) (v : Nat → WithTop Nat) :
    ∀ a, minFold cs p v a ≤ a := by
  induction cs with
  | nil => intro a; exact le_rfl
  | cons c cs ih =>
    intro a
    show minFold cs p v (if p c then min a (v c) else a) ≤ a
    by_cases h : p c
    · exact le_trans (ih _) (by rw [if_pos h]; exact min_le_left _ _)
    · rw [if_neg h]; exact ih a

theorem minFold_le_mem (cs : List Nat) (p : Nat → Bool) (v : Nat → WithTop Nat) :
    ∀ a c, c ∈ cs → p c → minFold cs p v a ≤ v c := by
  induction cs with
  | nil => intro a c hc; simp at hc
  | cons c0 cs ih =>
    intro a c hc hp
    rcases List.mem_cons.1 hc with rfl | hc2
    · show minFold cs p v (if p c then min a (v c) else a) ≤ v c
      rw [if_pos hp]
      exact le_trans (minFold_le_init cs p v _) (min_le_right _ _)
    · exact ih _ c hc2 hp

theorem minFold_cases (cs : List Nat) (p : Nat → Bool) (v : Nat → WithTop Nat) :
    ∀ a, minFold cs p v a = a ∨
      ∃ c, c ∈ cs ∧ p c = true ∧ minFold cs p v a = v c := by
  induction cs with
  | nil => intro a; exact Or.inl rfl
  | cons c0 cs ih =>
    intro a
    have hstep : minFold (c0 :: cs) p v a =
        minFold cs p v (if p c0 then min a (v c0) else a) := rfl
    by_cases h : p c0
    · rw [hstep, if_pos h]
      rcases ih (min a (v c0)) with he | ⟨c, hc, hp, he⟩
      · rcases min_cases a (v c0) with ⟨hm, _⟩ | ⟨hm, _⟩
        · left; rw [he, hm]
        · right; exact ⟨c0, by simp, h, by rw [he, hm]⟩
      · right; exact ⟨c, by simp [hc], hp, he⟩
    · rw [hstep, if_neg h]
      rcases ih a with he | ⟨c, hc, hp, he⟩
      · exact Or.inl he
      · exact Or.inr ⟨c, by simp [hc], hp, he⟩

theorem getD_set_ne_top (d : List (WithTop Nat)) (i j : Nat) (v : WithTop Nat)
    (h : i ≠ j) : (d.set i v).getD j ⊤ = d.getD j ⊤ := by
  rw [List.getD_eq_getElem?_getD, List.getD_eq_getElem?_getD,
    List.getElem?_set_ne h]

theorem coinInner_length (coins : List Nat) (i : Nat) :
    ∀ d, (coinInner coins i d).length = d.length := by
  induction coins with
  | nil => intro d; rfl
  | cons c cs ih =>
    intro d
    show (coinInner cs i (coinStep i d c)).length = d.length
    rw [ih]
    unfold coinStep
    split <;> simp

theorem coinInner_getD_ne (coins : List Nat) (i : Nat) :
    ∀ d j, j ≠ i → (coinInner coins i d).getD j ⊤ = d.getD j ⊤ := by
  induction coins with
  | nil => intro d j h; rfl
  | cons c cs ih =>
    intro d j h
    show (coinInner cs i (coinStep i d c)).getD j ⊤ = d.getD j ⊤
    rw [ih _ j h]
    unfold coinStep
    split
    · exact getD_set_ne_top d i j _ (fun he => h he.symm)
    · rfl

theorem coinInner_getD_self (coins : List Nat) (i : Nat) (dp : List (WithTop Nat)) :
    ∀ d, i < d.length → (∀ j, j < i → d.getD j ⊤ = dp.getD j ⊤) →
    (coinInner coins i d).getD i ⊤ =
      minFold coins (fun c => decide (c ≤ i ∧ 1 ≤ c))
        (fun c => dp.getD (i - c) ⊤ + 1) (d.getD i ⊤) := by
  induction coins with
  | nil => intro d hlen hagree; rfl
  | cons c cs ih =>
    intro d hlen hagree
    have hstep : coinInner (c :: cs) i d = coinInner cs i (coinStep i d c) := rfl
    have hmf : minFold (c :: cs) (fun c2 => decide (c2 ≤ i ∧ 1 ≤ c2))
        (fun c2 => dp.getD (i - c2) ⊤ + 1) (d.getD i ⊤) =
        minFold cs (fun c2 => decide (c2 ≤ i ∧ 1 ≤ c2))
          (fun c2 => dp.getD (i - c2) ⊤ + 1)
          (if decide (c ≤ i ∧ 1 ≤ c) = true
            then min (d.getD i ⊤) (dp.getD (i - c) ⊤ + 1) else d.getD i ⊤) := rfl
    rw [hstep, hmf]
    by_cases hci : c ≤ i
    · have hd2 : coinStep i d c =
          d.set i (min (d.getD i ⊤) (d.getD (i - c) ⊤ + 1)) := by
        rw [coinStep, if_pos hci]
      have hlen2 : i < (coinStep i d c).length := by
        rw [hd2]
        simpa using hlen
      have hagree2 : ∀ j, j < i → (coinStep i d c).getD j ⊤ = dp.getD j ⊤ := by
        intro j hj
        rw [hd2, getD_set_ne_top d i j _ (by omega)]
        exact hagree j hj
      have hself : (coinStep i d c).getD i ⊤ =
          min (d.getD i ⊤) (d.getD (i - c) ⊤ + 1) := by
        rw [hd2, List.getD_eq_getElem?_getD,
          List.getElem?_set_self (by simpa using hlen)]
        rfl
      by_cases hc1 : 1 ≤ c
      · have hne : i - c < i := by omega
        rw [ih (coinStep i d c) hlen2 hagree2, hself, hagree _ hne,
          if_pos (by simp [hci, hc1])]
      · have hc0 : c = 0 := by omega
        subst hc0
        have hsub : i - 0 = i := by omega
        have hnoop : min (d.getD i ⊤) (d.getD (i - 0) ⊤ + 1) = d.getD i ⊤ := by
          rw [hsub]
          exact min_eq_left le_self_add
        rw [ih (coinStep i d 0) hlen2 hagree2, hself, hnoop,
          if_neg (by simp)]
    · have hd2 : coinStep i d c = d := by rw [coinStep, if_neg hci]
      rw [hd2, if_neg (by simp [hci])]
      exact ih d hlen hagree

theorem coinFold_length (coins : List Nat) : ∀ (l : List Nat) (d : List (WithTop Nat)),
    (l.foldl (fun d i => coinInner coins i d) d).length = d.length := by
  intro l
  induction l with
  | nil => intro d; rfl
  | cons i l ih =>
    intro d
    show (l.foldl _ (coinInner coins i d)).length = d.length
    rw [ih, coinInner_length]

theorem coinFold_stable (coins : List Nat) : ∀ (l : List Nat) (d : List (WithTop Nat))
    (j : Nat), (∀ i ∈ l, i ≠ j) →
    (l.foldl (fun d i => coinInner coins i d) d).getD j ⊤ = d.getD j ⊤ := by
  intro l
  induction l with
  | nil => intro d j h; rfl
  | cons i l ih =>
    intro d j h
    show (l.foldl _ (coinInner coins i d)).getD j ⊤ = d.getD j ⊤
    rw [ih _ j (fun i2 hi2 => h i2 (by simp [hi2])),
      coinInner_getD_ne coins i d j (fun he => h i (by simp) he.symm)]

theorem coinDp_length (coins : List Nat) (amount : Nat) :
    (coinDp coins amount).length = amount + 1 := by
  rw [coinDp, coinFold_length, coinInit]
  simp

theorem coinDp_zero (coins : List Nat) (amount : Nat) :
    (coinDp coins amount).getD 0 ⊤ = 0 := by
  rw [coinDp, coinFold_stable coins _ _ 0
    (fun i hi => by have := List.mem_range'_1.1 hi; omega)]
  rw [coinInit, List.getD_eq_getElem?_getD, List.getElem?_set_self (by simp)]
  rfl

theorem coinDp_succ (coins : List Nat) (amount : Nat) (i : Nat) (h1 : 1 ≤ i)
    (h2 : i ≤ amount) :
    (coinDp coins amount).getD i ⊤ =
      minFold coins (fun c => decide (c ≤ i ∧ 1 ≤ c))
        (fun c => (coinDp coins amount).getD (i - c) ⊤ + 1) ⊤ := by
  have hsplit : List.range' 1 amount =
      List.range' 1 (i - 1) ++ i :: List.range' (i + 1) (amount - i) := by
    have hap := List.range'_append 1 (i - 1) (amount - i + 1) 1
    rw [List.range'_succ] at hap
    have h3 : 1 + 1 * (i - 1) = i := by omega
    have h4 : amount - i + 1 + (i - 1) = amount := by omega
    rw [h3, h4] at hap
    exact hap.symm
  set dPre := (List.range' 1 (i - 1)).foldl (fun d i2 => coinInner coins i2 d)
    (coinInit amount) with hdPre
  have htable : coinDp coins amount = (List.range' (i + 1) (amount - i)).foldl
      (fun d i2 => coinInner coins i2 d) (coinInner coins i dPre) := by
    rw [coinDp, hsplit, List.foldl_append]
    rfl
  have hlenPre : dPre.length = amount + 1 := by
    rw [hdPre, coinFold_length, coinInit]
    simp
  have hagree : ∀ j, j < i → dPre.getD j ⊤ = (coinDp coins amount).getD j ⊤ := by
    intro j hj
    rw [htable, coinFold_stable coins (List.range' (i + 1) (amount - i))
        (coinInner coins i dPre) j
        (fun i2 hi2 => by have := List.mem_range'_1.1 hi2; omega),
      coinInner_getD_ne coins i dPre j (by omega)]
  have hsurvive : (coinDp coins amount).getD i ⊤ =
      (coinInner coins i dPre).getD i ⊤ := by
    rw [htable, coinFold_stable coins (List.range' (i + 1) (amount - i))
      (coinInner coins i dPre) i
      (fun i2 hi2 => by have := List.mem_range'_1.1 hi2; omega)]
  have hPreTop : dPre.getD i ⊤ = ⊤ := by
    rw [hdPre, coinFold_stable coins (List.range' 1 (i - 1)) (coinInit amount) i
        (fun i2 hi2 => by have := List.mem_range'_1.1 hi2; omega),
      coinInit, List.getD_eq_getElem?_getD, List.getElem?_set_ne (by omega)]
    have : i < amount + 1 := by omega
    simp [List.getElem?_replicate, this]
  rw [hsurvive, coinInner_getD_self coins i (coinDp coins amount) dPre
      (by omega) (fun j hj => hagree j hj), hPreTop]

theorem coinDp_le_of_canMake (coins : List Nat) (amount : Nat)
    (hpos : ∀ c ∈ coins, 0 < c) :
    ∀ i, i ≤ amount → ∀ k, CanMake coins i k →
      (coinDp coins amount).getD i ⊤ ≤ (k : WithTop Nat) := by
  intro i
  induction i using Nat.strong_induction_on with
  | _ i ih =>
    rintro hi k ⟨sel, hsel, hsum, hlen⟩
    cases sel with
    | nil =>
      simp only [List.sum_nil] at hsum
      simp only [List.length_nil] at hlen
      subst hsum
      subst hlen
      rw [coinDp_zero]
      simp
    | cons c rest =>
      have hc : c ∈ coins := hsel c (by simp)
      have hcpos : 0 < c := hpos c hc
      have hsum2 : c + rest.sum = i := by simpa using hsum
      have hci : c ≤ i := by omega
      have hi1 : 1 ≤ i := by omega
      have hrest : CanMake coins (i - c) rest.length :=
        ⟨rest, fun x hx => hsel x (by simp [hx]), by omega, rfl⟩
      have hih := ih (i - c) (by omega) (by omega) rest.length hrest
      have hmem := minFold_le_mem coins (fun c2 => decide (c2 ≤ i ∧ 1 ≤ c2))
        (fun c2 => (coinDp coins amount).getD (i - c2) ⊤ + 1) ⊤ c hc
        (by simp only [decide_eq_true_eq]; omega)
      rw [coinDp_succ coins amount i hi1 hi]
      refine le_trans hmem ?_
      have hk : (rest.length : WithTop Nat) + 1 = (k : WithTop Nat) := by
        have hlen2 : rest.length + 1 = k := by simpa using hlen
        rw [← hlen2]
        push_cast
        ring
      rw [← hk]
      exact add_le_add_right hih 1

theorem canMake_of_coinDp (coins : List Nat) (amount : Nat) :
    ∀ i, i ≤ amount → ∀ k : Nat,
      (coinDp coins amount).getD i ⊤ = (k : WithTop Nat) →
      CanMake coins i k := by
  intro i
  induction i using Nat.strong_induction_on with
  | _ i ih =>
    intro hi k hk
    cases Nat.eq_zero_or_pos i with
    | inl h0 =>
      subst h0
      rw [coinDp_zero] at hk
      have : k = 0 := by
        have := hk
        norm_cast at this
        omega
      subst this
      exact ⟨[], by simp, by simp, by simp⟩
    | inr hi1 =>
      rw [coinDp_succ coins amount i hi1 hi] at hk
      rcases minFold_cases coins (fun c2 => decide (c2 ≤ i ∧ 1 ≤ c2))
          (fun c2 => (coinDp coins amount).getD (i - c2) ⊤ + 1) ⊤ with he | ⟨c, hc, hp, he⟩
      · rw [he] at hk
        exact absurd hk.symm (WithTop.coe_ne_top)
      · rw [he] at hk
        have hguard : c ≤ i ∧ 1 ≤ c := by simpa using hp
        cases hv : (coinDp coins amount).getD (i - c) ⊤ with
        | top =>
          rw [hv] at hk
          simp at hk
        | coe m =>
          rw [hv] at hk
          have hm : m + 1 = k := by
            have : ((m + 1 : Nat) : WithTop Nat) = (k : WithTop Nat) := by
              push_cast
              push_cast at hk
              exact hk
            exact_mod_cast this
          obtain ⟨sel, hsel, hsum, hlen⟩ := ih (i - c) (by omega) (by omega) m hv
          exact ⟨c :: sel, fun x hx => by
              rcases List.mem_cons.1 hx with rfl | hx2
              · exact hc
              · exact hsel x hx2,
            by simp [hsum]; omega, by simp [hlen]; omega⟩

/-- C9: with positive coin denominations, `coin_change` returns the minimum
number of coins that sum exactly to the amount, and `-1` when no combination
exists; in particular `coin_change [1, 2, 5] 11 = 3`. -/
theorem C9_coin_change_correct (coins : List Nat) (amount : Nat)
    (hpos : ∀ c ∈ coins, 0 < c) :
    ((coin_change coins amount = -1 ∧ ∀ k, ¬ CanMake coins amount k) ∨
      (∃ k : Nat, coin_change coins amount = (k : Int) ∧ CanMake coins amount k ∧
        ∀ j, CanMake coins amount j → k ≤ j)) ∧
    coin_change [1, 2, 5] 11 = 3 := by
  constructor
  · cases hv : (coinDp coins amount).getD amount ⊤ with
    | top =>
      left
      constructor
      · simp only [coin_change]
        rw [dif_pos hv]
      · intro k hk
        have := coinDp_le_of_canMake coins amount hpos amount le_rfl k hk
        rw [hv] at this
        exact absurd (top_le_iff.1 this) (WithTop.coe_ne_top)
    | coe m =>
      right
      refine ⟨m, ?_, canMake_of_coinDp coins amount amount le_rfl m hv, ?_⟩
      · simp only [coin_change]
        rw [dif_neg (by rw [hv]; exact WithTop.coe_ne_top)]
        congr 1
        have hcoe := WithTop.coe_untop ((coinDp coins amount).getD amount ⊤)
          (by rw [hv]; exact WithTop.coe_ne_top)
        exact_mod_cast hcoe.trans hv
      · intro j hj
        have := coinDp_le_of_canMake coins amount hpos amount le_rfl j hj
        rw [hv] at this
        simpa using this
  · decide

/-- Witness for C9: the spec example `coin_change([1,2,5], 11) = 3`, obtained
by applying the main theorem at the concrete input. -/
theorem C9_coin_change_correct_witness : coin_change [1, 2, 5] 11 = 3 :=
  (C9_coin_change_correct [1, 2, 5] 11 (by decide)).2

/-! ### Graph model (`Graph`, src lines 387-423): `graph.graph` is an
insertion-ordered dict from vertex to its `(neighbor, weight)` list, modelled
as an association list. -/

/-- The adjacency mapping `graph.graph`. -/
abbrev Adj : Type := List (Nat × List (Nat × Int))

/-- The dict keys, in insertion order. -/
def keysOf (g : Adj) : List Nat := g.map Prod.fst

/-- `graph.graph.get(u, [])` (also `graph.graph[u]` for present keys). -/
def adjOf : Adj → Nat → List (Nat × Int)
  | [], _ => []
  | (v, es) :: rest, u => if v = u then es else adjOf rest u

/-- All edges in iteration order: `for u in graph.graph: for (v, w) in …`. -/
def edgesOf (g : Adj) : List (Nat × Nat × Int) :=
  g.flatMap (fun p => p.2.map (fun q => (p.1, q.1, q.2)))

/-- Well-formedness guaranteed by `Graph.add_vertex`/`add_edge`: keys are
unique (a dict) and every neighbour is itself a key. -/
def WFGraph (g : Adj) : Prop :=
  (keysOf g).Nodup ∧ ∀ p ∈ g, ∀ q ∈ p.2, q.1 ∈ keysOf g

/-- `IsWalk g u steps w`: `steps` is a list of (next vertex, edge weight)
moves following adjacency from `u` and ending at `w`. -/
def IsWalk (g : Adj) : Nat → List (Nat × Int) → Nat → Prop
  | u, [], w => u = w
  | u, (v, _wt) :: steps, w => (v, _wt) ∈ adjOf g u ∧ IsWalk g v steps w

/-- A directed cycle: a nonempty walk from some vertex back to itself. -/
def HasCycle (g : Adj) : Prop :=
  ∃ v : Nat, ∃ steps : List (Nat × Int), steps ≠ [] ∧ IsWalk g v steps v

/-! ### Topological sort (`GraphAlgorithms.topological_sort`, src 799-829) -/

/-- `in_degree = {vertex: 0 for vertex in graph.graph}`. -/
def degInit (g : Adj) : List (Nat × Int) := (keysOf g).map (fun v => (v, 0))

/-- `in_degree[neighbor] = in_degree.get(neighbor, 0) + 1` (dict update or
insert-at-end). -/
def bumpDeg : List (Nat × Int) → Nat → List (Nat × Int)
  | [], v => [(v, 1)]
  | (k, c) :: rest, v =>
    if k = v then (k, c + 1) :: rest else (k, c) :: bumpDeg rest v

/-- The in-degree table after scanning every edge. -/
def degAll (g : Adj) : List (Nat × Int) :=
  (edgesOf g).foldl (fun d e => bumpDeg d e.2.1) (degInit g)

/-- `in_degree[v] -= 1` (first matching key; all keys looked up by the loop
are present, so the missing-key case never fires). -/
def decKey : List (Nat × Int) → Nat → List (Nat × Int)
  | [], _ => []
  | (k, c) :: rest, v =>
    if k = v then (k, c - 1) :: rest else (k, c) :: decKey rest v

/-- Dict read `in_degree[v]`; the default is never reached because every
vertex the loop reads got an entry during initialisation (a missing key
would be a `KeyError` in the source). -/
def lookupDeg : List (Nat × Int) → Nat → Int
  | [], _ => 1
  | (k, c) :: rest, v => if k = v then c else lookupDeg rest v

/-- Inner loop of Kahn's algorithm: decrement each neighbour, collecting (in
order) those whose in-degree reaches exactly 0. -/
def processN : List (Nat × Int) → List (Nat × Int) → List Nat →
    List (Nat × Int) × List Nat
  | [], deg, acc => (deg, acc)
  | (n, _) :: rest, deg, acc =>
    let deg2 := decKey deg n
    if lookupDeg deg2 n = 0 then processN rest deg2 (acc ++ [n])
    else processN rest deg2 acc

/-- Termination measure: total positive in-degree. -/
def degSum (deg : List (Nat × Int)) : Nat := (deg.map (fun p => p.2.toNat)).sum

theorem degSum_decKey_le (deg : List (Nat × Int)) (n : Nat) :
    degSum (decKey deg n) ≤ degSum deg := by
  induction deg with
  | nil => exact le_rfl
  | cons p rest ih =>
    rcases p with ⟨k, c⟩
    by_cases h : k = n
    · simp only [decKey, if_pos h, degSum, List.map_cons, List.sum_cons]
      have : (c - 1).toNat ≤ c.toNat := by omega
      omega
    · simp only [decKey, if_neg h, degSum, List.map_cons, List.sum_cons]
      have := ih
      simp only [degSum] at this
      omega

theorem degSum_decKey_lt (deg : List (Nat × Int)) (n : Nat)
    (h : lookupDeg (decKey deg n) n = 0) :
    degSum (decKey deg n) < degSum deg := by
  induction deg with
  | nil => simp [decKey, lookupDeg] at h
  | cons p rest ih =>
    rcases p with ⟨k, c⟩
    by_cases hk : k = n
    · simp only [decKey, if_pos hk, lookupDeg, if_pos hk] at h
      simp only [decKey, if_pos hk, degSum, List.map_cons, List.sum_cons]
      omega
    · simp only [decKey, if_neg hk, lookupDeg, if_neg hk] at h
      simp only [decKey, if_neg hk, degSum, List.map_cons, List.sum_cons]
      have := ih h
      simp only [degSum] at this
      omega

theorem processN_measure : ∀ (ns : List (Nat × Int)) (deg : List (Nat × Int))
    (acc : List Nat),
    degSum (processN ns deg acc).1 + (processN ns deg acc).2.length ≤
      degSum deg + acc.length := by
  intro ns
  induction ns with
  | nil => intro deg acc; exact le_rfl
  | cons p rest ih =>
    rcases p with ⟨n, w⟩
    intro deg acc
    have hstep : processN ((n, w) :: rest) deg acc =
        if lookupDeg (decKey deg n) n = 0
        then processN rest (decKey deg n) (acc ++ [n])
        else processN rest (decKey deg n) acc := rfl
    rw [hstep]
    by_cases h : lookupDeg (decKey deg n) n = 0
    · rw [if_pos h]
      have h1 := ih (decKey deg n) (acc ++ [n])
      have h2 := degSum_decKey_lt deg n h
      simp only [List.length_append, List.length_cons, List.length_nil] at h1
      omega
    · rw [if_neg h]
      have h1 := ih (decKey deg n) acc
      have h2 := degSum_decKey_le deg n
      omega

/-- The `while queue` loop of Kahn's algorithm. -/
def kahnLoop (g : Adj) : List (Nat × Int) → List Nat → List Nat → List Nat
  | _, [], result => result
  | deg, u :: qs, result =>
    kahnLoop g (processN (adjOf g u) deg []).1
      (qs ++ (processN (adjOf g u) deg []).2) (result ++ [u])
termination_by deg queue => (degSum deg, queue.length)
decreasing_by
  have hm := processN_measure (adjOf g u) deg []
  simp only [List.length_nil] at hm
  rcases Nat.lt_or_ge (degSum (processN (adjOf g u) deg []).1) (degSum deg) with h | h
  · exact Prod.Lex.left _ _ h
  · have hz : (processN (adjOf g u) deg []).2.length = 0 := by omega
    have he : degSum (processN (adjOf g u) deg []).1 = degSum deg := by omega
    rw [he]
    apply Prod.Lex.right
    simp [hz]

/-- `GraphAlgorithms.topological_sort` (Kahn's algorithm): `none` signals a
detected cycle. -/
def topological_sort (g : Adj) : Option (List Nat) :=
  let deg := degAll g
  let queue := (deg.filter (fun p => p.2 = 0)).map Prod.fst
  let result := kahnLoop g deg queue []
  if result.length ≠ (keysOf g).length then none else some result

/-- Number of in-edges of `v` (with multiplicity). -/
def inDeg (g : Adj) (v : Nat) : Nat :=
  (edgesOf g).countP (fun e => decide (e.2.1 = v))

/-- Number of in-edges of `v` whose source lies in `S`. -/
def inCnt (g : Adj) (S : List Nat) (v : Nat) : Nat :=
  (edgesOf g).countP (fun e => decide (e.2.1 = v) && decide (e.1 ∈ S))

theorem count_map_eq_countP {α : Type} (f : α → Nat) (l : List α) (v : Nat) :
    (l.map f).count v = l.countP (fun e => decide (f e = v)) := by
  rw [List.count_eq_countP, List.countP_map]
  refine List.countP_congr (fun e _ => ?_)
  simp only [Function.comp_apply, beq_iff_eq, decide_eq_true_eq]

theorem edgesOf_source_mem {g : Adj} {e : Nat × Nat × Int} (he : e ∈ edgesOf g) :
    e.1 ∈ keysOf g := by
  rw [edgesOf] at he
  rcases List.mem_flatMap.1 he with ⟨p, hp, he2⟩
  rcases List.mem_map.1 he2 with ⟨q, hq, rfl⟩
  exact List.mem_map.2 ⟨p, hp, rfl⟩

theorem adjOf_mem_edges {g : Adj} {u : Nat} {q : Nat × Int}
    (hq : q ∈ adjOf g u) : u ∈ keysOf g ∧ (u, q.1, q.2) ∈ edgesOf g := by
  induction g with
  | nil => simp [adjOf] at hq
  | cons p rest ih =>
    rcases p with ⟨v, es⟩
    by_cases h : v = u
    · subst h
      rw [adjOf, if_pos rfl] at hq
      refine ⟨by simp [keysOf], ?_⟩
      rw [edgesOf]
      exact List.mem_flatMap.2 ⟨(v, es), by simp, List.mem_map.2 ⟨q, hq, rfl⟩⟩
    · rw [adjOf, if_neg h] at hq
      obtain ⟨h1, h2⟩ := ih hq
      refine ⟨by simp [keysOf]; right; simpa [keysOf] using h1, ?_⟩
      rw [edgesOf]
      rw [edgesOf] at h2
      simpa using Or.inr (by simpa using h2)

theorem edges_mem_adjOf {g : Adj} (hnd : (keysOf g).Nodup) {e : Nat × Nat × Int}
    (he : e ∈ edgesOf g) : (e.2.1, e.2.2) ∈ adjOf g e.1 := by
  induction g with
  | nil => simp [edgesOf] at he
  | cons p rest ih =>
    rcases p with ⟨v, es⟩
    rw [keysOf] at hnd
    simp only [List.map_cons, List.nodup_cons] at hnd
    rw [edgesOf] at he
    simp only [List.flatMap_cons] at he
    rcases List.mem_append.1 he with h1 | h1
    · rcases List.mem_map.1 h1 with ⟨q, hq, rfl⟩
      rw [adjOf, if_pos rfl]
      simpa using hq
    · have he2 : e ∈ edgesOf rest := h1
      have hsrc : e.1 ∈ keysOf rest := edgesOf_source_mem he2
      have hne : v ≠ e.1 := fun hc => hnd.1 (by rw [hc]; exact hsrc)
      rw [adjOf, if_neg hne]
      exact ih hnd.2 he2

theorem lookupDeg_of_mem_nodup : ∀ {deg : List (Nat × Int)} {k : Nat} {c : Int},
    (deg.map Prod.fst).Nodup → (k, c) ∈ deg → lookupDeg deg k = c := by
  intro deg
  induction deg with
  | nil => intro k c _ h; simp at h
  | cons p rest ih =>
    intro k c hnd hmem
    rcases p with ⟨k0, c0⟩
    simp only [List.map_cons, List.nodup_cons] at hnd
    rcases List.mem_cons.1 hmem with he | he
    · injection he with h1 h2
      subst h1
      subst h2
      rw [lookupDeg, if_pos rfl]
    · have hk : k0 ≠ k := by
        intro hc
        subst hc
        exact hnd.1 (List.mem_map.2 ⟨(k0, c), he, rfl⟩)
      rw [lookupDeg, if_neg hk]
      exact ih hnd.2 he

theorem keys_decKey (deg : List (Nat × Int)) (n : Nat) :
    (decKey deg n).map Prod.fst = deg.map Prod.fst := by
  induction deg with
  | nil => rfl
  | cons p rest ih =>
    rcases p with ⟨k, c⟩
    by_cases h : k = n
    · simp [decKey, h]
    · simp [decKey, h, ih]

theorem lookupDeg_decKey_self (deg : List (Nat × Int)) (n : Nat)
    (h : n ∈ deg.map Prod.fst) :
    lookupDeg (decKey deg n) n = lookupDeg deg n - 1 := by
  induction deg with
  | nil => simp at h
  | cons p rest ih =>
    rcases p with ⟨k, c⟩
    by_cases hk : k = n
    · subst hk
      rw [decKey, if_pos rfl, lookupDeg, if_pos rfl, lookupDeg, if_pos rfl]
    · rw [decKey, if_neg hk, lookupDeg, if_neg hk, lookupDeg, if_neg hk]
      rw [List.map_cons] at h
      exact ih ((List.mem_cons.1 h).resolve_left fun hc => hk hc.symm)

theorem lookupDeg_decKey_ne (deg : List (Nat × Int)) (n v : Nat) (h : v ≠ n) :
    lookupDeg (decKey deg n) v = lookupDeg deg v := by
  induction deg with
  | nil => rfl
  | cons p rest ih =>
    rcases p with ⟨k, c⟩
    by_cases hk : k = n
    · subst hk
      rw [decKey, if_pos rfl, lookupDeg, if_neg (by omega), lookupDeg,
        if_neg (by omega)]
    · by_cases hkv : k = v
      · subst hkv
        rw [decKey, if_neg hk, lookupDeg, if_pos rfl, lookupDeg, if_pos rfl]
      · rw [decKey, if_neg hk, lookupDeg, if_neg hkv, lookupDeg, if_neg hkv]
        exact ih

theorem decKey_not_mem (deg : List (Nat × Int)) (n : Nat)
    (h : n ∉ deg.map Prod.fst) : decKey deg n = deg := by
  induction deg with
  | nil => rfl
  | cons p rest ih =>
    rcases p with ⟨k, c⟩
    have hk : k ≠ n := by
      intro hc
      exact h (by simp [hc])
    rw [List.map_cons] at h
    rw [decKey, if_neg hk, ih (fun hc => h (List.mem_cons_of_mem _ hc))]

theorem lookupDeg_not_mem (deg : List (Nat × Int)) (n : Nat)
    (h : n ∉ deg.map Prod.fst) : lookupDeg deg n = 1 := by
  induction deg with
  | nil => rfl
  | cons p rest ih =>
    rcases p with ⟨k, c⟩
    have hk : k ≠ n := by
      intro hc
      exact h (by simp [hc])
    rw [List.map_cons] at h
    rw [lookupDeg, if_neg hk]
    exact ih (fun hc => h (List.mem_cons_of_mem _ hc))

theorem edgesOf_target_mem {g : Adj} (hwf : WFGraph g) {e : Nat × Nat × Int}
    (he : e ∈ edgesOf g) : e.2.1 ∈ keysOf g := by
  rw [edgesOf] at he
  rcases List.mem_flatMap.1 he with ⟨p, hp, he2⟩
  rcases List.mem_map.1 he2 with ⟨q, hq, rfl⟩
  exact hwf.2 p hp q hq

theorem keys_bumpDeg_of_mem (d : List (Nat × Int)) (v : Nat)
    (h : v ∈ d.map Prod.fst) : (bumpDeg d v).map Prod.fst = d.map Prod.fst := by
  induction d with
  | nil => simp at h
  | cons p rest ih =>
    rcases p with ⟨k, c⟩
    by_cases hk : k = v
    · simp [bumpDeg, hk]
    · rw [List.map_cons] at h
      rw [bumpDeg, if_neg hk, List.map_cons, List.map_cons,
        ih ((List.mem_cons.1 h).resolve_left fun hc => hk hc.symm)]

theorem lookupDeg_bumpDeg_self (d : List (Nat × Int)) (v : Nat)
    (h : v ∈ d.map Prod.fst) :
    lookupDeg (bumpDeg d v) v = lookupDeg d v + 1 := by
  induction d with
  | nil => simp at h
  | cons p rest ih =>
    rcases p with ⟨k, c⟩
    by_cases hk : k = v
    · subst hk
      rw [bumpDeg, if_pos rfl, lookupDeg, if_pos rfl, lookupDeg, if_pos rfl]
    · rw [List.map_cons] at h
      rw [bumpDeg, if_neg hk, lookupDeg, if_neg hk, lookupDeg, if_neg hk]
      exact ih ((List.mem_cons.1 h).resolve_left fun hc => hk hc.symm)

theorem lookupDeg_bumpDeg_ne (d : List (Nat × Int)) (v w : Nat) (h : w ≠ v) :
    lookupDeg (bumpDeg d v) w = lookupDeg d w := by
  induction d with
  | nil =>
    have hvw : v ≠ w := fun hc => h hc.symm
    simp [bumpDeg, lookupDeg, hvw]
  | cons p rest ih =>
    rcases p with ⟨k, c⟩
    by_cases hk : k = v
    · subst hk
      have hkw : k ≠ w := fun hc => h hc.symm
      rw [bumpDeg, if_pos rfl, lookupDeg, if_neg hkw, lookupDeg, if_neg hkw]
    · by_cases hkw : k = w
      · subst hkw
        rw [bumpDeg, if_neg hk, lookupDeg, if_pos rfl, lookupDeg, if_pos rfl]
      · rw [bumpDeg, if_neg hk, lookupDeg, if_neg hkw, lookupDeg, if_neg hkw]
        exact ih

theorem keys_bumpDeg_of_not_mem (d : List (Nat × Int)) (v : Nat)
    (h : v ∉ d.map Prod.fst) :
    (bumpDeg d v).map Prod.fst = d.map Prod.fst ++ [v] := by
  induction d with
  | nil => simp [bumpDeg]
  | cons p rest ih =>
    rcases p with ⟨k, c⟩
    have hk : k ≠ v := by
      intro hc
      exact h (by simp [hc])
    rw [List.map_cons] at h
    rw [bumpDeg, if_neg hk, List.map_cons, List.map_cons,
      ih (fun hc => h (List.mem_cons_of_mem _ hc)), List.cons_append]

theorem mem_keys_bumpDeg (d : List (Nat × Int)) (v w : Nat)
    (h : w ∈ d.map Prod.fst) : w ∈ (bumpDeg d v).map Prod.fst := by
  by_cases hv : v ∈ d.map Prod.fst
  · rw [keys_bumpDeg_of_mem d v hv]
    exact h
  · rw [keys_bumpDeg_of_not_mem d v hv]
    exact List.mem_append_left _ h

theorem keys_foldl_bumpDeg : ∀ (ts : List Nat) (d : List (Nat × Int)),
    (∀ t ∈ ts, t ∈ d.map Prod.fst) →
    (ts.foldl bumpDeg d).map Prod.fst = d.map Prod.fst := by
  intro ts
  induction ts with
  | nil => intro d _; rfl
  | cons t rest ih =>
    intro d hts
    rw [List.foldl_cons]
    have hkeys := keys_bumpDeg_of_mem d t (hts t (by simp))
    rw [ih (bumpDeg d t) (fun x hx => hkeys ▸ hts x (by simp [hx])), hkeys]

theorem lookupDeg_foldl_bumpDeg : ∀ (ts : List Nat) (d : List (Nat × Int))
    (v : Nat), v ∈ d.map Prod.fst →
    lookupDeg (ts.foldl bumpDeg d) v = lookupDeg d v + (ts.count v : Int) := by
  intro ts
  induction ts with
  | nil => intro d v _; simp
  | cons t rest ih =>
    intro d v hv
    rw [List.foldl_cons]
    by_cases hvt : v = t
    · subst hvt
      rw [ih (bumpDeg d v) v (by rw [keys_bumpDeg_of_mem d v hv]; exact hv),
        lookupDeg_bumpDeg_self d v hv, List.count_cons_self]
      push_cast
      ring
    · rw [ih (bumpDeg d t) v (mem_keys_bumpDeg d t v hv),
        lookupDeg_bumpDeg_ne d t v hvt, List.count_cons_of_ne hvt]

theorem keys_degInit (g : Adj) : (degInit g).map Prod.fst = keysOf g := by
  rw [degInit]
  induction keysOf g with
  | nil => rfl
  | cons k rest ih => rw [List.map_cons, List.map_cons, ih]

theorem lookupDeg_degInit (g : Adj) (v : Nat) (hv : v ∈ keysOf g) :
    lookupDeg (degInit g) v = 0 := by
  have h : ∀ l : List Nat, v ∈ l → lookupDeg (l.map fun u => (u, 0)) v = 0 := by
    intro l
    induction l with
    | nil => intro h0; simp at h0
    | cons k rest ih =>
      intro h0
      by_cases hk : k = v
      · subst hk
        rw [List.map_cons, lookupDeg, if_pos rfl]
      · rw [List.map_cons, lookupDeg, if_neg hk]
        exact ih ((List.mem_cons.1 h0).resolve_left fun hc => hk hc.symm)
  rw [degInit]
  exact h _ hv

theorem degAll_eq_fold_targets (g : Adj) :
    degAll g = ((edgesOf g).map (fun e => e.2.1)).foldl bumpDeg (degInit g) := by
  rw [degAll, List.foldl_map]

theorem keys_degAll {g : Adj} (hwf : WFGraph g) :
    (degAll g).map Prod.fst = keysOf g := by
  rw [degAll_eq_fold_targets, keys_foldl_bumpDeg _ _ ?_, keys_degInit]
  intro t ht
  rcases List.mem_map.1 ht with ⟨e, he, rfl⟩
  rw [keys_degInit]
  exact edgesOf_target_mem hwf he

theorem lookupDeg_degAll {g : Adj} (hwf : WFGraph g) (v : Nat)
    (hv : v ∈ keysOf g) : lookupDeg (degAll g) v = (inDeg g v : Int) := by
  rw [degAll_eq_fold_targets,
    lookupDeg_foldl_bumpDeg _ _ v (by rw [keys_degInit]; exact hv),
    lookupDeg_degInit g v hv, inDeg, ← count_map_eq_countP]
  ring

theorem lookupDeg_decKey_le (deg : List (Nat × Int)) (n v : Nat) :
    lookupDeg (decKey deg n) v ≤ lookupDeg deg v := by
  by_cases hv : v = n
  · subst hv
    by_cases hn : v ∈ deg.map Prod.fst
    · rw [lookupDeg_decKey_self deg v hn]
      omega
    · rw [decKey_not_mem deg v hn]
  · rw [lookupDeg_decKey_ne deg n v hv]

theorem processN_keys : ∀ (ns deg : List (Nat × Int)) (acc : List Nat),
    ((processN ns deg acc).1).map Prod.fst = deg.map Prod.fst := by
  intro ns
  induction ns with
  | nil => intro deg acc; rfl
  | cons p rest ih =>
    rcases p with ⟨n, w⟩
    intro deg acc
    have hstep : processN ((n, w) :: rest) deg acc =
        if lookupDeg (decKey deg n) n = 0
        then processN rest (decKey deg n) (acc ++ [n])
        else processN rest (decKey deg n) acc := rfl
    rw [hstep]
    by_cases hb : lookupDeg (decKey deg n) n = 0
    · rw [if_pos hb, ih, keys_decKey]
    · rw [if_neg hb, ih, keys_decKey]

theorem processN_lookup : ∀ (ns deg : List (Nat × Int)) (acc : List Nat)
    (v : Nat), v ∈ deg.map Prod.fst →
    lookupDeg (processN ns deg acc).1 v =
      lookupDeg deg v - ((ns.map Prod.fst).count v : Int) := by
  intro ns
  induction ns with
  | nil =>
    intro deg acc v _
    simp [processN]
  | cons p rest ih =>
    rcases p with ⟨n, w⟩
    intro deg acc v hv
    have hstep : processN ((n, w) :: rest) deg acc =
        if lookupDeg (decKey deg n) n = 0
        then processN rest (decKey deg n) (acc ++ [n])
        else processN rest (decKey deg n) acc := rfl
    rw [hstep]
    have hv2 : v ∈ (decKey deg n).map Prod.fst := by
      rw [keys_decKey]
      exact hv
    have harith : lookupDeg (decKey deg n) v -
        ((rest.map Prod.fst).count v : Int) =
        lookupDeg deg v - ((((n, w) :: rest).map Prod.fst).count v : Int) := by
      by_cases hvn : v = n
      · subst hvn
        rw [lookupDeg_decKey_self deg v hv, List.map_cons,
          List.count_cons_self]
        push_cast
        ring
      · rw [lookupDeg_decKey_ne deg n v hvn, List.map_cons,
          List.count_cons_of_ne hvn]
    by_cases hb : lookupDeg (decKey deg n) n = 0
    · rw [if_pos hb, ih (decKey deg n) (acc ++ [n]) v hv2, harith]
    · rw [if_neg hb, ih (decKey deg n) acc v hv2, harith]

theorem processN_mem : ∀ (ns deg : List (Nat × Int)) (acc : List Nat)
    (v : Nat),
    v ∈ (processN ns deg acc).2 ↔
      v ∈ acc ∨ (v ∈ deg.map Prod.fst ∧ 1 ≤ lookupDeg deg v ∧
        lookupDeg deg v ≤ ((ns.map Prod.fst).count v : Int)) := by
  intro ns
  induction ns with
  | nil =>
    intro deg acc v
    constructor
    · exact Or.inl
    · rintro (h | ⟨_, h1, h2⟩)
      · exact h
      · rw [List.map_nil, List.count_nil] at h2
        omega
  | cons p rest ih =>
    rcases p with ⟨n, w⟩
    intro deg acc v
    have hstep : processN ((n, w) :: rest) deg acc =
        if lookupDeg (decKey deg n) n = 0
        then processN rest (decKey deg n) (acc ++ [n])
        else processN rest (decKey deg n) acc := rfl
    rw [hstep]
    have hkeys := keys_decKey deg n
    by_cases hb : lookupDeg (decKey deg n) n = 0
    · rw [if_pos hb, ih (decKey deg n) (acc ++ [n]) v, hkeys]
      have hn : n ∈ deg.map Prod.fst := by
        by_contra hn
        rw [decKey_not_mem deg n hn, lookupDeg_not_mem deg n hn] at hb
        omega
      have hL : lookupDeg deg n = 1 := by
        have := lookupDeg_decKey_self deg n hn
        omega
      by_cases hv : v = n
      · subst hv
        constructor
        · intro _
          refine Or.inr ⟨hn, by rw [hL], ?_⟩
          rw [hL, List.map_cons, List.count_cons_self]
          push_cast
          omega
        · intro _
          exact Or.inl (by simp)
      · rw [lookupDeg_decKey_ne deg n v hv, List.map_cons,
          List.count_cons_of_ne hv]
        constructor
        · rintro (h | h)
          · rcases List.mem_append.1 h with h | h
            · exact Or.inl h
            · exact absurd (List.mem_singleton.1 h) hv
          · exact Or.inr h
        · rintro (h | h)
          · exact Or.inl (List.mem_append_left _ h)
          · exact Or.inr h
    · rw [if_neg hb, ih (decKey deg n) acc v, hkeys]
      by_cases hv : v = n
      · subst hv
        by_cases hn : v ∈ deg.map Prod.fst
        · have hd := lookupDeg_decKey_self deg v hn
          rw [List.map_cons, List.count_cons_self, hd]
          constructor
          · rintro (h | ⟨_, h1, h2⟩)
            · exact Or.inl h
            · exact Or.inr ⟨hn, by omega, by push_cast; omega⟩
          · rintro (h | ⟨_, h1, h2⟩)
            · exact Or.inl h
            · refine Or.inr ⟨hn, by omega, ?_⟩
              push_cast at h2
              omega
        · rw [decKey_not_mem deg v hn]
          constructor
          · rintro (h | ⟨hmem, _⟩)
            · exact Or.inl h
            · exact absurd hmem hn
          · rintro (h | ⟨hmem, _⟩)
            · exact Or.inl h
            · exact absurd hmem hn
      · rw [lookupDeg_decKey_ne deg n v hv, List.map_cons,
          List.count_cons_of_ne hv]

theorem processN_acc_invariant : ∀ (ns deg : List (Nat × Int))
    (acc : List Nat), acc.Nodup → (∀ v ∈ acc, lookupDeg deg v ≤ 0) →
    (processN ns deg acc).2.Nodup ∧
      ∀ v ∈ (processN ns deg acc).2, lookupDeg (processN ns deg acc).1 v ≤ 0 := by
  intro ns
  induction ns with
  | nil =>
    intro deg acc hnd hle
    exact ⟨hnd, hle⟩
  | cons p rest ih =>
    rcases p with ⟨n, w⟩
    intro deg acc hnd hle
    have hstep : processN ((n, w) :: rest) deg acc =
        if lookupDeg (decKey deg n) n = 0
        then processN rest (decKey deg n) (acc ++ [n])
        else processN rest (decKey deg n) acc := rfl
    rw [hstep]
    have hle2 : ∀ v ∈ acc, lookupDeg (decKey deg n) v ≤ 0 :=
      fun v hv => le_trans (lookupDeg_decKey_le deg n v) (hle v hv)
    by_cases hb : lookupDeg (decKey deg n) n = 0
    · rw [if_pos hb]
      have hnacc : n ∉ acc := by
        intro hmem
        have h0 := hle n hmem
        by_cases hn : n ∈ deg.map Prod.fst
        · have := lookupDeg_decKey_self deg n hn
          omega
        · rw [decKey_not_mem deg n hn, lookupDeg_not_mem deg n hn] at hb
          omega
      refine ih (decKey deg n) (acc ++ [n]) ?_ ?_
      · rw [List.nodup_append]
        exact ⟨hnd, List.nodup_singleton n,
          fun a ha hb2 => hnacc (List.mem_singleton.1 hb2 ▸ ha)⟩
      · intro v hv
        rcases List.mem_append.1 hv with h | h
        · exact hle2 v h
        · rw [List.mem_singleton.1 h]
          omega
    · rw [if_neg hb]
      exact ih (decKey deg n) acc hnd hle2

theorem inCnt_nil (g : Adj) (v : Nat) : inCnt g [] v = 0 := by
  rw [inCnt, List.countP_eq_zero]
  intro e _
  simp

theorem inCnt_le_inDeg (g : Adj) (S : List Nat) (v : Nat) :
    inCnt g S v ≤ inDeg g v :=
  List.countP_mono_left (fun e _ h => (Bool.and_eq_true .. ▸ h).1)

theorem countP_lt_of_witness {α : Type} (l : List α) (p q : α → Bool)
    (hmono : ∀ a ∈ l, p a = true → q a = true) (a : α) (ha : a ∈ l)
    (hq : q a = true) (hp : ¬ p a = true) : l.countP p < l.countP q := by
  induction l with
  | nil => simp at ha
  | cons b l ih =>
    rw [List.countP_cons, List.countP_cons]
    rcases List.mem_cons.1 ha with he | ha2
    · subst he
      have hle := List.countP_mono_left
        (fun x hx hpx => hmono x (List.mem_cons_of_mem _ hx) hpx)
      rw [if_pos hq, if_neg hp]
      omega
    · have hlt := ih (fun x hx => hmono x (List.mem_cons_of_mem _ hx)) ha2
      by_cases hpb : p b = true
      · rw [if_pos hpb, if_pos (hmono b (List.mem_cons_self b l) hpb)]
        omega
      · rw [if_neg hpb]
        by_cases hqb : q b = true
        · rw [if_pos hqb]
          omega
        · rw [if_neg hqb]
          omega

theorem all_src_mem_of_inCnt_ge {g : Adj} {S : List Nat} {v : Nat}
    (h : inDeg g v ≤ inCnt g S v) :
    ∀ e ∈ edgesOf g, e.2.1 = v → e.1 ∈ S := by
  intro e he ht
  by_contra hs
  have hlt : inCnt g S v < inDeg g v := by
    rw [inCnt, inDeg]
    refine countP_lt_of_witness _ _ _
      (fun a _ hp => (Bool.and_eq_true .. ▸ hp).1) e he
      (decide_eq_true ht) ?_
    simp only [Bool.and_eq_true, decide_eq_true_eq]
    rintro ⟨_, hmem⟩
    exact hs hmem
  omega

theorem exists_bad_edge_of_inCnt_lt {g : Adj} {S : List Nat} {v : Nat}
    (h : inCnt g S v < inDeg g v) :
    ∃ e ∈ edgesOf g, e.2.1 = v ∧ e.1 ∉ S := by
  by_contra hc
  push_neg at hc
  have heq : inCnt g S v = inDeg g v := by
    rw [inCnt, inDeg]
    refine List.countP_congr (fun e he => ?_)
    simp only [Bool.and_eq_true, decide_eq_true_eq]
    constructor
    · exact fun hx => hx.1
    · exact fun hx => ⟨hx, hc e he hx⟩
  omega

theorem countP_src_tgt : ∀ {g : Adj}, (keysOf g).Nodup → ∀ u v : Nat,
    (edgesOf g).countP (fun e => decide (e.2.1 = v) && decide (e.1 = u)) =
      ((adjOf g u).map Prod.fst).count v := by
  intro g
  induction g with
  | nil => intro _ u v; rfl
  | cons p rest ih =>
    rcases p with ⟨k, es⟩
    intro hnd u v
    rw [keysOf] at hnd
    simp only [List.map_cons, List.nodup_cons] at hnd
    have hedges : edgesOf ((k, es) :: rest) =
        es.map (fun q => (k, q.1, q.2)) ++ edgesOf rest := rfl
    rw [hedges, List.countP_append, List.countP_map]
    by_cases hk : k = u
    · subst hk
      rw [adjOf, if_pos rfl]
      have hz : (edgesOf rest).countP
          (fun e => decide (e.2.1 = v) && decide (e.1 = k)) = 0 := by
        rw [List.countP_eq_zero]
        intro e he
        have hsrc : e.1 ∈ keysOf rest := edgesOf_source_mem he
        simp only [Bool.and_eq_true, decide_eq_true_eq, not_and]
        intro _ hek
        exact absurd (hek ▸ hsrc) hnd.1
      rw [hz, Nat.add_zero, count_map_eq_countP Prod.fst es v]
      refine List.countP_congr (fun q _ => ?_)
      simp
    · rw [adjOf, if_neg hk]
      have hz : es.countP
          ((fun e : Nat × Nat × Int => decide (e.2.1 = v) && decide (e.1 = u)) ∘
            fun q => (k, q.1, q.2)) = 0 := by
        rw [List.countP_eq_zero]
        intro q _
        simp only [Function.comp_apply, Bool.and_eq_true, decide_eq_true_eq,
          not_and]
        intro _ hc
        exact hk hc
      rw [hz, Nat.zero_add]
      exact ih hnd.2 u v

theorem inCnt_append_single {g : Adj} {S : List Nat} {u : Nat}
    (hnd : (keysOf g).Nodup) (hu : u ∉ S) (v : Nat) :
    inCnt g (S ++ [u]) v =
      inCnt g S v + ((adjOf g u).map Prod.fst).count v := by
  rw [inCnt, inCnt, ← countP_src_tgt hnd u v]
  induction edgesOf g with
  | nil => rfl
  | cons a l ih =>
    rw [List.countP_cons, List.countP_cons, List.countP_cons, ih]
    by_cases ht : a.2.1 = v
    · by_cases hS : a.1 ∈ S
      · have hU : a.1 ≠ u := fun hc => hu (hc ▸ hS)
        have c1 : (decide (a.2.1 = v) && decide (a.1 ∈ S ++ [u])) = true := by
          simp [ht, List.mem_append, hS]
        have c2 : (decide (a.2.1 = v) && decide (a.1 ∈ S)) = true := by
          simp [ht, hS]
        have c3 : (decide (a.2.1 = v) && decide (a.1 = u)) = false := by
          simp [hU]
        rw [c1, c2, c3]
        simp only [if_pos rfl]
        simp
        omega
      · by_cases hU : a.1 = u
        · have c1 : (decide (a.2.1 = v) && decide (a.1 ∈ S ++ [u])) = true := by
            simp [ht, List.mem_append, hU]
          have c2 : (decide (a.2.1 = v) && decide (a.1 ∈ S)) = false := by
            simp [hS]
          have c3 : (decide (a.2.1 = v) && decide (a.1 = u)) = true := by
            simp [ht, hU]
          rw [c1, c2, c3]
          simp
          omega
        · have c1 : (decide (a.2.1 = v) && decide (a.1 ∈ S ++ [u])) = false := by
            simp only [List.mem_append, List.mem_singleton]
            simp [hS, hU]
          have c2 : (decide (a.2.1 = v) && decide (a.1 ∈ S)) = false := by
            simp [hS]
          have c3 : (decide (a.2.1 = v) && decide (a.1 = u)) = false := by
            simp [hU]
          rw [c1, c2, c3]
          simp
    · simp [ht]

theorem indexOf_append_self (l : List Nat) (u : Nat) (h : u ∉ l) :
    List.indexOf u (l ++ [u]) = l.length := by
  induction l with
  | nil => simp
  | cons a t ih =>
    have ha : a ≠ u := fun hc => h (by simp [hc])
    rw [List.cons_append, List.indexOf_cons_ne _ ha,
      ih (fun hc => h (List.mem_cons_of_mem _ hc)), List.length_cons]

/-- Along any walk whose endpoint lies in an edge-ordered vertex list, every
vertex lies in the list and the indices strictly increase. -/
theorem walk_order {g : Adj} {res : List Nat}
    (hord : ∀ e ∈ edgesOf g, e.2.1 ∈ res →
      e.1 ∈ res ∧ res.indexOf e.1 < res.indexOf e.2.1) :
    ∀ (steps : List (Nat × Int)) (u w : Nat), IsWalk g u steps w → w ∈ res →
      u ∈ res ∧ (steps ≠ [] → res.indexOf u < res.indexOf w) := by
  intro steps
  induction steps with
  | nil =>
    intro u w hw hmem
    rw [IsWalk] at hw
    subst hw
    exact ⟨hmem, fun h => absurd rfl h⟩
  | cons s rest ih =>
    rcases s with ⟨v, wt⟩
    intro u w hw hmem
    rw [IsWalk] at hw
    obtain ⟨hadj, hwalk⟩ := hw
    obtain ⟨_, hedge⟩ := adjOf_mem_edges hadj
    obtain ⟨hv_res, hrest⟩ := ih v w hwalk hmem
    obtain ⟨hu_res, hlt⟩ := hord (u, v, wt) hedge hv_res
    refine ⟨hu_res, fun _ => ?_⟩
    by_cases hr : rest = []
    · subst hr
      rw [IsWalk] at hwalk
      subst hwalk
      exact hlt
    · exact lt_trans hlt (hrest hr)

/-- A (nonempty) list every member of which has a predecessor inside the list
yields a directed cycle, by pigeonhole on iterated predecessors. -/
theorem hasCycle_of_pred {g : Adj} {S : List Nat} (hne : S ≠ [])
    (hpred : ∀ v ∈ S, ∃ u ∈ S, ∃ wt : Int, (v, wt) ∈ adjOf g u) :
    HasCycle g := by
  classical
  choose! f hf using hpred
  have hiter : ∀ (k : Nat) (v : Nat), v ∈ S → f^[k] v ∈ S := by
    intro k
    induction k with
    | zero => intro v hv; simpa using hv
    | succ k ih =>
      intro v hv
      rw [Function.iterate_succ_apply]
      exact ih (f v) (hf v hv).1
  have hwalk : ∀ (k : Nat) (v : Nat), v ∈ S →
      ∃ steps : List (Nat × Int), steps.length = k ∧
        IsWalk g (f^[k] v) steps v := by
    intro k
    induction k with
    | zero => intro v _; exact ⟨[], rfl, rfl⟩
    | succ k ih =>
      intro v hv
      obtain ⟨steps, hlen, hw⟩ := ih v hv
      have hx : f^[k] v ∈ S := hiter k v hv
      obtain ⟨_, wt, hadj⟩ := hf (f^[k] v) hx
      refine ⟨(f^[k] v, wt) :: steps, by simp [hlen], ?_⟩
      rw [Function.iterate_succ_apply']
      exact ⟨hadj, hw⟩
  obtain ⟨v₀, hv₀⟩ := List.exists_mem_of_ne_nil S hne
  have hmaps : ∀ k ∈ Finset.range (S.length + 1), f^[k] v₀ ∈ S.toFinset :=
    fun k _ => List.mem_toFinset.2 (hiter k v₀ hv₀)
  have hcard : S.toFinset.card < (Finset.range (S.length + 1)).card := by
    rw [Finset.card_range]
    exact Nat.lt_succ_of_le (List.toFinset_card_le S)
  obtain ⟨i, _, j, _, hij, heq⟩ :=
    Finset.exists_ne_map_eq_of_card_lt_of_maps_to hcard hmaps
  have main : ∀ a b : Nat, a < b → f^[a] v₀ = f^[b] v₀ → HasCycle g := by
    intro a b hab hab_eq
    have hva : f^[a] v₀ ∈ S := hiter a v₀ hv₀
    obtain ⟨steps, hlen, hw⟩ := hwalk (b - a) (f^[a] v₀) hva
    rw [← Function.iterate_add_apply, show b - a + a = b by omega,
      ← hab_eq] at hw
    refine ⟨f^[a] v₀, steps, fun hnil => ?_, hw⟩
    rw [hnil] at hlen
    simp at hlen
    omega
  rcases Nat.lt_or_ge i j with hlt | hge
  · exact main i j hlt heq
  · exact main j i (by omega) heq.symm

theorem kahnLoop_nil (g : Adj) (deg : List (Nat × Int)) (result : List Nat) :
    kahnLoop g deg [] result = result := by
  rw [kahnLoop]

theorem kahnLoop_cons (g : Adj) (deg : List (Nat × Int)) (u : Nat)
    (qs result : List Nat) :
    kahnLoop g deg (u :: qs) result =
      kahnLoop g (processN (adjOf g u) deg []).1
        (qs ++ (processN (adjOf g u) deg []).2) (result ++ [u]) := by
  rw [kahnLoop]

/-- Loop invariant of Kahn's algorithm relating the in-degree table, the
queue and the emitted prefix. -/
structure KInv (g : Adj) (deg : List (Nat × Int)) (queue result : List Nat) :
    Prop where
  keys_eq : deg.map Prod.fst = keysOf g
  count_eq : ∀ v ∈ keysOf g,
    lookupDeg deg v = (inDeg g v : Int) - (inCnt g result v : Int)
  nodup : (result ++ queue).Nodup
  mem_keys : ∀ v ∈ result ++ queue, v ∈ keysOf g
  nonpos : ∀ v ∈ result ++ queue, lookupDeg deg v ≤ 0
  pos_out : ∀ v ∈ keysOf g, v ∉ result → v ∉ queue → 1 ≤ lookupDeg deg v
  queue_src : ∀ v ∈ queue, ∀ e ∈ edgesOf g, e.2.1 = v → e.1 ∈ result
  result_ord : ∀ e ∈ edgesOf g, e.2.1 ∈ result →
    e.1 ∈ result ∧ result.indexOf e.1 < result.indexOf e.2.1

/-- What holds of the list emitted by the loop when it stops. -/
def KOut (g : Adj) (res : List Nat) : Prop :=
  res.Nodup ∧ (∀ v ∈ res, v ∈ keysOf g) ∧
    (∀ e ∈ edgesOf g, e.2.1 ∈ res →
      e.1 ∈ res ∧ res.indexOf e.1 < res.indexOf e.2.1) ∧
    ∀ v ∈ keysOf g, v ∉ res → ∃ e ∈ edgesOf g, e.2.1 = v ∧ e.1 ∉ res

theorem kahnStep_inv {g : Adj} (hwf : WFGraph g) {deg : List (Nat × Int)}
    {u : Nat} {qs result : List Nat} (hinv : KInv g deg (u :: qs) result) :
    KInv g (processN (adjOf g u) deg []).1
      (qs ++ (processN (adjOf g u) deg []).2) (result ++ [u]) := by
  set D2 := (processN (adjOf g u) deg []).1 with hD2
  set P := (processN (adjOf g u) deg []).2 with hP
  have hkeq : deg.map Prod.fst = keysOf g := hinv.keys_eq
  have hndkeys : (keysOf g).Nodup := hwf.1
  have hu_keys : u ∈ keysOf g := hinv.mem_keys u (by simp)
  have hu_not_res : u ∉ result := by
    have h0 := hinv.nodup
    rw [List.nodup_append] at h0
    exact fun hc => h0.2.2 hc (List.mem_cons_self u qs)
  have hkeys_pres : D2.map Prod.fst = deg.map Prod.fst := by
    rw [hD2]
    exact processN_keys _ _ _
  have hPmem : ∀ v : Nat, v ∈ P ↔ v ∈ keysOf g ∧ 1 ≤ lookupDeg deg v ∧
      lookupDeg deg v ≤ (((adjOf g u).map Prod.fst).count v : Int) := by
    intro v
    have h0 := processN_mem (adjOf g u) deg [] v
    rw [hkeq, ← hP] at h0
    simpa using h0
  have hlookup : ∀ v ∈ keysOf g, lookupDeg D2 v =
      lookupDeg deg v - (((adjOf g u).map Prod.fst).count v : Int) := by
    intro v hv
    have h0 := processN_lookup (adjOf g u) deg [] v (by rw [hkeq]; exact hv)
    rw [← hD2] at h0
    exact h0
  have hPinv := processN_acc_invariant (adjOf g u) deg [] List.nodup_nil
    (fun v hv => absurd hv (List.not_mem_nil v))
  rw [← hD2, ← hP] at hPinv
  have hPfresh : ∀ v ∈ P, v ∉ result ++ u :: qs := by
    intro v hvP hvold
    have h1 := (hPmem v).1 hvP
    have h2 := hinv.nonpos v hvold
    omega
  have hcnt : ∀ v, inCnt g (result ++ [u]) v =
      inCnt g result v + ((adjOf g u).map Prod.fst).count v :=
    fun v => inCnt_append_single hndkeys hu_not_res v
  have hold_of_new : ∀ a : Nat, a ∈ result ++ [u] → a ∈ result ++ u :: qs := by
    intro a ha
    rcases List.mem_append.1 ha with h | h
    · exact List.mem_append_left _ h
    · rw [List.mem_singleton.1 h]
      exact List.mem_append_right _ (List.mem_cons_self u qs)
  have hqs_old : ∀ a : Nat, a ∈ qs → a ∈ result ++ u :: qs := fun a ha =>
    List.mem_append_right _ (List.mem_cons_of_mem _ ha)
  have hstep_old : ∀ v, v ∈ result ++ u :: qs → lookupDeg D2 v ≤ 0 := by
    intro v hvold
    have hv_keys := hinv.mem_keys v hvold
    have h1 := hlookup v hv_keys
    have h2 := hinv.nonpos v hvold
    have h3 : (0 : Int) ≤ (((adjOf g u).map Prod.fst).count v : Int) :=
      Int.ofNat_nonneg _
    omega
  refine ⟨?_, ?_, ?_, ?_, ?_, ?_, ?_, ?_⟩
  · rw [hkeys_pres, hkeq]
  · intro v hv
    rw [hlookup v hv, hinv.count_eq v hv, hcnt v]
    push_cast
    ring
  · have hold : ((result ++ [u]) ++ qs).Nodup := by
      have h0 := hinv.nodup
      rwa [List.append_cons] at h0
    rw [List.nodup_append] at hold
    obtain ⟨h1, h2, h3⟩ := hold
    rw [List.nodup_append]
    refine ⟨h1, ?_, ?_⟩
    · rw [List.nodup_append]
      refine ⟨h2, hPinv.1, ?_⟩
      intro a ha haP
      exact hPfresh a haP (hqs_old a ha)
    · intro a ha haQP
      rcases List.mem_append.1 haQP with hb | hb
      · exact h3 ha hb
      · exact hPfresh a hb (hold_of_new a ha)
  · intro v hv
    rcases List.mem_append.1 hv with h | h
    · exact hinv.mem_keys v (hold_of_new v h)
    · rcases List.mem_append.1 h with h | h
      · exact hinv.mem_keys v (hqs_old v h)
      · exact ((hPmem v).1 h).1
  · intro v hv
    rcases List.mem_append.1 hv with h | h
    · exact hstep_old v (hold_of_new v h)
    · rcases List.mem_append.1 h with h | h
      · exact hstep_old v (hqs_old v h)
      · exact hPinv.2 v h
  · intro v hvk hvr hvq
    have hvres : v ∉ result := fun hc => hvr (List.mem_append_left _ hc)
    have hvne : v ≠ u := fun hc => hvr (by rw [hc]; simp)
    have hvqs : v ∉ qs := fun hc => hvq (List.mem_append_left _ hc)
    have hvP : v ∉ P := fun hc => hvq (List.mem_append_right _ hc)
    have hold : 1 ≤ lookupDeg deg v := by
      refine hinv.pos_out v hvk hvres ?_
      intro hc
      rcases List.mem_cons.1 hc with hc | hc
      · exact hvne hc
      · exact hvqs hc
    have hlk := hlookup v hvk
    by_cases hc0 : (((adjOf g u).map Prod.fst).count v : Int) < lookupDeg deg v
    · omega
    · exact absurd ((hPmem v).2 ⟨hvk, hold, by omega⟩) hvP
  · intro v hv e he ht
    rcases List.mem_append.1 hv with h | h
    · exact List.mem_append_left _
        (hinv.queue_src v (List.mem_cons_of_mem _ h) e he ht)
    · obtain ⟨hk, h1, h2⟩ := (hPmem v).1 h
      have hcq := hinv.count_eq v hk
      have hc := hcnt v
      have hge : inDeg g v ≤ inCnt g (result ++ [u]) v := by omega
      exact all_src_mem_of_inCnt_ge hge e he ht
  · intro e he hmem
    rcases List.mem_append.1 hmem with h | h
    · obtain ⟨h1, h2⟩ := hinv.result_ord e he h
      refine ⟨List.mem_append_left _ h1, ?_⟩
      rw [List.indexOf_append_of_mem h1, List.indexOf_append_of_mem h]
      exact h2
    · have hequ : e.2.1 = u := List.mem_singleton.1 h
      have hsrc : e.1 ∈ result :=
        hinv.queue_src u (List.mem_cons_self u qs) e he hequ
      refine ⟨List.mem_append_left _ hsrc, ?_⟩
      rw [List.indexOf_append_of_mem hsrc, hequ,
        indexOf_append_self result u hu_not_res]
      exact List.indexOf_lt_length.2 hsrc

theorem kahnLoop_spec {g : Adj} (hwf : WFGraph g) :
    ∀ (deg : List (Nat × Int)) (queue result : List Nat),
      KInv g deg queue result → KOut g (kahnLoop g deg queue result) := by
  intro deg queue result
  induction deg, queue, result using kahnLoop.induct g with
  | case1 deg result =>
    intro hinv
    rw [kahnLoop_nil]
    refine ⟨by simpa using hinv.nodup,
      fun v hv => hinv.mem_keys v (List.mem_append_left _ hv),
      fun e he hmem => hinv.result_ord e he hmem, ?_⟩
    intro v hvk hvres
    have h1 : 1 ≤ lookupDeg deg v :=
      hinv.pos_out v hvk hvres (List.not_mem_nil v)
    have h2 := hinv.count_eq v hvk
    have hlt : inCnt g result v < inDeg g v := by omega
    exact exists_bad_edge_of_inCnt_lt hlt
  | case2 deg u qs result ih =>
    intro hinv
    rw [kahnLoop_cons]
    exact ih (kahnStep_inv hwf hinv)

theorem kahn_init_inv {g : Adj} (hwf : WFGraph g) :
    KInv g (degAll g)
      (((degAll g).filter (fun p => p.2 = 0)).map Prod.fst) [] := by
  have hnkeys : ((degAll g).map Prod.fst).Nodup := by
    rw [keys_degAll hwf]
    exact hwf.1
  have hq_sub : ((((degAll g).filter (fun p => p.2 = 0)).map Prod.fst)).Sublist
      ((degAll g).map Prod.fst) :=
    (List.filter_sublist (degAll g)).map Prod.fst
  have hq_keys : ∀ v ∈ ((degAll g).filter (fun p => p.2 = 0)).map Prod.fst,
      v ∈ keysOf g := by
    intro v hv
    rw [← keys_degAll hwf]
    exact hq_sub.subset hv
  have hq_nodup : (((degAll g).filter (fun p => p.2 = 0)).map Prod.fst).Nodup :=
    hnkeys.sublist hq_sub
  have hq_zero : ∀ v ∈ ((degAll g).filter (fun p => p.2 = 0)).map Prod.fst,
      lookupDeg (degAll g) v = 0 := by
    intro v hv
    rcases List.mem_map.1 hv with ⟨p, hp, rfl⟩
    have hp0 : p.2 = 0 := by simpa using List.of_mem_filter hp
    have hpd : p ∈ degAll g := List.mem_of_mem_filter hp
    have hl := lookupDeg_of_mem_nodup hnkeys
      (show (p.1, p.2) ∈ degAll g by simpa using hpd)
    rw [hl, hp0]
  refine ⟨keys_degAll hwf, ?_, ?_, ?_, ?_, ?_, ?_, ?_⟩
  · intro v hv
    rw [lookupDeg_degAll hwf v hv, inCnt_nil]
    push_cast
    ring
  · simpa using hq_nodup
  · intro v hv
    rw [List.nil_append] at hv
    exact hq_keys v hv
  · intro v hv
    rw [List.nil_append] at hv
    have := hq_zero v hv
    omega
  · intro v hvk _ hvq
    have hlk := lookupDeg_degAll hwf v hvk
    rcases Nat.eq_zero_or_pos (inDeg g v) with hz | hpos
    · exfalso
      apply hvq
      have hvk2 : v ∈ (degAll g).map Prod.fst := by
        rw [keys_degAll hwf]
        exact hvk
      rcases List.mem_map.1 hvk2 with ⟨p, hp, hpv⟩
      have hl := lookupDeg_of_mem_nodup hnkeys
        (show (p.1, p.2) ∈ degAll g by simpa using hp)
      rw [hpv] at hl
      have hp2 : p.2 = 0 := by omega
      exact List.mem_map.2 ⟨p, List.mem_filter.2 ⟨hp, by simp [hp2]⟩, hpv⟩
    · omega
  · intro v hvq e he ht
    exfalso
    have hz : inDeg g v = 0 := by
      have h1 := hq_zero v hvq
      have h2 := lookupDeg_degAll hwf v (hq_keys v hvq)
      omega
    rw [inDeg, List.countP_eq_zero] at hz
    exact hz e he (decide_eq_true ht)
  · intro e _ hmem
    exact absurd hmem (List.not_mem_nil _)

/-- C6: on a well-formed graph, `topological_sort` returns `none` exactly
when the graph has a directed cycle; when it returns a vertex list, that
list is a permutation of all vertices in which every edge `(u, v)` has `u`
before `v`. -/
theorem C6_topological_sort_correct (g : Adj) (hwf : WFGraph g) :
    (topological_sort g = none ↔ HasCycle g) ∧
    ∀ res : List Nat, topological_sort g = some res →
      res.Perm (keysOf g) ∧
      ∀ e ∈ edgesOf g, res.indexOf e.1 < res.indexOf e.2.1 := by
  have hinit := kahn_init_inv hwf
  have hout := kahnLoop_spec hwf (degAll g)
    (((degAll g).filter (fun p => p.2 = 0)).map Prod.fst) [] hinit
  set res := kahnLoop g (degAll g)
    (((degAll g).filter (fun p => p.2 = 0)).map Prod.fst) [] with hres
  obtain ⟨hnd, hsub, hord, hbad⟩ := hout
  have htop : topological_sort g =
      if res.length ≠ (keysOf g).length then none else some res := rfl
  by_cases hlen : res.length = (keysOf g).length
  · have hperm : res.Perm (keysOf g) :=
      (hnd.subperm fun a ha => hsub a ha).perm_of_length_le (by omega)
    have hnocyc : ¬ HasCycle g := by
      rintro ⟨v, steps, hne, hwalk⟩
      rcases steps with _ | ⟨⟨x, wt⟩, rest⟩
      · exact hne rfl
      · have hwalk2 := hwalk
        rw [IsWalk] at hwalk2
        have hv_keys : v ∈ keysOf g := (adjOf_mem_edges hwalk2.1).1
        have hv_res : v ∈ res := hperm.mem_iff.2 hv_keys
        have hmain := walk_order hord ((x, wt) :: rest) v v hwalk hv_res
        exact absurd (hmain.2 (by simp)) (lt_irrefl _)
    constructor
    · rw [htop, if_neg (by omega)]
      exact iff_of_false (by simp) hnocyc
    · intro r hr
      rw [htop, if_neg (by omega)] at hr
      injection hr with hr2
      subst hr2
      refine ⟨hperm, ?_⟩
      intro e he
      have htgt : e.2.1 ∈ res := hperm.mem_iff.2 (edgesOf_target_mem hwf he)
      exact (hord e he htgt).2
  · have hnone : topological_sort g = none := by
      rw [htop, if_pos (by omega)]
    have hsp : res.Subperm (keysOf g) := hnd.subperm fun a ha => hsub a ha
    have hlt : res.length < (keysOf g).length :=
      lt_of_le_of_ne hsp.length_le hlen
    have hex : ∃ v ∈ keysOf g, v ∉ res := by
      by_contra hc
      push_neg at hc
      have hsp2 : (keysOf g).Subperm res := hwf.1.subperm fun a ha => hc a ha
      have := hsp2.length_le
      omega
    obtain ⟨v₁, hv₁k, hv₁⟩ := hex
    have hSmem : ∀ v : Nat,
        v ∈ (keysOf g).filter (fun v => decide (v ∉ res)) ↔
          v ∈ keysOf g ∧ v ∉ res := by
      intro v
      rw [List.mem_filter]
      simp
    have hSne : (keysOf g).filter (fun v => decide (v ∉ res)) ≠ [] := by
      intro hnil
      have h0 := (hSmem v₁).2 ⟨hv₁k, hv₁⟩
      rw [hnil] at h0
      exact absurd h0 (List.not_mem_nil _)
    have hpred : ∀ v ∈ (keysOf g).filter (fun v => decide (v ∉ res)),
        ∃ u ∈ (keysOf g).filter (fun v => decide (v ∉ res)),
          ∃ wt : Int, (v, wt) ∈ adjOf g u := by
      intro v hv
      obtain ⟨hvk, hvres⟩ := (hSmem v).1 hv
      obtain ⟨e, he, ht, hs⟩ := hbad v hvk hvres
      refine ⟨e.1, (hSmem e.1).2 ⟨edgesOf_source_mem he, hs⟩, e.2.2, ?_⟩
      have h0 := edges_mem_adjOf hwf.1 he
      rw [ht] at h0
      exact h0
    have hcyc : HasCycle g := hasCycle_of_pred hSne hpred
    refine ⟨?_, ?_⟩
    · rw [hnone]
      exact iff_of_true rfl hcyc
    · intro r hr
      rw [hnone] at hr
      exact absurd hr (by simp)

/-- Witness for C6: the two-vertex well-formed DAG `0 → 1`, with the
hypotheses discharged by `decide`. -/
theorem C6_topological_sort_correct_witness :
    WFGraph [(0, [(1, 1)]), (1, [])] ∧
    (topological_sort [(0, [(1, 1)]), (1, [])] = none ↔
      HasCycle [(0, [(1, 1)]), (1, [])]) :=
  ⟨⟨by decide, by decide⟩,
    (C6_topological_sort_correct [(0, [(1, 1)]), (1, [])]
      ⟨by decide, by decide⟩).1⟩

/-! ### Dijkstra (`GraphAlgorithms.dijkstra`, src 742-771).  `distances` is
an insertion-ordered dict from vertex to `float('inf')`-capable distance,
modelled as an association list into `WithTop Int`; the heap `pq` holds
`(distance, vertex)` tuples and `heappop` removes the lexicographically
smallest tuple. -/

/-- Dict assignment `distances[k] = x` (update first match, else append). -/
def dset : List (Nat × WithTop Int) → Nat → WithTop Int →
    List (Nat × WithTop Int)
  | [], k, x => [(k, x)]
  | (k0, v0) :: rest, k, x =>
    if k0 = k then (k0, x) :: rest else (k0, v0) :: dset rest k x

/-- Dict read `distances[k]`; every key the algorithm reads is present (a
missing key would be a `KeyError`), so the default is never reached. -/
def dget : List (Nat × WithTop Int) → Nat → WithTop Int
  | [], _ => ⊤
  | (k0, v0) :: rest, k => if k0 = k then v0 else dget rest k

/-- The lexicographically smallest `(distance, vertex)` tuple, as removed by
`heapq.heappop`. -/
def pqMin : (Int × Nat) → List (Int × Nat) → (Int × Nat)
  | a, [] => a
  | a, b :: rest =>
    if a.1 < b.1 ∨ (a.1 = b.1 ∧ a.2 ≤ b.2) then pqMin a rest else pqMin b rest

/-- The inner `for neighbor, weight in graph.graph.get(current, [])` loop:
relax each neighbour of the popped vertex, pushing improved entries. -/
def relaxAll : Int → List (Nat × Int) → List (Nat × WithTop Int) →
    List (Int × Nat) → List (Nat × WithTop Int) × List (Int × Nat)
  | _, [], dist, pq => (dist, pq)
  | d, q :: qs, dist, pq =>
    if ((d + q.2 : Int) : WithTop Int) < dget dist q.1 then
      relaxAll d qs (dset dist q.1 ((d + q.2 : Int) : WithTop Int))
        (pq ++ [(d + q.2, q.1)])
    else relaxAll d qs dist pq

theorem dget_dset_self : ∀ (dist : List (Nat × WithTop Int)) (k : Nat)
    (x : WithTop Int), dget (dset dist k x) k = x := by
  intro dist
  induction dist with
  | nil => intro k x; rw [dset, dget, if_pos rfl]
  | cons p rest ih =>
    intro k x
    rcases p with ⟨k0, v0⟩
    by_cases hk : k0 = k
    · rw [dset, if_pos hk, dget, if_pos hk]
    · rw [dset, if_neg hk, dget, if_neg hk]
      exact ih k x

theorem dget_dset_ne : ∀ (dist : List (Nat × WithTop Int)) (k k' : Nat)
    (x : WithTop Int), k' ≠ k → dget (dset dist k x) k' = dget dist k' := by
  intro dist
  induction dist with
  | nil =>
    intro k k' x h
    rw [dset]
    show (if k = k' then x else dget [] k') = dget [] k'
    rw [if_neg (fun hc => h hc.symm)]
  | cons p rest ih =>
    intro k k' x h
    rcases p with ⟨k0, v0⟩
    by_cases hk : k0 = k
    · subst hk
      rw [dset, if_pos rfl, dget, if_neg (fun hc => h hc.symm), dget,
        if_neg (fun hc => h hc.symm)]
    · by_cases hk' : k0 = k'
      · rw [dset, if_neg hk, dget, if_pos hk', dget, if_pos hk']
      · rw [dset, if_neg hk, dget, if_neg hk', dget, if_neg hk']
        exact ih k k' x h

theorem dset_keys_of_mem : ∀ (dist : List (Nat × WithTop Int)) (k : Nat)
    (x : WithTop Int), k ∈ dist.map Prod.fst →
    (dset dist k x).map Prod.fst = dist.map Prod.fst := by
  intro dist
  induction dist with
  | nil => intro k x h; simp at h
  | cons p rest ih =>
    intro k x h
    rcases p with ⟨k0, v0⟩
    by_cases hk : k0 = k
    · rw [dset, if_pos hk]
      simp
    · rw [List.map_cons] at h
      rw [dset, if_neg hk, List.map_cons, List.map_cons,
        ih k x ((List.mem_cons.1 h).resolve_left fun hc => hk hc.symm)]

theorem pqMin_mem : ∀ (a : Int × Nat) (l : List (Int × Nat)),
    pqMin a l ∈ a :: l := by
  intro a l
  induction l generalizing a with
  | nil => rw [pqMin]; exact List.mem_cons_self a []
  | cons b rest ih =>
    rw [pqMin]
    by_cases h : a.1 < b.1 ∨ (a.1 = b.1 ∧ a.2 ≤ b.2)
    · rw [if_pos h]
      rcases List.mem_cons.1 (ih a) with he | he
      · rw [he]; exact List.mem_cons_self a _
      · exact List.mem_cons_of_mem _ (List.mem_cons_of_mem _ he)
    · rw [if_neg h]
      exact List.mem_cons_of_mem _ (ih b)

theorem pqMin_le : ∀ (a : Int × Nat) (l : List (Int × Nat)),
    ∀ p ∈ a :: l, (pqMin a l).1 ≤ p.1 := by
  intro a l
  induction l generalizing a with
  | nil =>
    intro p hp
    rcases List.mem_cons.1 hp with he | he
    · rw [pqMin, he]
    · exact absurd he (List.not_mem_nil p)
  | cons b rest ih =>
    intro p hp
    rw [pqMin]
    by_cases h : a.1 < b.1 ∨ (a.1 = b.1 ∧ a.2 ≤ b.2)
    · rw [if_pos h]
      rcases List.mem_cons.1 hp with he | he
      · exact he ▸ ih a a (List.mem_cons_self a rest)
      · rcases List.mem_cons.1 he with he2 | he2
        · have hab : a.1 ≤ b.1 := by
            rcases h with h | h
            · exact le_of_lt h
            · exact le_of_eq h.1
          exact he2 ▸ le_trans (ih a a (List.mem_cons_self a rest)) hab
        · exact ih a p (List.mem_cons_of_mem _ he2)
    · rw [if_neg h]
      have hba : b.1 ≤ a.1 := by
        rcases Int.lt_or_le b.1 a.1 with h2 | h2
        · exact le_of_lt h2
        · rcases Int.lt_or_le a.1 b.1 with h3 | h3
          · exact absurd (Or.inl h3) h
          · omega
      rcases List.mem_cons.1 hp with he | he
      · exact he ▸ le_trans (ih b b (List.mem_cons_self b rest)) hba
      · exact ih b p he

theorem adjOf_not_mem {g : Adj} {u : Nat} (h : u ∉ keysOf g) :
    adjOf g u = [] := by
  induction g with
  | nil => rfl
  | cons p rest ih =>
    rcases p with ⟨k, es⟩
    have hk : k ≠ u := by
      intro hc
      exact h (by simp [keysOf, hc])
    rw [adjOf, if_neg hk]
    refine ih ?_
    intro hc
    refine h ?_
    rw [keysOf] at hc ⊢
    rw [List.map_cons]
    exact List.mem_cons_of_mem _ hc

/-- The `while pq` loop of Dijkstra's algorithm. -/
def dijkstraLoop (g : Adj) : List (Nat × WithTop Int) → List (Int × Nat) →
    List Nat → List (Nat × WithTop Int)
  | dist, [], _ => dist
  | dist, a :: rest, visited =>
    if h : (pqMin a rest).2 ∈ visited then
      dijkstraLoop g dist ((a :: rest).erase (pqMin a rest)) visited
    else
      dijkstraLoop g
        (relaxAll (pqMin a rest).1 (adjOf g (pqMin a rest).2) dist
          ((a :: rest).erase (pqMin a rest))).1
        (relaxAll (pqMin a rest).1 (adjOf g (pqMin a rest).2) dist
          ((a :: rest).erase (pqMin a rest))).2
        (visited ++ [(pqMin a rest).2])
termination_by dist pq visited =>
  (((keysOf g).toFinset \ visited.toFinset).card, pq.length)
decreasing_by
  · apply Prod.Lex.right
    have hm := pqMin_mem a rest
    have := List.length_erase_of_mem hm
    simp only [this, List.length_cons]
    omega
  · by_cases hc : (pqMin a rest).2 ∈ keysOf g
    · apply Prod.Lex.left
      apply Finset.card_lt_card
      have hmem : (pqMin a rest).2 ∈
          (keysOf g).toFinset \ visited.toFinset := by
        rw [Finset.mem_sdiff]
        exact ⟨List.mem_toFinset.2 hc, fun hin => h (List.mem_toFinset.1 hin)⟩
      refine (Finset.ssubset_iff_of_subset ?_).2
        ⟨(pqMin a rest).2, hmem, ?_⟩
      · intro x hx
        rw [Finset.mem_sdiff] at hx ⊢
        refine ⟨hx.1, fun hin => hx.2 ?_⟩
        rw [List.mem_toFinset] at hin ⊢
        exact List.mem_append_left _ hin
      · intro hx
        rw [Finset.mem_sdiff, List.mem_toFinset, List.mem_toFinset] at hx
        exact hx.2 (List.mem_append_right _ (List.mem_cons_self _ []))
    · have hadj : adjOf g (pqMin a rest).2 = [] := adjOf_not_mem hc
      rw [hadj]
      have hfst : (keysOf g).toFinset \
          (visited ++ [(pqMin a rest).2]).toFinset =
          (keysOf g).toFinset \ visited.toFinset := by
        ext x
        rw [Finset.mem_sdiff, Finset.mem_sdiff, List.mem_toFinset,
          List.mem_toFinset, List.mem_toFinset]
        constructor
        · rintro ⟨h1, h2⟩
          exact ⟨h1, fun hin => h2 (List.mem_append_left _ hin)⟩
        · rintro ⟨h1, h2⟩
          refine ⟨h1, fun hin => ?_⟩
          rcases List.mem_append.1 hin with h3 | h3
          · exact h2 h3
          · rw [List.mem_singleton.1 h3] at h1
            exact hc h1
      rw [hfst]
      apply Prod.Lex.right
      have hm := pqMin_mem a rest
      have := List.length_erase_of_mem hm
      simp only [relaxAll, this, List.length_cons]
      omega

/-- `GraphAlgorithms.dijkstra`, returning the `distances` dict. -/
def dijkstra (g : Adj) (s : Nat) : List (Nat × WithTop Int) :=
  dijkstraLoop g (dset ((keysOf g).map (fun v => (v, (⊤ : WithTop Int)))) s 0)
    [(0, s)] []

/-- `v` is reachable from `s` by some walk. -/
def Reach (g : Adj) (s v : Nat) : Prop := ∃ steps, IsWalk g s steps v

theorem isWalk_append_one {g : Adj} :
    ∀ (steps : List (Nat × Int)) (u v x : Nat) (wt : Int),
    IsWalk g u steps v → (x, wt) ∈ adjOf g v →
    IsWalk g u (steps ++ [(x, wt)]) x := by
  intro steps
  induction steps with
  | nil =>
    intro u v x wt hw hadj
    rw [IsWalk] at hw
    subst hw
    exact ⟨hadj, rfl⟩
  | cons s0 rest ih =>
    rcases s0 with ⟨y, w0⟩
    intro u v x wt hw hadj
    rw [IsWalk] at hw
    exact ⟨hw.1, ih y v x wt hw.2 hadj⟩

theorem Reach.step {g : Adj} {s c x : Nat} {wt : Int} (hr : Reach g s c)
    (hadj : (x, wt) ∈ adjOf g c) : Reach g s x := by
  obtain ⟨steps, hw⟩ := hr
  exact ⟨steps ++ [(x, wt)], isWalk_append_one steps s c x wt hw hadj⟩

/-- Combined specification of the inner relaxation loop: key preservation,
pointwise decrease, stability of values at most the popped priority, table
nonnegativity, heap-entry soundness, visited-below-heap order, pending-entry
witnesses, reachability, and the per-neighbour relaxation bound. -/
theorem relaxAll_spec (g : Adj) (s c : Nat) (d : Int)
    (V : List Nat) (hrc : Reach g s c) (hd : 0 ≤ d) :
    ∀ (ns : List (Nat × Int)) (dist : List (Nat × WithTop Int))
      (pq : List (Int × Nat)),
    (∀ q ∈ ns, q.1 ∈ keysOf g ∧ 0 ≤ q.2 ∧ (q.1, q.2) ∈ adjOf g c) →
    dist.map Prod.fst = keysOf g →
    dget dist c = (d : WithTop Int) →
    (∀ v, 0 ≤ dget dist v) →
    (∀ p ∈ pq, dget dist p.2 ≤ (p.1 : WithTop Int) ∧ 0 ≤ p.1 ∧
      p.2 ∈ keysOf g) →
    (∀ x ∈ V, dget dist x ≤ (d : WithTop Int)) →
    (∀ x ∈ V, ∀ p ∈ pq, dget dist x ≤ (p.1 : WithTop Int)) →
    (∀ x : Nat, x ∉ V → dget dist x ≠ ⊤ →
      ∃ d' : Int, (d', x) ∈ pq ∧ (d' : WithTop Int) = dget dist x) →
    (∀ x : Nat, dget dist x ≠ ⊤ → Reach g s x) →
    ((relaxAll d ns dist pq).1.map Prod.fst = keysOf g ∧
     (∀ v, dget (relaxAll d ns dist pq).1 v ≤ dget dist v) ∧
     (∀ x, dget dist x ≤ (d : WithTop Int) →
       dget (relaxAll d ns dist pq).1 x = dget dist x) ∧
     (∀ v, 0 ≤ dget (relaxAll d ns dist pq).1 v) ∧
     (∀ p ∈ (relaxAll d ns dist pq).2,
       dget (relaxAll d ns dist pq).1 p.2 ≤ (p.1 : WithTop Int) ∧
       0 ≤ p.1 ∧ p.2 ∈ keysOf g) ∧
     (∀ x ∈ V, ∀ p ∈ (relaxAll d ns dist pq).2,
       dget (relaxAll d ns dist pq).1 x ≤ (p.1 : WithTop Int)) ∧
     (∀ x : Nat, x ∉ V → dget (relaxAll d ns dist pq).1 x ≠ ⊤ →
       ∃ d' : Int, (d', x) ∈ (relaxAll d ns dist pq).2 ∧
         (d' : WithTop Int) = dget (relaxAll d ns dist pq).1 x) ∧
     (∀ x : Nat, dget (relaxAll d ns dist pq).1 x ≠ ⊤ → Reach g s x) ∧
     (∀ q ∈ ns, dget (relaxAll d ns dist pq).1 q.1 ≤
       ((d + q.2 : Int) : WithTop Int))) := by
  intro ns
  induction ns with
  | nil =>
    intro dist pq _ hkeys hc hnn hpq hVd hVpq hwit hreach
    exact ⟨hkeys, fun v => le_rfl, fun x _ => rfl, hnn, hpq, hVpq, hwit,
      hreach, fun q hq => absurd hq (List.not_mem_nil q)⟩
  | cons q qs ih =>
    intro dist pq hns hkeys hc hnn hpq hVd hVpq hwit hreach
    obtain ⟨hq_keys, hq_w, hq_adj⟩ := hns q (List.mem_cons_self q qs)
    have hns' : ∀ q' ∈ qs, q'.1 ∈ keysOf g ∧ 0 ≤ q'.2 ∧
        (q'.1, q'.2) ∈ adjOf g c :=
      fun q' hq' => hns q' (List.mem_cons_of_mem _ hq')
    have hstep : relaxAll d (q :: qs) dist pq =
        if ((d + q.2 : Int) : WithTop Int) < dget dist q.1 then
          relaxAll d qs (dset dist q.1 ((d + q.2 : Int) : WithTop Int))
            (pq ++ [(d + q.2, q.1)])
        else relaxAll d qs dist pq := rfl
    rw [hstep]
    by_cases hb : ((d + q.2 : Int) : WithTop Int) < dget dist q.1
    · rw [if_pos hb]
      set dist1 := dset dist q.1 ((d + q.2 : Int) : WithTop Int) with hdist1
      set pq1 := pq ++ [(d + q.2, q.1)] with hpq1
      have hg_self : dget dist1 q.1 = ((d + q.2 : Int) : WithTop Int) := by
        rw [hdist1]
        exact dget_dset_self dist q.1 _
      have hg_ne : ∀ v, v ≠ q.1 → dget dist1 v = dget dist v := by
        intro v hv
        rw [hdist1]
        exact dget_dset_ne dist q.1 v _ hv
      have hdec : ∀ v, dget dist1 v ≤ dget dist v := by
        intro v
        by_cases hv : v = q.1
        · subst hv
          rw [hg_self]
          exact le_of_lt hb
        · rw [hg_ne v hv]
      have hsmall_ne : ∀ x, dget dist x ≤ (d : WithTop Int) → x ≠ q.1 := by
        intro x hx hxq
        subst hxq
        have h1 : ((d + q.2 : Int) : WithTop Int) < (d : WithTop Int) :=
          lt_of_lt_of_le hb hx
        rw [WithTop.coe_lt_coe] at h1
        omega
      have hstable : ∀ x, dget dist x ≤ (d : WithTop Int) →
          dget dist1 x = dget dist x :=
        fun x hx => hg_ne x (hsmall_ne x hx)
      have hkeys1 : dist1.map Prod.fst = keysOf g := by
        rw [hdist1, dset_keys_of_mem dist q.1 _ (by rw [hkeys]; exact hq_keys),
          hkeys]
      have hc1 : dget dist1 c = (d : WithTop Int) := by
        rw [hstable c (le_of_eq hc), hc]
      have hnn1 : ∀ v, 0 ≤ dget dist1 v := by
        intro v
        by_cases hv : v = q.1
        · subst hv
          rw [hg_self]
          exact_mod_cast (by omega : (0 : Int) ≤ d + q.2)
        · rw [hg_ne v hv]
          exact hnn v
      have hpq1_ok : ∀ p ∈ pq1, dget dist1 p.2 ≤ (p.1 : WithTop Int) ∧
          0 ≤ p.1 ∧ p.2 ∈ keysOf g := by
        intro p hp
        rcases List.mem_append.1 hp with hp | hp
        · obtain ⟨h1, h2, h3⟩ := hpq p hp
          exact ⟨le_trans (hdec p.2) h1, h2, h3⟩
        · rw [List.mem_singleton.1 hp]
          refine ⟨?_, by omega, hq_keys⟩
          rw [hg_self]
      have hVd1 : ∀ x ∈ V, dget dist1 x ≤ (d : WithTop Int) := by
        intro x hx
        rw [hstable x (hVd x hx)]
        exact hVd x hx
      have hVpq1 : ∀ x ∈ V, ∀ p ∈ pq1, dget dist1 x ≤ (p.1 : WithTop Int) := by
        intro x hx p hp
        rcases List.mem_append.1 hp with hp | hp
        · exact le_trans (hdec x) (hVpq x hx p hp)
        · rw [List.mem_singleton.1 hp]
          refine le_trans (hVd1 x hx) ?_
          exact_mod_cast (by omega : d ≤ d + q.2)
      have hwit1 : ∀ x : Nat, x ∉ V → dget dist1 x ≠ ⊤ →
          ∃ d' : Int, (d', x) ∈ pq1 ∧ (d' : WithTop Int) = dget dist1 x := by
        intro x hx hne
        by_cases hv : x = q.1
        · subst hv
          exact ⟨d + q.2, List.mem_append_right _ (List.mem_cons_self _ []),
            by rw [hg_self]⟩
        · rw [hg_ne x hv] at hne ⊢
          obtain ⟨d', h1, h2⟩ := hwit x hx hne
          exact ⟨d', List.mem_append_left _ h1, h2⟩
      have hreach1 : ∀ x : Nat, dget dist1 x ≠ ⊤ → Reach g s x := by
        intro x hne
        by_cases hv : x = q.1
        · subst hv
          exact hrc.step hq_adj
        · rw [hg_ne x hv] at hne
          exact hreach x hne
      obtain ⟨c1, c2, c3, c4, c5, c6, c7, c8, c9⟩ :=
        ih dist1 pq1 hns' hkeys1 hc1 hnn1 hpq1_ok hVd1 hVpq1 hwit1 hreach1
      refine ⟨c1, ?_, ?_, c4, c5, c6, c7, c8, ?_⟩
      · intro v
        exact le_trans (c2 v) (hdec v)
      · intro x hx
        rw [c3 x (by rw [hstable x hx]; exact hx), hstable x hx]
      · intro q' hq'
        rcases List.mem_cons.1 hq' with he | he
        · subst he
          refine le_trans (c2 q'.1) ?_
          rw [hg_self]
        · exact c9 q' he
    · rw [if_neg hb]
      obtain ⟨c1, c2, c3, c4, c5, c6, c7, c8, c9⟩ :=
        ih dist pq hns' hkeys hc hnn hpq hVd hVpq hwit hreach
      refine ⟨c1, c2, c3, c4, c5, c6, c7, c8, ?_⟩
      intro q' hq'
      rcases List.mem_cons.1 hq' with he | he
      · subst he
        exact le_trans (c2 q'.1) (le_of_not_lt hb)
      · exact c9 q' he

/-- Loop invariant of Dijkstra's algorithm. -/
structure DInv (g : Adj) (s : Nat) (dist : List (Nat × WithTop Int))
    (pq : List (Int × Nat)) (visited : List Nat) : Prop where
  keys : dist.map Prod.fst = keysOf g
  s_le : dget dist s ≤ 0
  nonneg : ∀ v, 0 ≤ dget dist v
  pq_ok : ∀ p ∈ pq, dget dist p.2 ≤ (p.1 : WithTop Int) ∧ 0 ≤ p.1 ∧
    p.2 ∈ keysOf g
  vis_le : ∀ x ∈ visited, ∀ p ∈ pq, dget dist x ≤ (p.1 : WithTop Int)
  vis_relax : ∀ x ∈ visited, ∀ q ∈ adjOf g x,
    dget dist q.1 ≤ dget dist x + (q.2 : WithTop Int)
  wit : ∀ x : Nat, x ∉ visited → dget dist x ≠ ⊤ →
    ∃ d' : Int, (d', x) ∈ pq ∧ (d' : WithTop Int) = dget dist x
  reach : ∀ x : Nat, dget dist x ≠ ⊤ → Reach g s x

theorem dijkstraLoop_spec {g : Adj} {s : Nat} (hwf : WFGraph g)
    (hw : ∀ e ∈ edgesOf g, 0 ≤ e.2.2) :
    ∀ (dist : List (Nat × WithTop Int)) (pq : List (Int × Nat))
      (visited : List Nat), DInv g s dist pq visited →
    (dget (dijkstraLoop g dist pq visited) s ≤ 0 ∧
     (∀ v, 0 ≤ dget (dijkstraLoop g dist pq visited) v) ∧
     (∀ x : Nat, ∀ q ∈ adjOf g x,
       dget (dijkstraLoop g dist pq visited) q.1 ≤
         dget (dijkstraLoop g dist pq visited) x + (q.2 : WithTop Int)) ∧
     (∀ x : Nat, dget (dijkstraLoop g dist pq visited) x ≠ ⊤ →
       Reach g s x)) := by
  intro dist pq visited
  induction dist, pq, visited using dijkstraLoop.induct g with
  | case1 dist visited =>
    intro hinv
    rw [dijkstraLoop]
    refine ⟨hinv.s_le, hinv.nonneg, ?_, hinv.reach⟩
    intro x q hq
    by_cases hx : x ∈ visited
    · exact hinv.vis_relax x hx q hq
    · have htop : dget dist x = ⊤ := by
        by_contra hne
        obtain ⟨d', hd', _⟩ := hinv.wit x hx hne
        exact absurd hd' (List.not_mem_nil _)
      rw [htop, WithTop.top_add]
      exact le_top
  | case2 dist a rest visited h ih =>
    intro hinv
    rw [dijkstraLoop, dif_pos h]
    refine ih ⟨hinv.keys, hinv.s_le, hinv.nonneg, ?_, ?_, hinv.vis_relax,
      ?_, hinv.reach⟩
    · exact fun p hp => hinv.pq_ok p (List.mem_of_mem_erase hp)
    · exact fun x hx p hp => hinv.vis_le x hx p (List.mem_of_mem_erase hp)
    · intro x hx hne
      obtain ⟨d', hd', hval⟩ := hinv.wit x hx hne
      refine ⟨d', ?_, hval⟩
      rw [List.mem_erase_of_ne]
      · exact hd'
      · intro hc
        have hx2 : x = (pqMin a rest).2 := congrArg Prod.snd hc
        rw [hx2] at hx
        exact hx h
  | case3 dist a rest visited h ih =>
    intro hinv
    rw [dijkstraLoop, dif_neg h]
    have hm_mem : pqMin a rest ∈ a :: rest := pqMin_mem a rest
    obtain ⟨hminle, hmin0, hmin_keys⟩ := hinv.pq_ok _ hm_mem
    have heq : dget dist (pqMin a rest).2 =
        ((pqMin a rest).1 : WithTop Int) := by
      rcases lt_or_eq_of_le hminle with hlt | he
      · exfalso
        have hne_top : dget dist (pqMin a rest).2 ≠ ⊤ := by
          intro hc
          rw [hc] at hlt
          exact absurd hlt not_top_lt
        obtain ⟨d', hd'1, hd'2⟩ := hinv.wit _ h hne_top
        have hge := pqMin_le a rest (d', (pqMin a rest).2) hd'1
        rw [← hd'2, WithTop.coe_lt_coe] at hlt
        simp only at hge
        omega
      · exact he
    have hrc : Reach g s (pqMin a rest).2 := by
      refine hinv.reach _ ?_
      rw [heq]
      exact WithTop.coe_ne_top
    have hns : ∀ q ∈ adjOf g (pqMin a rest).2, q.1 ∈ keysOf g ∧ 0 ≤ q.2 ∧
        (q.1, q.2) ∈ adjOf g (pqMin a rest).2 := by
      intro q hq
      have hedge := (adjOf_mem_edges hq).2
      exact ⟨edgesOf_target_mem hwf hedge, hw _ hedge, by simpa using hq⟩
    have hpq' : ∀ p ∈ (a :: rest).erase (pqMin a rest),
        dget dist p.2 ≤ (p.1 : WithTop Int) ∧ 0 ≤ p.1 ∧ p.2 ∈ keysOf g :=
      fun p hp => hinv.pq_ok p (List.mem_of_mem_erase hp)
    have hVd : ∀ x ∈ visited ++ [(pqMin a rest).2],
        dget dist x ≤ ((pqMin a rest).1 : WithTop Int) := by
      intro x hx
      rcases List.mem_append.1 hx with hx | hx
      · exact hinv.vis_le x hx _ hm_mem
      · rw [List.mem_singleton.1 hx]
        exact le_of_eq heq
    have hVpq : ∀ x ∈ visited ++ [(pqMin a rest).2],
        ∀ p ∈ (a :: rest).erase (pqMin a rest),
        dget dist x ≤ (p.1 : WithTop Int) := by
      intro x hx p hp
      have hp2 := List.mem_of_mem_erase hp
      rcases List.mem_append.1 hx with hx | hx
      · exact hinv.vis_le x hx p hp2
      · rw [List.mem_singleton.1 hx, heq, WithTop.coe_le_coe]
        exact pqMin_le a rest p hp2
    have hwit' : ∀ x : Nat, x ∉ visited ++ [(pqMin a rest).2] →
        dget dist x ≠ ⊤ →
        ∃ d' : Int, (d', x) ∈ (a :: rest).erase (pqMin a rest) ∧
          (d' : WithTop Int) = dget dist x := by
      intro x hx hne
      have hx1 : x ∉ visited := fun hc => hx (List.mem_append_left _ hc)
      have hx2 : x ≠ (pqMin a rest).2 := fun hc =>
        hx (List.mem_append_right _ (by rw [hc]; exact List.mem_cons_self _ []))
      obtain ⟨d', hd', hval⟩ := hinv.wit x hx1 hne
      refine ⟨d', ?_, hval⟩
      rw [List.mem_erase_of_ne]
      · exact hd'
      · intro hc
        exact hx2 (congrArg Prod.snd hc)
    obtain ⟨c1, c2, c3, c4, c5, c6, c7, c8, c9⟩ :=
      relaxAll_spec g s (pqMin a rest).2 (pqMin a rest).1
        (visited ++ [(pqMin a rest).2]) hrc hmin0
        (adjOf g (pqMin a rest).2) dist ((a :: rest).erase (pqMin a rest))
        hns hinv.keys heq hinv.nonneg hpq' hVd hVpq hwit' hinv.reach
    refine ih ⟨c1, le_trans (c2 s) hinv.s_le, c4, c5, c6, ?_, c7, c8⟩
    intro x hx q hq
    rcases List.mem_append.1 hx with hx | hx
    · have hold := hinv.vis_relax x hx q hq
      have hstab : dget (relaxAll (pqMin a rest).1
          (adjOf g (pqMin a rest).2) dist
          ((a :: rest).erase (pqMin a rest))).1 x = dget dist x :=
        c3 x (hVd x (List.mem_append_left _ hx))
      rw [hstab]
      exact le_trans (c2 q.1) hold
    · have hxe : x = (pqMin a rest).2 := List.mem_singleton.1 hx
      subst hxe
      have h9 := c9 q hq
      have hcr : dget (relaxAll (pqMin a rest).1
          (adjOf g (pqMin a rest).2) dist
          ((a :: rest).erase (pqMin a rest))).1 (pqMin a rest).2 =
          ((pqMin a rest).1 : WithTop Int) := by
        rw [c3 _ (le_of_eq heq), heq]
      rw [hcr, ← WithTop.coe_add]
      exact h9

theorem dinit_keys (g : Adj) :
    (((keysOf g).map fun v => (v, (⊤ : WithTop Int))).map Prod.fst) =
      keysOf g := by
  induction keysOf g with
  | nil => rfl
  | cons k rest ih => rw [List.map_cons, List.map_cons, ih]

theorem dget_init_top (l : List Nat) (v : Nat) :
    dget (l.map fun u => (u, (⊤ : WithTop Int))) v = ⊤ := by
  induction l with
  | nil => rfl
  | cons k rest ih =>
    rw [List.map_cons]
    by_cases hk : k = v
    · rw [dget, if_pos hk]
    · rw [dget, if_neg hk]
      exact ih

/-- C4: with nonnegative edge weights and a start vertex in the graph,
`dijkstra` assigns distance 0 to the start, satisfies the relaxation
closure `dist[v] ≤ dist[u] + w` on every edge, and assigns `⊤`
(`float('inf')`) to every vertex unreachable from the start. -/
theorem C4_dijkstra_correct (g : Adj) (s : Nat) (hwf : WFGraph g)
    (hs : s ∈ keysOf g) (hw : ∀ e ∈ edgesOf g, 0 ≤ e.2.2) :
    dget (dijkstra g s) s = 0 ∧
    (∀ e ∈ edgesOf g, dget (dijkstra g s) e.2.1 ≤
      dget (dijkstra g s) e.1 + (e.2.2 : WithTop Int)) ∧
    (∀ v : Nat, ¬ Reach g s v → dget (dijkstra g s) v = ⊤) := by
  have hs0 : dget (dset ((keysOf g).map fun v => (v, (⊤ : WithTop Int))) s 0)
      s = 0 := dget_dset_self _ s 0
  have hother : ∀ v : Nat, v ≠ s →
      dget (dset ((keysOf g).map fun v => (v, (⊤ : WithTop Int))) s 0) v =
        ⊤ := by
    intro v hv
    rw [dget_dset_ne _ s v 0 hv, dget_init_top]
  have hinit : DInv g s
      (dset ((keysOf g).map fun v => (v, (⊤ : WithTop Int))) s 0)
      [(0, s)] [] := by
    refine ⟨?_, ?_, ?_, ?_, ?_, ?_, ?_, ?_⟩
    · rw [dset_keys_of_mem _ s 0 (by rw [dinit_keys]; exact hs), dinit_keys]
    · rw [hs0]
    · intro v
      by_cases hv : v = s
      · subst hv
        rw [hs0]
      · rw [hother v hv]
        exact le_top
    · intro p hp
      have hpe : p = ((0 : Int), s) := List.mem_singleton.1 hp
      subst hpe
      refine ⟨?_, le_refl _, hs⟩
      rw [hs0]
      simp
    · intro x hx
      exact absurd hx (List.not_mem_nil x)
    · intro x hx
      exact absurd hx (List.not_mem_nil x)
    · intro x _ hne
      by_cases hv : x = s
      · subst hv
        refine ⟨0, List.mem_cons_self _ [], ?_⟩
        rw [hs0]
        simp
      · exact absurd (hother x hv) hne
    · intro x hne
      by_cases hv : x = s
      · subst hv
        exact ⟨[], rfl⟩
      · exact absurd (hother x hv) hne
  obtain ⟨o1, o2, o3, o4⟩ := dijkstraLoop_spec hwf hw _ _ _ hinit
  refine ⟨le_antisymm o1 (o2 s), ?_, ?_⟩
  · intro e he
    exact o3 e.1 (e.2.1, e.2.2) (edges_mem_adjOf hwf.1 he)
  · intro v hv
    by_contra hne
    exact hv (o4 v hne)

/-- Witness for C4: a concrete three-vertex graph with nonnegative weights,
hypotheses discharged by `decide`. -/
theorem C4_dijkstra_correct_witness :
    WFGraph [(0, [(1, 2)]), (1, [(2, 3)]), (2, [])] ∧
    dget (dijkstra [(0, [(1, 2)]), (1, [(2, 3)]), (2, [])] 0) 0 = 0 :=
  ⟨⟨by decide, by decide⟩,
    (C4_dijkstra_correct [(0, [(1, 2)]), (1, [(2, 3)]), (2, [])] 0
      ⟨by decide, by decide⟩ (by decide) (by decide)).1⟩

/-! ### Bellman-Ford (`GraphAlgorithms.bellman_ford`, src 773-797). -/

/-- One conditional relaxation `if distances[vertex] + weight <
distances[neighbor]: distances[neighbor] = ...`. -/
def bfRelax (dist : List (Nat × WithTop Int)) (e : Nat × Nat × Int) :
    List (Nat × WithTop Int) :=
  if dget dist e.1 + (e.2.2 : WithTop Int) < dget dist e.2.1 then
    dset dist e.2.1 (dget dist e.1 + (e.2.2 : WithTop Int))
  else dist

/-- One full pass over every edge, in dict iteration order. -/
def bfPass (g : Adj) (dist : List (Nat × WithTop Int)) :
    List (Nat × WithTop Int) :=
  (edgesOf g).foldl bfRelax dist

/-- `for _ in range(len(graph.graph) - 1)`: iterate the pass. -/
def bfIter (g : Adj) : Nat → List (Nat × WithTop Int) →
    List (Nat × WithTop Int)
  | 0, dist => dist
  | n + 1, dist => bfIter g n (bfPass g dist)

/-- `GraphAlgorithms.bellman_ford`: `none` signals a detected negative
cycle (the final pass would still relax some edge). -/
def bellman_ford (g : Adj) (s : Nat) : Option (List (Nat × WithTop Int)) :=
  let dist := bfIter g ((keysOf g).length - 1)
    (dset ((keysOf g).map (fun v => (v, (⊤ : WithTop Int)))) s 0)
  if (edgesOf g).any (fun e =>
      decide (dget dist e.1 + (e.2.2 : WithTop Int) < dget dist e.2.1))
  then none else some dist

/-- Total weight of a walk. -/
def walkWeight (steps : List (Nat × Int)) : Int := (steps.map Prod.snd).sum

/-- A negative-weight cycle reachable from `s`. -/
def NegCycleReachable (g : Adj) (s : Nat) : Prop :=
  ∃ x : Nat, ∃ steps : List (Nat × Int), Reach g s x ∧ steps ≠ [] ∧
    IsWalk g x steps x ∧ walkWeight steps < 0

theorem walkWeight_append (a b : List (Nat × Int)) :
    walkWeight (a ++ b) = walkWeight a + walkWeight b := by
  rw [walkWeight, walkWeight, walkWeight, List.map_append, List.sum_append]

theorem isWalk_append {g : Adj} :
    ∀ (A : List (Nat × Int)) (u m v : Nat) (B : List (Nat × Int)),
    IsWalk g u A m → IsWalk g m B v → IsWalk g u (A ++ B) v := by
  intro A
  induction A with
  | nil =>
    intro u m v B hA hB
    rw [IsWalk] at hA
    rw [List.nil_append, hA]
    exact hB
  | cons q rest ih =>
    rcases q with ⟨y, w⟩
    intro u m v B hA hB
    rw [IsWalk] at hA
    exact ⟨hA.1, ih y m v B hA.2 hB⟩

theorem isWalk_split {g : Adj} :
    ∀ (A B : List (Nat × Int)) (u v : Nat), IsWalk g u (A ++ B) v →
    ∃ m, IsWalk g u A m ∧ IsWalk g m B v := by
  intro A
  induction A with
  | nil =>
    intro B u v h
    exact ⟨u, rfl, h⟩
  | cons q rest ih =>
    rcases q with ⟨y, w⟩
    intro B u v h
    rw [List.cons_append, IsWalk] at h
    obtain ⟨m, h1, h2⟩ := ih B y v h.2
    exact ⟨m, ⟨h.1, h1⟩, h2⟩

theorem isWalk_concat_end {g : Adj} :
    ∀ (A : List (Nat × Int)) (x : Nat) (wt : Int) (u v : Nat),
    IsWalk g u (A ++ [(x, wt)]) v →
    v = x ∧ ∃ m, IsWalk g u A m ∧ (x, wt) ∈ adjOf g m := by
  intro A x wt u v h
  obtain ⟨m, h1, h2⟩ := isWalk_split A [(x, wt)] u v h
  rw [IsWalk] at h2
  obtain ⟨hadj, hend⟩ := h2
  rw [IsWalk] at hend
  exact ⟨hend.symm, m, h1, hadj⟩

theorem walk_targets_mem {g : Adj} (hwf : WFGraph g) :
    ∀ (steps : List (Nat × Int)) (u v : Nat), IsWalk g u steps v →
    ∀ q ∈ steps, q.1 ∈ keysOf g := by
  intro steps
  induction steps with
  | nil =>
    intro u v _ q hq
    exact absurd hq (List.not_mem_nil q)
  | cons p rest ih =>
    rcases p with ⟨y, w⟩
    intro u v h q hq
    rw [IsWalk] at h
    rcases List.mem_cons.1 hq with he | he
    · rw [he]
      exact edgesOf_target_mem hwf (adjOf_mem_edges h.1).2
    · exact ih y v h.2 q he

theorem not_nodup_decomp {α : Type} :
    ∀ l : List α, ¬ l.Nodup →
    ∃ (x : α) (l₁ l₂ l₃ : List α), l = l₁ ++ x :: l₂ ++ x :: l₃ := by
  intro l
  induction l with
  | nil => intro h; exact absurd List.nodup_nil h
  | cons a t ih =>
    intro h
    by_cases ha : a ∈ t
    · obtain ⟨p, q, hpq⟩ := List.append_of_mem ha
      exact ⟨a, [], p, q, by rw [hpq]; rfl⟩
    · have hnt : ¬ t.Nodup := by
        intro hc
        exact h (List.nodup_cons.2 ⟨ha, hc⟩)
      obtain ⟨x, l₁, l₂, l₃, hd⟩ := ih hnt
      exact ⟨x, a :: l₁, l₂, l₃, by rw [hd]; rfl⟩

/-- Any walk whose vertex sequence repeats splits as a prefix, a nonempty
cycle and a suffix. -/
theorem walk_cycle_split {g : Adj} :
    ∀ (steps : List (Nat × Int)) (u v : Nat), IsWalk g u steps v →
    ¬ (u :: steps.map Prod.fst).Nodup →
    ∃ (A B C : List (Nat × Int)) (x : Nat), steps = A ++ B ++ C ∧ B ≠ [] ∧
      IsWalk g u A x ∧ IsWalk g x B x ∧ IsWalk g x C v := by
  intro steps
  induction steps with
  | nil =>
    intro u v _ hnd
    exact absurd (List.nodup_cons.2 ⟨List.not_mem_nil u, List.nodup_nil⟩) hnd
  | cons q rest ih =>
    intro u v hw hnd
    by_cases hu : u ∈ ((q :: rest).map Prod.fst)
    · rcases List.mem_map.1 hu with ⟨q', hq', hq'u⟩
      obtain ⟨p, r, hpr⟩ := List.append_of_mem hq'
      have hsplit : q :: rest = (p ++ [q']) ++ r := by
        rw [hpr, List.append_assoc, List.singleton_append]
      have hw2 : IsWalk g u ((p ++ [q']) ++ r) v := by
        rw [← hsplit]
        exact hw
      obtain ⟨m, hB, hC⟩ := isWalk_split (p ++ [q']) r u v hw2
      obtain ⟨hm, m', hpm, hadj⟩ := isWalk_concat_end p q'.1 q'.2 u m
        (by simpa using hB)
      refine ⟨[], p ++ [q'], r, u, by rw [hsplit]; rfl, by simp, rfl, ?_, ?_⟩
      · rw [hm, hq'u] at hB
        exact hB
      · rw [hm, hq'u] at hC
        exact hC
    · rcases q with ⟨y, w⟩
      rw [IsWalk] at hw
      have hnd2 : ¬ (y :: rest.map Prod.fst).Nodup := by
        intro hc
        refine hnd (List.nodup_cons.2 ⟨?_, by simpa using hc⟩)
        simpa using hu
      obtain ⟨A, B, C, x, hd, hBne, hA, hBx, hC⟩ := ih y v hw.2 hnd2
      exact ⟨(y, w) :: A, B, C, x, by rw [hd]; rfl, hBne, ⟨hw.1, hA⟩, hBx, hC⟩

theorem dget_bfRelax_le (dist : List (Nat × WithTop Int))
    (e : Nat × Nat × Int) (v : Nat) :
    dget (bfRelax dist e) v ≤ dget dist v := by
  rw [bfRelax]
  by_cases hb : dget dist e.1 + (e.2.2 : WithTop Int) < dget dist e.2.1
  · rw [if_pos hb]
    by_cases hv : v = e.2.1
    · subst hv
      rw [dget_dset_self]
      exact le_of_lt hb
    · rw [dget_dset_ne _ _ _ _ hv]
  · rw [if_neg hb]

theorem dget_foldl_bfRelax_le : ∀ (l : List (Nat × Nat × Int))
    (dist : List (Nat × WithTop Int)) (v : Nat),
    dget (l.foldl bfRelax dist) v ≤ dget dist v := by
  intro l
  induction l with
  | nil => intro dist v; exact le_rfl
  | cons a rest ih =>
    intro dist v
    rw [List.foldl_cons]
    exact le_trans (ih (bfRelax dist a) v) (dget_bfRelax_le dist a v)

theorem foldl_bfRelax_edge : ∀ (l : List (Nat × Nat × Int))
    (dist : List (Nat × WithTop Int)) (e : Nat × Nat × Int), e ∈ l →
    dget (l.foldl bfRelax dist) e.2.1 ≤
      dget dist e.1 + (e.2.2 : WithTop Int) := by
  intro l
  induction l with
  | nil => intro dist e he; exact absurd he (List.not_mem_nil e)
  | cons a rest ih =>
    intro dist e he
    rw [List.foldl_cons]
    rcases List.mem_cons.1 he with he | he
    · subst he
      have hrel : dget (bfRelax dist e) e.2.1 ≤
          dget dist e.1 + (e.2.2 : WithTop Int) := by
        rw [bfRelax]
        by_cases hb : dget dist e.1 + (e.2.2 : WithTop Int) < dget dist e.2.1
        · rw [if_pos hb, dget_dset_self]
        · rw [if_neg hb]
          exact le_of_not_lt hb
      exact le_trans (dget_foldl_bfRelax_le rest _ _) hrel
    · exact le_trans (ih (bfRelax dist a) e he)
        (add_le_add_right (dget_bfRelax_le dist a e.1) _)

/-- Every finite table entry is the exact weight of some walk from `s`. -/
def BFAch (g : Adj) (s : Nat) (dist : List (Nat × WithTop Int)) : Prop :=
  ∀ v : Nat, dget dist v ≠ ⊤ →
    ∃ steps, IsWalk g s steps v ∧
      ((walkWeight steps : Int) : WithTop Int) = dget dist v

theorem bfAch_relax {g : Adj} {s : Nat} (hnd : (keysOf g).Nodup)
    {dist : List (Nat × WithTop Int)} (h : BFAch g s dist)
    {e : Nat × Nat × Int} (he : e ∈ edgesOf g) :
    BFAch g s (bfRelax dist e) := by
  intro v hv
  rw [bfRelax] at hv ⊢
  by_cases hb : dget dist e.1 + (e.2.2 : WithTop Int) < dget dist e.2.1
  · rw [if_pos hb] at hv ⊢
    by_cases hvv : v = e.2.1
    · subst hvv
      rw [dget_dset_self] at hv ⊢
      have hu : dget dist e.1 ≠ ⊤ := by
        intro hc
        rw [hc, WithTop.top_add] at hv
        exact hv rfl
      obtain ⟨steps, hwalk, hval⟩ := h e.1 hu
      refine ⟨steps ++ [(e.2.1, e.2.2)],
        isWalk_append_one steps s e.1 e.2.1 e.2.2 hwalk
          (edges_mem_adjOf hnd he), ?_⟩
      rw [walkWeight_append]
      have hone : walkWeight [(e.2.1, e.2.2)] = e.2.2 := by
        simp [walkWeight]
      rw [hone]
      push_cast
      rw [hval]
    · rw [dget_dset_ne _ _ _ _ hvv] at hv ⊢
      exact h v hv
  · rw [if_neg hb] at hv ⊢
    exact h v hv

theorem bfAch_foldl {g : Adj} {s : Nat} (hnd : (keysOf g).Nodup) :
    ∀ (l : List (Nat × Nat × Int)), (∀ e ∈ l, e ∈ edgesOf g) →
    ∀ dist, BFAch g s dist → BFAch g s (l.foldl bfRelax dist) := by
  intro l
  induction l with
  | nil => intro _ dist h; exact h
  | cons a rest ih =>
    intro hl dist h
    rw [List.foldl_cons]
    exact ih (fun e he => hl e (List.mem_cons_of_mem _ he)) (bfRelax dist a)
      (bfAch_relax hnd h (hl a (List.mem_cons_self a rest)))

theorem bfAch_iter {g : Adj} {s : Nat} (hnd : (keysOf g).Nodup) :
    ∀ (n : Nat) (dist : List (Nat × WithTop Int)), BFAch g s dist →
    BFAch g s (bfIter g n dist) := by
  intro n
  induction n with
  | zero => intro dist h; exact h
  | succ n ih =>
    intro dist h
    exact ih (bfPass g dist) (bfAch_foldl hnd (edgesOf g) (fun e he => he)
      dist h)

theorem bfIter_succ_outer (g : Adj) :
    ∀ (n : Nat) (dist : List (Nat × WithTop Int)),
    bfIter g (n + 1) dist = bfPass g (bfIter g n dist) := by
  intro n
  induction n with
  | zero => intro dist; rfl
  | succ n ih =>
    intro dist
    rw [show bfIter g (n + 1 + 1) dist = bfIter g (n + 1) (bfPass g dist)
      from rfl, ih, show bfIter g (n + 1) dist = bfIter g n (bfPass g dist)
      from rfl]

theorem dget_bfIter_le (g : Adj) :
    ∀ (n : Nat) (dist : List (Nat × WithTop Int)) (v : Nat),
    dget (bfIter g n dist) v ≤ dget dist v := by
  intro n
  induction n with
  | zero => intro dist v; exact le_rfl
  | succ n ih =>
    intro dist v
    exact le_trans (ih (bfPass g dist) v) (dget_foldl_bfRelax_le _ dist v)

/-- After `k` passes, the table is bounded by the weight of every walk from
`s` with at most `k` edges. -/
theorem bfIter_ub {g : Adj} {s : Nat} {d0 : List (Nat × WithTop Int)}
    (hs0 : dget d0 s ≤ 0) :
    ∀ (k : Nat) (steps : List (Nat × Int)) (v : Nat), IsWalk g s steps v →
    steps.length ≤ k →
    dget (bfIter g k d0) v ≤ ((walkWeight steps : Int) : WithTop Int) := by
  intro k
  induction k with
  | zero =>
    intro steps v hw hlen
    have hnil : steps = [] := List.eq_nil_of_length_eq_zero (by omega)
    subst hnil
    rw [IsWalk] at hw
    subst hw
    simpa [walkWeight] using hs0
  | succ k ih =>
    intro steps v hw hlen
    rcases List.eq_nil_or_concat steps with hnil | ⟨init, last, hconcat⟩
    · subst hnil
      rw [IsWalk] at hw
      subst hw
      refine le_trans (dget_bfIter_le g (k + 1) d0 s) ?_
      simpa [walkWeight] using hs0
    · subst hconcat
      rcases last with ⟨x, wt⟩
      rw [List.concat_eq_append] at hw hlen ⊢
      obtain ⟨hvx, m, hinit, hadj⟩ := isWalk_concat_end init x wt s v hw
      subst hvx
      have hlen2 : init.length ≤ k := by
        rw [List.length_append, List.length_cons, List.length_nil] at hlen
        omega
      have hih := ih init m hinit hlen2
      have hedge : (m, v, wt) ∈ edgesOf g := (adjOf_mem_edges hadj).2
      have hrel := foldl_bfRelax_edge (edgesOf g) (bfIter g k d0)
        (m, v, wt) hedge
      rw [bfIter_succ_outer]
      refine le_trans hrel ?_
      rw [walkWeight_append]
      have hone : walkWeight [(v, wt)] = wt := by simp [walkWeight]
      rw [hone]
      push_cast
      exact add_le_add_right hih _

/-- If no negative cycle is reachable from `s`, every walk from `s` can be
shortened to at most `V - 1` edges without increasing its weight. -/
theorem walk_trim {g : Adj} {s : Nat} (hwf : WFGraph g) (hs : s ∈ keysOf g)
    (hnc : ¬ NegCycleReachable g s) :
    ∀ (n : Nat) (steps : List (Nat × Int)) (v : Nat), steps.length ≤ n →
    IsWalk g s steps v →
    ∃ steps', IsWalk g s steps' v ∧
      steps'.length ≤ (keysOf g).length - 1 ∧
      walkWeight steps' ≤ walkWeight steps := by
  intro n
  induction n with
  | zero =>
    intro steps v hlen hw
    exact ⟨steps, hw, by omega, le_rfl⟩
  | succ n ih =>
    intro steps v hlen hw
    by_cases hshort : steps.length ≤ (keysOf g).length - 1
    · exact ⟨steps, hw, hshort, le_rfl⟩
    · have hmem : ∀ y ∈ s :: steps.map Prod.fst, y ∈ keysOf g := by
        intro y hy
        rcases List.mem_cons.1 hy with he | he
        · exact he ▸ hs
        · rcases List.mem_map.1 he with ⟨q, hq, hqy⟩
          rw [← hqy]
          exact walk_targets_mem hwf steps s v hw q hq
      have hVpos : 1 ≤ (keysOf g).length := List.length_pos.2
        (fun hc => by rw [hc] at hs; exact absurd hs (List.not_mem_nil s))
      have hnnd : ¬ (s :: steps.map Prod.fst).Nodup := by
        intro hc
        have hsp := hc.subperm (fun y hy => hmem y hy)
        have hle := hsp.length_le
        simp only [List.length_cons, List.length_map] at hle
        omega
      obtain ⟨A, B, C, x, hd, hBne, hA, hB, hC⟩ :=
        walk_cycle_split steps s v hw hnnd
      have hBnneg : 0 ≤ walkWeight B := by
        by_contra hneg
        exact hnc ⟨x, B, ⟨A, hA⟩, hBne, hB, by omega⟩
      have hw' : IsWalk g s (A ++ C) v := isWalk_append A s x v C hA hC
      have hlen' : (A ++ C).length ≤ n := by
        rw [hd, List.length_append, List.length_append] at hlen
        rw [List.length_append]
        have hB1 : 1 ≤ B.length := List.length_pos.2 hBne
        omega
      obtain ⟨steps', h1, h2, h3⟩ := ih (A ++ C) v hlen' hw'
      refine ⟨steps', h1, h2, ?_⟩
      rw [hd, walkWeight_append, walkWeight_append]
      rw [walkWeight_append] at h3
      omega

/-- Telescoping a relaxed table along a walk. -/
theorem walk_telescope {g : Adj} {D : List (Nat × WithTop Int)}
    (hrel : ∀ u : Nat, ∀ q ∈ adjOf g u,
      dget D q.1 ≤ dget D u + (q.2 : WithTop Int)) :
    ∀ (steps : List (Nat × Int)) (u v : Nat), IsWalk g u steps v →
    dget D v ≤ dget D u + ((walkWeight steps : Int) : WithTop Int) := by
  intro steps
  induction steps with
  | nil =>
    intro u v hw
    rw [IsWalk] at hw
    subst hw
    simp [walkWeight]
  | cons q rest ih =>
    rcases q with ⟨y, w⟩
    intro u v hw
    rw [IsWalk] at hw
    have h1 := ih y v hw.2
    have h2 := hrel u (y, w) hw.1
    refine le_trans h1 (le_trans (add_le_add_right h2 _) ?_)
    have hww : walkWeight ((y, w) :: rest) = w + walkWeight rest := by
      simp [walkWeight]
    rw [hww, add_assoc]
    push_cast
    exact le_rfl

/-- C5: `bellman_ford` returns `none` exactly when a negative-weight cycle
is reachable from the source; otherwise it returns the distance table. -/
theorem C5_bellman_ford_correct (g : Adj) (s : Nat) (hwf : WFGraph g)
    (hs : s ∈ keysOf g) :
    (bellman_ford g s = none ↔ NegCycleReachable g s) ∧
    (¬ NegCycleReachable g s → bellman_ford g s =
      some (bfIter g ((keysOf g).length - 1)
        (dset ((keysOf g).map (fun v => (v, (⊤ : WithTop Int)))) s 0))) := by
  set D := bfIter g ((keysOf g).length - 1)
    (dset ((keysOf g).map (fun v => (v, (⊤ : WithTop Int)))) s 0) with hD
  have hbf : bellman_ford g s = if (edgesOf g).any (fun e =>
      decide (dget D e.1 + (e.2.2 : WithTop Int) < dget D e.2.1))
      then none else some D := rfl
  have hs0init : dget (dset ((keysOf g).map
      (fun v => (v, (⊤ : WithTop Int)))) s 0) s = 0 := dget_dset_self _ s 0
  have hs0 : dget D s ≤ 0 := by
    rw [hD]
    exact le_trans (dget_bfIter_le g _ _ s) (le_of_eq hs0init)
  have hAch : BFAch g s D := by
    rw [hD]
    refine bfAch_iter hwf.1 _ _ ?_
    intro v hv
    by_cases hvs : v = s
    · subst hvs
      refine ⟨[], rfl, ?_⟩
      rw [hs0init]
      simp [walkWeight]
    · exfalso
      refine hv ?_
      rw [dget_dset_ne _ s v 0 hvs, dget_init_top]
  have dirA : ¬ NegCycleReachable g s → ∀ e ∈ edgesOf g,
      ¬(dget D e.1 + (e.2.2 : WithTop Int) < dget D e.2.1) := by
    intro hnc e he hviol
    have hu_ne : dget D e.1 ≠ ⊤ := by
      intro hc
      rw [hc, WithTop.top_add] at hviol
      exact absurd hviol not_top_lt
    obtain ⟨W, hWwalk, hWval⟩ := hAch e.1 hu_ne
    have hwalk2 : IsWalk g s (W ++ [(e.2.1, e.2.2)]) e.2.1 :=
      isWalk_append_one W s e.1 e.2.1 e.2.2 hWwalk (edges_mem_adjOf hwf.1 he)
    obtain ⟨W', h1, h2, h3⟩ := walk_trim hwf hs hnc
      (W ++ [(e.2.1, e.2.2)]).length _ _ le_rfl hwalk2
    have hub : dget D e.2.1 ≤ ((walkWeight W' : Int) : WithTop Int) := by
      rw [hD]
      exact bfIter_ub (le_of_eq hs0init) _ W' e.2.1 h1 h2
    have hWW : walkWeight (W ++ [(e.2.1, e.2.2)]) =
        walkWeight W + e.2.2 := by
      rw [walkWeight_append]
      simp [walkWeight]
    have hchain : dget D e.2.1 ≤ dget D e.1 + (e.2.2 : WithTop Int) := by
      refine le_trans hub ?_
      rw [← hWval, ← WithTop.coe_add, WithTop.coe_le_coe]
      rw [hWW] at h3
      omega
    exact absurd hviol (not_lt.2 hchain)
  have dirB : (∀ e ∈ edgesOf g,
      ¬(dget D e.1 + (e.2.2 : WithTop Int) < dget D e.2.1)) →
      ¬ NegCycleReachable g s := by
    intro hno hneg
    obtain ⟨x, C, hreach, hCne, hCwalk, hCneg⟩ := hneg
    have hrel : ∀ u : Nat, ∀ q ∈ adjOf g u,
        dget D q.1 ≤ dget D u + (q.2 : WithTop Int) := by
      intro u q hq
      exact le_of_not_lt (hno (u, q.1, q.2) (adjOf_mem_edges hq).2)
    have hs_ne : dget D s ≠ ⊤ := by
      intro hc
      rw [hc] at hs0
      have h0 := top_le_iff.1 hs0
      exact WithTop.coe_ne_top (WithTop.coe_zero.trans h0)
    obtain ⟨Ws, hWs⟩ := hreach
    have hx_le := walk_telescope hrel Ws s x hWs
    have hx_ne : dget D x ≠ ⊤ := by
      intro hc
      rw [hc] at hx_le
      cases hDs : dget D s with
      | top => exact hs_ne hDs
      | coe a =>
        rw [hDs, ← WithTop.coe_add] at hx_le
        exact WithTop.coe_ne_top (top_le_iff.1 hx_le)
    have hcyc := walk_telescope hrel C x x hCwalk
    cases hDx : dget D x with
    | top => exact hx_ne hDx
    | coe b =>
      rw [hDx, ← WithTop.coe_add, WithTop.coe_le_coe] at hcyc
      omega
  rw [hbf]
  by_cases hany : (edgesOf g).any (fun e =>
      decide (dget D e.1 + (e.2.2 : WithTop Int) < dget D e.2.1)) = true
  · rw [if_pos hany]
    obtain ⟨e, he, hve⟩ := List.any_eq_true.1 hany
    have hv : dget D e.1 + (e.2.2 : WithTop Int) < dget D e.2.1 :=
      of_decide_eq_true hve
    have hnegc : NegCycleReachable g s := by
      by_contra hnc
      exact dirA hnc e he hv
    exact ⟨iff_of_true rfl hnegc, fun hnc => absurd hnegc hnc⟩
  · rw [if_neg hany]
    have hall : ∀ e ∈ edgesOf g,
        ¬(dget D e.1 + (e.2.2 : WithTop Int) < dget D e.2.1) := by
      intro e he hv
      exact hany (List.any_eq_true.2 ⟨e, he, decide_eq_true hv⟩)
    exact ⟨iff_of_false (by simp) (dirB hall), fun _ => rfl⟩

/-- Witness for C5: a two-vertex graph with a negative cycle `0 → 1 → 0`,
hypotheses discharged by `decide`. -/
theorem C5_bellman_ford_correct_witness :
    WFGraph [(0, [(1, -1)]), (1, [(0, -1)])] ∧
    (bellman_ford [(0, [(1, -1)]), (1, [(0, -1)])] 0 = none ↔
      NegCycleReachable [(0, [(1, -1)]), (1, [(0, -1)])] 0) :=
  ⟨⟨by decide, by decide⟩,
    (C5_bellman_ford_correct [(0, [(1, -1)]), (1, [(0, -1)])] 0
      ⟨by decide, by decide⟩ (by decide)).1⟩

/-! ### String matching (`StringAlgorithms`, src 1192-1273): strings are
modelled as lists of character codes (`ord`). -/

/-- `b` is a proper border length of `l`: the length-`b` prefix is also a
suffix, and `b` is shorter than `l`. -/
def IsBorder (l : List Nat) (b : Nat) : Prop := b < l.length ∧ l.take b <:+ l

instance isBorder_decidable (l : List Nat) (b : Nat) :
    Decidable (IsBorder l b) := by
  unfold IsBorder
  infer_instance

/-- The longest proper border length — what `lps[i]` must hold for the
prefix ending at `i`. -/
def maxBorder (l : List Nat) : Nat :=
  Nat.findGreatest (fun b => IsBorder l b) (l.length - 1)

theorem isBorder_zero {l : List Nat} (h : l ≠ []) : IsBorder l 0 :=
  ⟨List.length_pos.2 h, by simp⟩

theorem maxBorder_isBorder {l : List Nat} (h : l ≠ []) :
    IsBorder l (maxBorder l) := by
  rw [maxBorder]
  exact Nat.findGreatest_spec (Nat.zero_le _) (isBorder_zero h)

theorem le_maxBorder {l : List Nat} {b : Nat} (h : IsBorder l b) :
    b ≤ maxBorder l := by
  rw [maxBorder]
  refine Nat.le_findGreatest ?_ h
  have := h.1
  omega

theorem maxBorder_lt {l : List Nat} (h : l ≠ []) : maxBorder l < l.length := by
  have h1 : maxBorder l ≤ l.length - 1 := Nat.findGreatest_le _
  have h2 : 1 ≤ l.length := List.length_pos.2 h
  omega

theorem suffix_of_suffix_length_le (l : List Nat) {s₁ s₂ : List Nat}
    (h1 : s₁ <:+ l)
    (h2 : s₂ <:+ l) (hle : s₁.length ≤ s₂.length) : s₁ <:+ s₂ := by
  obtain ⟨t, rfl⟩ := h2
  obtain ⟨u, hu⟩ := h1
  rcases List.append_eq_append_iff.1 hu with ⟨a, _, ha2⟩ | ⟨c, _, hc2⟩
  · have hlen : a = [] := by
      have hl := congrArg List.length ha2
      rw [List.length_append] at hl
      rw [← List.length_eq_zero]
      omega
    rw [ha2, hlen, List.nil_append]
  · exact ⟨c, hc2.symm⟩

theorem take_succ_getD {l : List Nat} {n : Nat} (h : n < l.length) :
    l.take (n + 1) = l.take n ++ [l.getD n 0] := by
  rw [List.take_succ, List.getElem?_eq_getElem h]
  simp [List.getD_eq_getElem?_getD, List.getElem?_eq_getElem h]

theorem isBorder_trans {pat : List Nat} {t b : Nat}
    (hb : IsBorder (pat.take t) b) (ht : IsBorder pat t) : IsBorder pat b := by
  have hlen_t : (pat.take t).length = t := by
    rw [List.length_take]
    have := ht.1
    omega
  have hbt : b < t := by
    have := hb.1
    rwa [hlen_t] at this
  refine ⟨lt_trans hbt ht.1, ?_⟩
  have htake : (pat.take t).take b = pat.take b := by
    rw [List.take_take]
    congr 1
    omega
  have h2 := hb.2
  rw [htake] at h2
  exact h2.trans ht.2

theorem isBorder_extend {pat : List Nat} {i b : Nat} (hi : i < pat.length)
    (hb : IsBorder (pat.take i) b) (hc : pat.getD i 0 = pat.getD b 0) :
    IsBorder (pat.take (i + 1)) (b + 1) := by
  have hleni : (pat.take i).length = i := by
    rw [List.length_take]
    omega
  have hbi : b < i := by
    have := hb.1
    rwa [hleni] at this
  refine ⟨?_, ?_⟩
  · rw [List.length_take]
    omega
  · have htt : (pat.take (i + 1)).take (b + 1) = pat.take (b + 1) := by
      rw [List.take_take]
      congr 1
      omega
    rw [htt]
    have hsb : pat.take b <:+ pat.take i := by
      have h2 := hb.2
      rwa [show (pat.take i).take b = pat.take b by
        rw [List.take_take]; congr 1; omega] at h2
    obtain ⟨u, hu⟩ := hsb
    refine ⟨u, ?_⟩
    rw [take_succ_getD (show b < pat.length by omega),
      take_succ_getD hi, ← hc, ← List.append_assoc, hu]

theorem isBorder_unextend {pat : List Nat} {i c : Nat} (hi : i < pat.length)
    (hb : IsBorder (pat.take (i + 1)) c) (hc1 : 1 ≤ c) :
    IsBorder (pat.take i) (c - 1) ∧ pat.getD (c - 1) 0 = pat.getD i 0 := by
  have hlen1 : (pat.take (i + 1)).length = i + 1 := by
    rw [List.length_take]
    omega
  have hci : c < i + 1 := by
    have := hb.1
    rwa [hlen1] at this
  have hsc : pat.take c <:+ pat.take (i + 1) := by
    have h2 := hb.2
    rwa [show (pat.take (i + 1)).take c = pat.take c by
      rw [List.take_take]; congr 1; omega] at h2
  obtain ⟨u, hu⟩ := hsc
  have hsucc_c : pat.take c = pat.take (c - 1) ++ [pat.getD (c - 1) 0] := by
    have h3 := take_succ_getD (show c - 1 < pat.length by omega)
    rwa [show c - 1 + 1 = c by omega] at h3
  have hsucc_i : pat.take (i + 1) = pat.take i ++ [pat.getD i 0] :=
    take_succ_getD hi
  rw [hsucc_c, hsucc_i, ← List.append_assoc] at hu
  obtain ⟨h1, h2⟩ := List.append_inj' hu (by simp)
  have hchar : pat.getD (c - 1) 0 = pat.getD i 0 := by
    simpa using h2
  refine ⟨⟨?_, ?_⟩, hchar⟩
  · rw [List.length_take]
    omega
  · rw [show (pat.take i).take (c - 1) = pat.take (c - 1) by
      rw [List.take_take]; congr 1; omega]
    exact ⟨u, h1⟩

theorem take_ne_nil {pat : List Nat} {i : Nat} (hi : i < pat.length) :
    pat.take (i + 1) ≠ [] := by
  intro hcon
  have hl := congrArg List.length hcon
  rw [List.length_take] at hl
  simp only [List.length_nil] at hl
  omega

theorem maxBorder_succ_match {pat : List Nat} {i len : Nat}
    (hi : i < pat.length) (hlb : IsBorder (pat.take i) len)
    (hrej : ∀ b, IsBorder (pat.take i) b → len < b →
      pat.getD b 0 ≠ pat.getD i 0)
    (hc : pat.getD i 0 = pat.getD len 0) :
    maxBorder (pat.take (i + 1)) = len + 1 := by
  have h1 : len + 1 ≤ maxBorder (pat.take (i + 1)) :=
    le_maxBorder (isBorder_extend hi hlb hc)
  by_contra hne2
  have hgt : len + 1 < maxBorder (pat.take (i + 1)) := by omega
  have hmb := maxBorder_isBorder (take_ne_nil hi)
  obtain ⟨hb', hchar⟩ := isBorder_unextend hi hmb (by omega)
  exact hrej _ hb' (by omega) hchar

theorem maxBorder_succ_zero {pat : List Nat} {i : Nat} (hi : i < pat.length)
    (hrej : ∀ b, IsBorder (pat.take i) b → 0 < b →
      pat.getD b 0 ≠ pat.getD i 0)
    (hc : pat.getD i 0 ≠ pat.getD 0 0) :
    maxBorder (pat.take (i + 1)) = 0 := by
  by_contra hne2
  have hpos : 0 < maxBorder (pat.take (i + 1)) := Nat.pos_of_ne_zero hne2
  have hmb := maxBorder_isBorder (take_ne_nil hi)
  obtain ⟨hb', hchar⟩ := isBorder_unextend hi hmb (by omega)
  by_cases hz : maxBorder (pat.take (i + 1)) - 1 = 0
  · rw [hz] at hchar
    exact hc hchar.symm
  · exact hrej _ hb' (by omega) hchar

theorem getD_set_eq (a : List Nat) (i k v : Nat) :
    (a.set i v).getD k 0 = if i = k ∧ i < a.length then v else a.getD k 0 :=
  lget_set a i k v

/-- The `while i < m` loop of `compute_lps`, with a fuel argument; the fuel
`2 * m` of `compute_lps` is shown to be sufficient. -/
def lpsGo (pat : List Nat) (m : Nat) : Nat → Nat → Nat → List Nat → List Nat
  | 0, _, _, lps => lps
  | fuel + 1, len, i, lps =>
    if i < m then
      if pat.getD i 0 = pat.getD len 0 then
        lpsGo pat m fuel (len + 1) (i + 1) (lps.set i (len + 1))
      else if len ≠ 0 then
        lpsGo pat m fuel (lps.getD (len - 1) 0) i lps
      else
        lpsGo pat m fuel 0 (i + 1) (lps.set i 0)
    else lps

/-- `compute_lps` (src 1200-1219). -/
def compute_lps (pat : List Nat) : List Nat :=
  lpsGo pat pat.length (2 * pat.length) 0 1 (List.replicate pat.length 0)

theorem lpsGo_spec (pat : List Nat) :
    ∀ (fuel len i : Nat) (lps : List Nat),
    1 ≤ i → i ≤ pat.length → len < i →
    lps.length = pat.length →
    (∀ k, k < i → lps.getD k 0 = maxBorder (pat.take (k + 1))) →
    IsBorder (pat.take i) len →
    (∀ b, IsBorder (pat.take i) b → len < b →
      pat.getD b 0 ≠ pat.getD i 0) →
    2 * (pat.length - i) + len < fuel →
    (lpsGo pat pat.length fuel len i lps).length = pat.length ∧
    ∀ k, k < pat.length →
      (lpsGo pat pat.length fuel len i lps).getD k 0 =
        maxBorder (pat.take (k + 1)) := by
  intro fuel
  induction fuel with
  | zero =>
    intro len i lps _ _ _ _ _ _ _ hfuel
    omega
  | succ fuel ih =>
    intro len i lps h1i him hlen_i hlength hcorr hborder hrej hfuel
    have hstep : lpsGo pat pat.length (fuel + 1) len i lps =
        if i < pat.length then
          if pat.getD i 0 = pat.getD len 0 then
            lpsGo pat pat.length fuel (len + 1) (i + 1) (lps.set i (len + 1))
          else if len ≠ 0 then
            lpsGo pat pat.length fuel (lps.getD (len - 1) 0) i lps
          else
            lpsGo pat pat.length fuel 0 (i + 1) (lps.set i 0)
        else lps := rfl
    rw [hstep]
    by_cases hi : i < pat.length
    · rw [if_pos hi]
      by_cases hc : pat.getD i 0 = pat.getD len 0
      · rw [if_pos hc]
        have hM := maxBorder_succ_match hi hborder hrej hc
        refine ih (len + 1) (i + 1) (lps.set i (len + 1)) (by omega)
          (by omega) (by omega) (by rw [List.length_set]; exact hlength)
          ?_ (isBorder_extend hi hborder hc) ?_ (by omega)
        · intro k hk
          by_cases hki : k = i
          · subst hki
            rw [getD_set_eq, if_pos ⟨rfl, by omega⟩]
            exact hM.symm
          · rw [getD_set_eq, if_neg (fun hcc => hki hcc.1.symm)]
            exact hcorr k (by omega)
        · intro b hb hgt
          exfalso
          have hle := le_maxBorder hb
          rw [hM] at hle
          omega
      · rw [if_neg hc]
        by_cases hz : len ≠ 0
        · rw [if_pos hz]
          have hlen2_val : lps.getD (len - 1) 0 = maxBorder (pat.take len) := by
            have h0 := hcorr (len - 1) (by omega)
            rwa [show len - 1 + 1 = len by omega] at h0
          have htlne : pat.take len ≠ [] := by
            intro hcon
            have hl := congrArg List.length hcon
            rw [List.length_take] at hl
            simp only [List.length_nil] at hl
            omega
          have hmb_len : IsBorder (pat.take len) (maxBorder (pat.take len)) :=
            maxBorder_isBorder htlne
          have htake_len_len : (pat.take len).length = len := by
            rw [List.length_take]
            omega
          have hlt2 : maxBorder (pat.take len) < len := by
            have h0 := maxBorder_lt htlne
            rwa [htake_len_len] at h0
          have hmb_border_i : IsBorder (pat.take i)
              (maxBorder (pat.take len)) := by
            have h0 : IsBorder ((pat.take i).take len)
                (maxBorder (pat.take len)) := by
              rw [show (pat.take i).take len = pat.take len by
                rw [List.take_take]; congr 1; omega]
              exact hmb_len
            exact isBorder_trans h0 hborder
          have hrej2 : ∀ b, IsBorder (pat.take i) b →
              maxBorder (pat.take len) < b →
              pat.getD b 0 ≠ pat.getD i 0 := by
            intro b hb hgt
            rcases Nat.lt_trichotomy b len with hbl | hbe | hbg
            · exfalso
              have hblen : b < (pat.take i).length := hb.1
              rw [List.length_take] at hblen
              have hsub : IsBorder (pat.take len) b := by
                refine ⟨by rw [htake_len_len]; omega, ?_⟩
                rw [show (pat.take len).take b = pat.take b by
                  rw [List.take_take]; congr 1; omega]
                refine suffix_of_suffix_length_le (pat.take i) ?_ ?_ ?_
                · have h2 := hb.2
                  rwa [show (pat.take i).take b = pat.take b by
                    rw [List.take_take]; congr 1; omega] at h2
                · have h2 := hborder.2
                  rwa [show (pat.take i).take len = pat.take len by
                    rw [List.take_take]; congr 1; omega] at h2
                · rw [List.length_take, List.length_take]
                  omega
              have := le_maxBorder hsub
              omega
            · intro hcon
              rw [hbe] at hcon
              exact hc hcon.symm
            · exact hrej b hb (by omega)
          refine ih (lps.getD (len - 1) 0) i lps h1i him
            (by rw [hlen2_val]; omega) hlength hcorr
            (by rw [hlen2_val]; exact hmb_border_i)
            (by rw [hlen2_val]; exact hrej2) (by rw [hlen2_val]; omega)
        · rw [if_neg hz]
          push_neg at hz
          subst hz
          have hM := maxBorder_succ_zero hi hrej hc
          refine ih 0 (i + 1) (lps.set i 0) (by omega) (by omega) (by omega)
            (by rw [List.length_set]; exact hlength) ?_
            (isBorder_zero (take_ne_nil hi)) ?_ (by omega)
          · intro k hk
            by_cases hki : k = i
            · subst hki
              rw [getD_set_eq, if_pos ⟨rfl, by omega⟩]
              exact hM.symm
            · rw [getD_set_eq, if_neg (fun hcc => hki hcc.1.symm)]
              exact hcorr k (by omega)
          · intro b hb hgt
            exfalso
            have hle := le_maxBorder hb
            rw [hM] at hle
            omega
    · rw [if_neg hi]
      exact ⟨hlength, fun k hk => hcorr k (by omega)⟩

theorem compute_lps_spec (pat : List Nat) (hm : 1 ≤ pat.length) :
    (compute_lps pat).length = pat.length ∧
    ∀ k, k < pat.length →
      (compute_lps pat).getD k 0 = maxBorder (pat.take (k + 1)) := by
  rw [compute_lps]
  refine lpsGo_spec pat (2 * pat.length) 0 1 (List.replicate pat.length 0)
    le_rfl hm (by omega) (by rw [List.length_replicate]) ?_
    (isBorder_zero (take_ne_nil (show 0 < pat.length from hm))) ?_ (by omega)
  · intro k hk
    have hk0 : k = 0 := by omega
    subst hk0
    have hrep : (List.replicate pat.length (0 : Nat)).getD 0 0 = 0 := by
      cases hl : pat.length with
      | zero => omega
      | succ n => rw [List.replicate_succ]; rfl
    rw [hrep]
    have hmb := maxBorder_lt (take_ne_nil (show 0 < pat.length from hm))
    rw [List.length_take] at hmb
    omega
  · intro b hb hgt
    exfalso
    have hb1 := hb.1
    rw [List.length_take] at hb1
    omega

/-- `pattern` occurs in `text` starting at position `o`. -/
def occAt (text pat : List Nat) (o : Nat) : Prop :=
  (text.drop o).take pat.length = pat

instance occAt_decidable (text pat : List Nat) (o : Nat) :
    Decidable (occAt text pat o) := by
  unfold occAt
  infer_instance

/-- The `while i < n` matcher loop of `kmp_search`, with fuel; the fuel
`2n + m` of `kmp_search` is shown sufficient. -/
def kmpGo (text pat : List Nat) (n m : Nat) (lps : List Nat) :
    Nat → Nat → Nat → List Nat → List Nat
  | 0, _, _, acc => acc
  | fuel + 1, i, j, acc =>
    if i < n then
      if text.getD i 0 = pat.getD j 0 then
        if j + 1 = m then
          kmpGo text pat n m lps fuel (i + 1) (lps.getD (j + 1 - 1) 0)
            (acc ++ [i + 1 - (j + 1)])
        else if i + 1 < n ∧ text.getD (i + 1) 0 ≠ pat.getD (j + 1) 0 then
          if j + 1 ≠ 0 then
            kmpGo text pat n m lps fuel (i + 1) (lps.getD (j + 1 - 1) 0) acc
          else kmpGo text pat n m lps fuel (i + 1 + 1) (j + 1) acc
        else kmpGo text pat n m lps fuel (i + 1) (j + 1) acc
      else
        if j = m then
          kmpGo text pat n m lps fuel i (lps.getD (j - 1) 0) (acc ++ [i - j])
        else if i < n ∧ text.getD i 0 ≠ pat.getD j 0 then
          if j ≠ 0 then kmpGo text pat n m lps fuel i (lps.getD (j - 1) 0) acc
          else kmpGo text pat n m lps fuel (i + 1) j acc
        else kmpGo text pat n m lps fuel i j acc
    else acc

/-- `StringAlgorithms.kmp_search` (src 1192-1240). -/
def kmp_search (text pat : List Nat) : List Nat :=
  kmpGo text pat text.length pat.length (compute_lps pat)
    (2 * text.length + pat.length) 0 0 []

theorem getD_drop_zero (l : List Nat) (a k : Nat) :
    (l.drop a).getD k 0 = l.getD (a + k) 0 := by
  rw [List.getD_eq_getElem?_getD, List.getD_eq_getElem?_getD,
    List.getElem?_drop]

theorem getD_take_lt (l : List Nat) {k t : Nat} (h : k < t) :
    (l.take t).getD k 0 = l.getD k 0 := by
  rw [List.getD_eq_getElem?_getD, List.getD_eq_getElem?_getD,
    List.getElem?_take, if_pos h]

theorem list_eq_of_getD : ∀ (l₁ l₂ : List Nat), l₁.length = l₂.length →
    (∀ t, t < l₁.length → l₁.getD t 0 = l₂.getD t 0) → l₁ = l₂ := by
  intro l₁
  induction l₁ with
  | nil =>
    intro l₂ hlen _
    cases l₂ with
    | nil => rfl
    | cons b t => simp at hlen
  | cons a t ih =>
    intro l₂ hlen hget
    cases l₂ with
    | nil => simp at hlen
    | cons b u =>
      have h0 := hget 0 (by simp)
      rw [show (a :: t).getD 0 0 = a from rfl,
        show (b :: u).getD 0 0 = b from rfl] at h0
      rw [h0, ih u (by simpa using hlen) ?_]
      intro k hk
      have := hget (k + 1) (by simpa using Nat.succ_lt_succ hk)
      rwa [show (a :: t).getD (k + 1) 0 = t.getD k 0 from rfl,
        show (b :: u).getD (k + 1) 0 = u.getD k 0 from rfl] at this

theorem matched_char {text pat : List Nat} {I J : Nat}
    (hmatch : (text.take I).drop (I - J) = pat.take J) (hJI : J ≤ I) :
    ∀ t, t < J → text.getD (I - J + t) 0 = pat.getD t 0 := by
  intro t ht
  have h0 := congrArg (fun l => List.getD l t 0) hmatch
  simp only at h0
  rw [getD_drop_zero, getD_take_lt text (show I - J + t < I by omega),
    getD_take_lt pat ht] at h0
  exact h0

theorem occ_len {text pat : List Nat} {o : Nat} (hm : 1 ≤ pat.length)
    (h : occAt text pat o) : o + pat.length ≤ text.length := by
  have hlen := congrArg List.length h
  rw [List.length_take, List.length_drop] at hlen
  omega

theorem occ_char {text pat : List Nat} {o : Nat} (h : occAt text pat o) :
    ∀ t, t < pat.length → text.getD (o + t) 0 = pat.getD t 0 := by
  intro t ht
  have h0 := congrArg (fun l => List.getD l t 0) h
  simp only at h0
  rw [getD_take_lt (text.drop o) ht, getD_drop_zero] at h0
  exact h0

theorem occ_false_of_big {text pat : List Nat} {o : Nat}
    (hm : 1 ≤ pat.length) (h : text.length - pat.length < o) :
    ¬ occAt text pat o := by
  intro hocc
  have := occ_len hm hocc
  omega

/-- A filter of the occurrence predicate over a larger index range equals
the filter over a smaller one when the extra indices carry no occurrence. -/
theorem filter_range_extend (text pat : List Nat) {A B : Nat} (hAB : A ≤ B)
    (hno : ∀ o, A ≤ o → o < B → ¬ occAt text pat o) :
    (List.range B).filter (fun o => decide (occAt text pat o)) =
      (List.range A).filter (fun o => decide (occAt text pat o)) := by
  have hsplit : List.range B = List.range A ++ List.range' A (B - A) := by
    rw [List.range_eq_range', List.range_eq_range']
    have h0 := List.range'_append 0 A (B - A) 1
    simp only [Nat.mul_one, Nat.zero_add, Nat.one_mul] at h0
    rw [show B - A + A = B from by omega] at h0
    rw [← h0]
  rw [hsplit, List.filter_append]
  have hnil : (List.range' A (B - A)).filter
      (fun o => decide (occAt text pat o)) = [] := by
    rw [List.filter_eq_nil_iff]
    intro o ho
    have hmem := List.mem_range'_1.1 ho
    simp only [decide_eq_true_eq]
    exact hno o hmem.1 (by omega)
  rw [hnil, List.append_nil]

/-- The KMP shift is safe: no occurrence can start strictly between the
current alignment and the alignment given by the longest border. -/
theorem kmp_shift {text pat : List Nat} {I J o : Nat}
    (hJm : J ≤ pat.length) (hJI : J ≤ I) (hIn : I ≤ text.length)
    (hmatch : (text.take I).drop (I - J) = pat.take J)
    (ho1 : I - J < o) (ho2 : o < I - maxBorder (pat.take J)) :
    ¬ occAt text pat o := by
  intro hocc
  have hoI : o < I := by omega
  have hc1 : 1 ≤ I - o := by omega
  have hcJ : I - o < J := by omega
  have hborder : IsBorder (pat.take J) (I - o) := by
    refine ⟨?_, ?_⟩
    · rw [List.length_take]
      omega
    · rw [show (pat.take J).take (I - o) = pat.take (I - o) by
        rw [List.take_take]; congr 1; omega]
      rw [List.suffix_iff_eq_drop,
        show (pat.take J).length = J by rw [List.length_take]; omega,
        show (pat.take (I - o)).length = I - o by
          rw [List.length_take]; omega]
      refine list_eq_of_getD _ _ ?_ ?_
      · rw [List.length_take, List.length_drop, List.length_take]
        omega
      · intro t ht
        rw [List.length_take] at ht
        have htc : t < I - o := by omega
        rw [getD_take_lt pat htc, getD_drop_zero,
          getD_take_lt pat (show J - (I - o) + t < J by omega)]
        have h1 := matched_char hmatch hJI (J - (I - o) + t) (by omega)
        have h2 := occ_char hocc t (by omega)
        rw [show I - J + (J - (I - o) + t) = o + t by omega] at h1
        rw [h2] at h1
        exact h1
  have := le_maxBorder hborder
  omega

/-- Shrinking the matched prefix to a border keeps it matched. -/
theorem kmp_shrink {text pat : List Nat} {I J b : Nat}
    (hJI : J ≤ I) (hIn : I ≤ text.length) (hJm : J ≤ pat.length)
    (hmatch : (text.take I).drop (I - J) = pat.take J)
    (hb : b ≤ J) (hsuf : pat.take b <:+ pat.take J) :
    (text.take I).drop (I - b) = pat.take b := by
  have hsuf2 : pat.take b <:+ text.take I := by
    refine hsuf.trans ?_
    rw [← hmatch]
    exact List.drop_suffix _ _
  rw [List.suffix_iff_eq_drop,
    show (text.take I).length = I by rw [List.length_take]; omega,
    show (pat.take b).length = b by rw [List.length_take]; omega] at hsuf2
  exact hsuf2.symm

/-- Extending the matched prefix on a character match. -/
theorem kmp_extend_match {text pat : List Nat} {i j : Nat}
    (hji : j ≤ i) (hin : i < text.length) (hjm : j < pat.length)
    (hmatch : (text.take i).drop (i - j) = pat.take j)
    (hchar : text.getD i 0 = pat.getD j 0) :
    (text.take (i + 1)).drop (i + 1 - (j + 1)) = pat.take (j + 1) := by
  rw [show i + 1 - (j + 1) = i - j by omega, take_succ_getD hin,
    List.drop_append_of_le_length (by rw [List.length_take]; omega),
    hmatch, hchar, ← take_succ_getD hjm]

/-- A fully matched window is an occurrence. -/
theorem kmp_full_occ {text pat : List Nat} {I : Nat}
    (hmI : pat.length ≤ I) (hIn : I ≤ text.length)
    (hmatch : (text.take I).drop (I - pat.length) = pat.take pat.length) :
    occAt text pat (I - pat.length) := by
  rw [occAt]
  refine list_eq_of_getD _ _ ?_ ?_
  · rw [List.length_take, List.length_drop]
    omega
  · intro t ht
    rw [List.length_take, List.length_drop] at ht
    have htm : t < pat.length := by omega
    rw [getD_take_lt _ htm, getD_drop_zero]
    exact matched_char hmatch hmI t htm

theorem occ_at_char_ne {text pat : List Nat} {o t : Nat}
    (ht : t < pat.length) (hne : text.getD (o + t) 0 ≠ pat.getD t 0) :
    ¬ occAt text pat o := fun h => hne (occ_char h t ht)

theorem kmpGo_spec (text pat lps : List Nat) (hm : 1 ≤ pat.length)
    (hmn : pat.length ≤ text.length)
    (hlps : ∀ k, k < pat.length →
      lps.getD k 0 = maxBorder (pat.take (k + 1))) :
    ∀ (fuel i j : Nat) (acc : List Nat),
    j ≤ i → i ≤ text.length → j < pat.length →
    (text.take i).drop (i - j) = pat.take j →
    acc = (List.range (i - j)).filter (fun o => decide (occAt text pat o)) →
    2 * (text.length - i) + j < fuel →
    kmpGo text pat text.length pat.length lps fuel i j acc =
      (List.range (text.length - pat.length + 1)).filter
        (fun o => decide (occAt text pat o)) := by
  intro fuel
  induction fuel with
  | zero =>
    intro i j acc _ _ _ _ _ hfuel
    omega
  | succ fuel ih =>
    intro i j acc hji hin hjm hmatch hacc hfuel
    have hstep : kmpGo text pat text.length pat.length lps (fuel + 1) i j
        acc =
        if i < text.length then
          if text.getD i 0 = pat.getD j 0 then
            if j + 1 = pat.length then
              kmpGo text pat text.length pat.length lps fuel (i + 1)
                (lps.getD (j + 1 - 1) 0) (acc ++ [i + 1 - (j + 1)])
            else if i + 1 < text.length ∧
                text.getD (i + 1) 0 ≠ pat.getD (j + 1) 0 then
              if j + 1 ≠ 0 then
                kmpGo text pat text.length pat.length lps fuel (i + 1)
                  (lps.getD (j + 1 - 1) 0) acc
              else kmpGo text pat text.length pat.length lps fuel
                (i + 1 + 1) (j + 1) acc
            else kmpGo text pat text.length pat.length lps fuel (i + 1)
              (j + 1) acc
          else
            if j = pat.length then
              kmpGo text pat text.length pat.length lps fuel i
                (lps.getD (j - 1) 0) (acc ++ [i - j])
            else if i < text.length ∧ text.getD i 0 ≠ pat.getD j 0 then
              if j ≠ 0 then
                kmpGo text pat text.length pat.length lps fuel i
                  (lps.getD (j - 1) 0) acc
              else kmpGo text pat text.length pat.length lps fuel (i + 1)
                j acc
            else kmpGo text pat text.length pat.length lps fuel i j acc
        else acc := rfl
    rw [hstep]
    by_cases hi : i < text.length
    · rw [if_pos hi]
      by_cases hc : text.getD i 0 = pat.getD j 0
      · rw [if_pos hc]
        have hmatch2 : (text.take (i + 1)).drop (i + 1 - (j + 1)) =
            pat.take (j + 1) := kmp_extend_match hji hi hjm hmatch hc
        have hlj : lps.getD (j + 1 - 1) 0 = maxBorder (pat.take (j + 1)) := by
          rw [show j + 1 - 1 = j by omega]
          exact hlps j hjm
        have hbne : pat.take (j + 1) ≠ [] := take_ne_nil hjm
        have hmb_lt : maxBorder (pat.take (j + 1)) < j + 1 := by
          have h0 := maxBorder_lt hbne
          rw [List.length_take] at h0
          omega
        have hmbb := maxBorder_isBorder hbne
        have hsuf : pat.take (maxBorder (pat.take (j + 1))) <:+
            pat.take (j + 1) := by
          have h2 := hmbb.2
          rwa [show (pat.take (j + 1)).take (maxBorder (pat.take (j + 1))) =
            pat.take (maxBorder (pat.take (j + 1))) by
            rw [List.take_take]; congr 1; omega] at h2
        have hmatch3 : (text.take (i + 1)).drop
            (i + 1 - maxBorder (pat.take (j + 1))) =
            pat.take (maxBorder (pat.take (j + 1))) :=
          kmp_shrink (by omega) (by omega) (by omega) hmatch2 (by omega) hsuf
        have hno : ∀ o, i - j + 1 ≤ o →
            o < i + 1 - maxBorder (pat.take (j + 1)) →
            ¬ occAt text pat o := by
          intro o ho1 ho2
          exact kmp_shift (by omega) (by omega) (by omega) hmatch2
            (by omega) ho2
        have hext : (List.range (i + 1 - maxBorder (pat.take (j + 1)))).filter
            (fun o => decide (occAt text pat o)) =
            (List.range (i - j + 1)).filter
              (fun o => decide (occAt text pat o)) :=
          filter_range_extend text pat (by omega) hno
        by_cases hjm2 : j + 1 = pat.length
        · rw [if_pos hjm2]
          have hocc : occAt text pat (i - j) := by
            have hmatch4 := hmatch2
            rw [hjm2] at hmatch4
            have h0 := kmp_full_occ (by omega) (by omega) hmatch4
            rwa [show i + 1 - pat.length = i - j by omega] at h0
          have hacc2 : acc ++ [i + 1 - (j + 1)] =
              (List.range (i + 1 - lps.getD (j + 1 - 1) 0)).filter
                (fun o => decide (occAt text pat o)) := by
            rw [hlj, hext, List.range_succ, List.filter_append, hacc,
              show i + 1 - (j + 1) = i - j by omega]
            congr 1
            simp [hocc]
          rw [hacc2]
          refine ih (i + 1) (lps.getD (j + 1 - 1) 0) _ ?_ (by omega) ?_ ?_
            rfl ?_
          · rw [hlj]
            omega
          · rw [hlj]
            omega
          · rw [hlj]
            exact hmatch3
          · rw [hlj]
            omega
        · rw [if_neg hjm2]
          have hjm3 : j + 1 < pat.length := by omega
          by_cases helif : i + 1 < text.length ∧
              text.getD (i + 1) 0 ≠ pat.getD (j + 1) 0
          · rw [if_pos helif, if_pos (by omega : j + 1 ≠ 0)]
            have hnoc : ¬ occAt text pat (i - j) := by
              refine occ_at_char_ne hjm3 ?_
              rw [show i - j + (j + 1) = i + 1 by omega]
              exact helif.2
            have hno2 : ∀ o, i - j ≤ o →
                o < i + 1 - maxBorder (pat.take (j + 1)) →
                ¬ occAt text pat o := by
              intro o ho1 ho2
              by_cases hoe : o = i - j
              · rw [hoe]
                exact hnoc
              · exact hno o (by omega) ho2
            have hext2 : (List.range
                (i + 1 - maxBorder (pat.take (j + 1)))).filter
                (fun o => decide (occAt text pat o)) =
                (List.range (i - j)).filter
                  (fun o => decide (occAt text pat o)) :=
              filter_range_extend text pat (by omega) hno2
            have hacc2 : acc = (List.range
                (i + 1 - lps.getD (j + 1 - 1) 0)).filter
                (fun o => decide (occAt text pat o)) := by
              rw [hlj, hext2]
              exact hacc
            refine ih (i + 1) (lps.getD (j + 1 - 1) 0) acc ?_ (by omega)
              ?_ ?_ hacc2 ?_
            · rw [hlj]
              omega
            · rw [hlj]
              omega
            · rw [hlj]
              exact hmatch3
            · rw [hlj]
              omega
          · rw [if_neg helif]
            refine ih (i + 1) (j + 1) acc (by omega) (by omega) hjm3
              hmatch2 ?_ (by omega)
            rw [hacc, show i + 1 - (j + 1) = i - j by omega]
      · rw [if_neg hc, if_neg (by omega : ¬ j = pat.length),
          if_pos ⟨hi, hc⟩]
        by_cases hz : j ≠ 0
        · rw [if_pos hz]
          have hlj : lps.getD (j - 1) 0 = maxBorder (pat.take j) := by
            have h0 := hlps (j - 1) (by omega)
            rwa [show j - 1 + 1 = j by omega] at h0
          have hbne : pat.take j ≠ [] := by
            have h0 := take_ne_nil (show j - 1 < pat.length by omega)
            rwa [show j - 1 + 1 = j by omega] at h0
          have hmb_lt : maxBorder (pat.take j) < j := by
            have h0 := maxBorder_lt hbne
            rw [List.length_take] at h0
            omega
          have hmbb := maxBorder_isBorder hbne
          have hsuf : pat.take (maxBorder (pat.take j)) <:+ pat.take j := by
            have h2 := hmbb.2
            rwa [show (pat.take j).take (maxBorder (pat.take j)) =
              pat.take (maxBorder (pat.take j)) by
              rw [List.take_take]; congr 1; omega] at h2
          have hmatch3 : (text.take i).drop (i - maxBorder (pat.take j)) =
              pat.take (maxBorder (pat.take j)) :=
            kmp_shrink hji (by omega) (by omega) hmatch (by omega) hsuf
          have hnoc : ¬ occAt text pat (i - j) := by
            refine occ_at_char_ne hjm ?_
            rw [show i - j + j = i by omega]
            exact hc
          have hno2 : ∀ o, i - j ≤ o → o < i - maxBorder (pat.take j) →
              ¬ occAt text pat o := by
            intro o ho1 ho2
            by_cases hoe : o = i - j
            · rw [hoe]
              exact hnoc
            · exact kmp_shift (by omega) hji (by omega) hmatch (by omega) ho2
          have hext2 : (List.range (i - maxBorder (pat.take j))).filter
              (fun o => decide (occAt text pat o)) =
              (List.range (i - j)).filter
                (fun o => decide (occAt text pat o)) :=
            filter_range_extend text pat (by omega) hno2
          have hacc2 : acc = (List.range (i - lps.getD (j - 1) 0)).filter
              (fun o => decide (occAt text pat o)) := by
            rw [hlj, hext2]
            exact hacc
          refine ih i (lps.getD (j - 1) 0) acc ?_ hin ?_ ?_ hacc2 ?_
          · rw [hlj]
            omega
          · rw [hlj]
            omega
          · rw [hlj]
            exact hmatch3
          · rw [hlj]
            omega
        · rw [if_neg hz]
          push_neg at hz
          subst hz
          have hnoc : ¬ occAt text pat i := by
            refine occ_at_char_ne hm ?_
            rw [show i + 0 = i by omega]
            exact hc
          refine ih (i + 1) 0 acc (by omega) (by omega) hm ?_ ?_ (by omega)
          · rw [show i + 1 - 0 = i + 1 by omega, List.take_zero]
            refine List.drop_eq_nil_of_le ?_
            rw [List.length_take]
            omega
          · have hno2 : ∀ o, i ≤ o → o < i + 1 → ¬ occAt text pat o := by
              intro o ho1 ho2
              rw [show o = i by omega]
              exact hnoc
            rw [show i + 1 - 0 = i + 1 by omega,
              filter_range_extend text pat (by omega) hno2, hacc,
              show i - 0 = i by omega]
    · rw [if_neg hi]
      rw [hacc]
      refine filter_range_extend text pat ?_ ?_
      · omega
      · intro o ho1 ho2
        exact occ_false_of_big hm (by omega)

theorem kmp_search_spec (text pat : List Nat) (hm : 1 ≤ pat.length)
    (hmn : pat.length ≤ text.length) :
    kmp_search text pat = (List.range (text.length - pat.length + 1)).filter
      (fun o => decide (occAt text pat o)) := by
  rw [kmp_search]
  refine kmpGo_spec text pat (compute_lps pat) hm hmn
    (compute_lps_spec pat hm).2 (2 * text.length + pat.length) 0 0 []
    le_rfl (by omega) (by omega) (by simp) rfl (by omega)

/-! ### Rabin-Karp (`StringAlgorithms.rabin_karp`, src 1242-1273). -/

/-- One step of `p = (d * p + ord(c)) % q` with `d = 256`, `q = 101`. -/
def hashStep (acc : Int) (c : Nat) : Int := (256 * acc + (c : Int)) % 101

/-- The modular polynomial hash of a string. -/
def hashMod (l : List Nat) : Int := l.foldl hashStep 0

/-- The exact (unreduced) polynomial value of a string. -/
def polyVal (l : List Nat) : Int :=
  l.foldl (fun (acc : Int) (c : Nat) => 256 * acc + (c : Int)) 0

/-- `if t < 0: t += q` (dead code: the Euclidean `%` is never negative). -/
def rkAdjust (t : Int) : Int := if t < 0 then t + 101 else t

/-- The rolling update `t = (d*(t - ord(text[i])*h) + ord(text[i+m])) % q`. -/
def rkNext (text : List Nat) (h : Int) (m i : Nat) (t : Int) : Int :=
  rkAdjust ((256 * (t - (text.getD i 0 : Int) * h) +
    (text.getD (i + m) 0 : Int)) % 101)

/-- The sliding-window loop of `rabin_karp` over the index list. -/
def rkLoop (text pat : List Nat) (p h : Int) (nm : Nat) :
    List Nat → Int → List Nat → List Nat
  | [], _, acc => acc
  | i :: is, t, acc =>
    if p = t ∧ (text.drop i).take pat.length = pat then
      if i < nm then
        rkLoop text pat p h nm is (rkNext text h pat.length i t) (acc ++ [i])
      else rkLoop text pat p h nm is t (acc ++ [i])
    else
      if i < nm then
        rkLoop text pat p h nm is (rkNext text h pat.length i t) acc
      else rkLoop text pat p h nm is t acc

/-- `StringAlgorithms.rabin_karp`: both initial hashes, then the sliding
window (every index access is in range when `m ≤ n`). -/
def rabin_karp (text pat : List Nat) : List Nat :=
  rkLoop text pat (hashMod pat) ((256 ^ (pat.length - 1) : Int) % 101)
    (text.length - pat.length) (List.range (text.length - pat.length + 1))
    (hashMod (text.take pat.length)) []

theorem foldl_hashStep_emod : ∀ (l : List Nat) (a : Int),
    l.foldl hashStep (a % 101) =
      (l.foldl (fun (acc : Int) (c : Nat) => 256 * acc + (c : Int)) a) % 101 := by
  intro l
  induction l with
  | nil => intro a; rfl
  | cons c t ih =>
    intro a
    rw [List.foldl_cons, List.foldl_cons]
    have hkey : hashStep (a % 101) c = (256 * a + (c : Int)) % 101 := by
      rw [hashStep]
      have h1 : a % 101 ≡ a [ZMOD 101] := Int.emod_emod_of_dvd a dvd_rfl
      exact (h1.mul_left 256).add_right (c : Int)
    rw [hkey, ih (256 * a + (c : Int))]

theorem hashMod_eq_polyVal (l : List Nat) : hashMod l = polyVal l % 101 := by
  have h0 := foldl_hashStep_emod l 0
  rw [show (0 : Int) % 101 = 0 from by norm_num] at h0
  rw [hashMod, polyVal]
  exact h0

theorem polyVal_init : ∀ (l : List Nat) (a : Int),
    l.foldl (fun (acc : Int) (c : Nat) => 256 * acc + (c : Int)) a =
      a * 256 ^ l.length + polyVal l := by
  intro l
  induction l with
  | nil =>
    intro a
    rw [polyVal]
    simp
  | cons c t ih =>
    intro a
    rw [List.foldl_cons, ih (256 * a + (c : Int))]
    have hc : polyVal (c :: t) = (c : Int) * 256 ^ t.length + polyVal t := by
      rw [polyVal, List.foldl_cons,
        show 256 * (0 : Int) + (c : Int) = (c : Int) by ring, ih (c : Int)]
    rw [hc, List.length_cons]
    ring

theorem polyVal_cons (c : Nat) (l : List Nat) :
    polyVal (c :: l) = (c : Int) * 256 ^ l.length + polyVal l := by
  rw [polyVal, List.foldl_cons,
    show 256 * (0 : Int) + (c : Int) = (c : Int) by ring, polyVal_init]

theorem polyVal_append_one (l : List Nat) (c : Nat) :
    polyVal (l ++ [c]) = 256 * polyVal l + (c : Int) := by
  rw [polyVal, List.foldl_append]
  rfl

/-- The rolling hash update is correct: it turns the hash of window `i`
into the hash of window `i + 1`. -/
theorem rkNext_correct (text : List Nat) {m i : Nat} (hm : 1 ≤ m)
    (hwin : i + 1 + m ≤ text.length) :
    rkNext text ((256 ^ (m - 1) : Int) % 101) m i
      (hashMod ((text.drop i).take m)) =
      hashMod ((text.drop (i + 1)).take m) := by
  have hlen_tail : ((text.drop (i + 1)).take (m - 1)).length = m - 1 := by
    rw [List.length_take, List.length_drop]
    omega
  have hWi : (text.drop i).take m =
      text.getD i 0 :: (text.drop (i + 1)).take (m - 1) := by
    refine list_eq_of_getD _ _ ?_ ?_
    · rw [List.length_take, List.length_drop, List.length_cons, hlen_tail]
      omega
    · intro t ht
      rw [List.length_take, List.length_drop] at ht
      have htm : t < m := by omega
      rw [getD_take_lt _ htm, getD_drop_zero]
      cases t with
      | zero =>
        rw [Nat.add_zero]
        rfl
      | succ t' =>
        rw [show (text.getD i 0 ::
          (text.drop (i + 1)).take (m - 1)).getD (t' + 1) 0 =
          ((text.drop (i + 1)).take (m - 1)).getD t' 0 from rfl,
          getD_take_lt _ (show t' < m - 1 by omega), getD_drop_zero]
        congr 1
        omega
  have hWi1 : (text.drop (i + 1)).take m =
      (text.drop (i + 1)).take (m - 1) ++ [text.getD (i + m) 0] := by
    have h0 := take_succ_getD
      (show m - 1 < (text.drop (i + 1)).length by
        rw [List.length_drop]; omega)
    rw [show m - 1 + 1 = m by omega, getD_drop_zero,
      show i + 1 + (m - 1) = i + m by omega] at h0
    exact h0
  rw [rkNext, hashMod_eq_polyVal, hashMod_eq_polyVal, hWi1,
    polyVal_append_one, hWi, polyVal_cons, hlen_tail]
  have h1 : ((text.getD i 0 : Int) * 256 ^ (m - 1) +
      polyVal ((text.drop (i + 1)).take (m - 1))) % 101 ≡
      (text.getD i 0 : Int) * 256 ^ (m - 1) +
        polyVal ((text.drop (i + 1)).take (m - 1)) [ZMOD 101] :=
    Int.emod_emod_of_dvd _ dvd_rfl
  have h2 : (256 ^ (m - 1) : Int) % 101 ≡ (256 ^ (m - 1) : Int) [ZMOD 101] :=
    Int.emod_emod_of_dvd _ dvd_rfl
  have h3 := ((h1.sub ((Int.ModEq.refl (text.getD i 0 : Int)).mul
    h2)).mul_left 256).add_right (text.getD (i + m) 0 : Int)
  have habs : (256 * (((text.getD i 0 : Int) * 256 ^ (m - 1) +
      polyVal ((text.drop (i + 1)).take (m - 1))) % 101 -
      (text.getD i 0 : Int) * ((256 ^ (m - 1) : Int) % 101)) +
      (text.getD (i + m) 0 : Int)) % 101 =
      (256 * polyVal ((text.drop (i + 1)).take (m - 1)) +
        (text.getD (i + m) 0 : Int)) % 101 := by
    refine Eq.trans h3 ?_
    congr 1
    ring
  rw [habs, rkAdjust, if_neg (not_lt.2 (Int.emod_nonneg _ (by norm_num)))]

theorem rkLoop_spec (text pat : List Nat) (hm : 1 ≤ pat.length)
    (hmn : pat.length ≤ text.length) :
    ∀ (k i : Nat) (t : Int) (acc : List Nat),
    i + k = text.length - pat.length + 1 →
    t = hashMod ((text.drop i).take pat.length) →
    acc = (List.range i).filter (fun o => decide (occAt text pat o)) →
    rkLoop text pat (hashMod pat) ((256 ^ (pat.length - 1) : Int) % 101)
      (text.length - pat.length) (List.range' i k) t acc =
      (List.range (text.length - pat.length + 1)).filter
        (fun o => decide (occAt text pat o)) := by
  intro k
  induction k with
  | zero =>
    intro i t acc hik ht hacc
    rw [show List.range' i 0 = [] from rfl]
    rw [show rkLoop text pat (hashMod pat)
      ((256 ^ (pat.length - 1) : Int) % 101) (text.length - pat.length)
      [] t acc = acc from rfl, hacc,
      show i = text.length - pat.length + 1 from by omega]
  | succ k ih =>
    intro i t acc hik ht hacc
    rw [List.range'_succ]
    have hstep : rkLoop text pat (hashMod pat)
        ((256 ^ (pat.length - 1) : Int) % 101) (text.length - pat.length)
        (i :: List.range' (i + 1) k) t acc =
        if hashMod pat = t ∧ (text.drop i).take pat.length = pat then
          if i < text.length - pat.length then
            rkLoop text pat (hashMod pat)
              ((256 ^ (pat.length - 1) : Int) % 101)
              (text.length - pat.length) (List.range' (i + 1) k)
              (rkNext text ((256 ^ (pat.length - 1) : Int) % 101)
                pat.length i t) (acc ++ [i])
          else rkLoop text pat (hashMod pat)
            ((256 ^ (pat.length - 1) : Int) % 101)
            (text.length - pat.length) (List.range' (i + 1) k) t
            (acc ++ [i])
        else
          if i < text.length - pat.length then
            rkLoop text pat (hashMod pat)
              ((256 ^ (pat.length - 1) : Int) % 101)
              (text.length - pat.length) (List.range' (i + 1) k)
              (rkNext text ((256 ^ (pat.length - 1) : Int) % 101)
                pat.length i t) acc
          else rkLoop text pat (hashMod pat)
            ((256 ^ (pat.length - 1) : Int) % 101)
            (text.length - pat.length) (List.range' (i + 1) k) t acc :=
      rfl
    rw [hstep]
    have hcond : (hashMod pat = t ∧ (text.drop i).take pat.length = pat) ↔
        occAt text pat i := by
      constructor
      · exact fun h => h.2
      · intro h
        refine ⟨?_, h⟩
        rw [ht, h]
    by_cases hocc : occAt text pat i
    · rw [if_pos (hcond.2 hocc)]
      have hacc2 : acc ++ [i] =
          (List.range (i + 1)).filter
            (fun o => decide (occAt text pat o)) := by
        rw [List.range_succ, List.filter_append, hacc]
        congr 1
        simp [hocc]
      by_cases hnm : i < text.length - pat.length
      · rw [if_pos hnm]
        have ht2 : rkNext text ((256 ^ (pat.length - 1) : Int) % 101)
            pat.length i t =
            hashMod ((text.drop (i + 1)).take pat.length) := by
          rw [ht]
          exact rkNext_correct text hm (by omega)
        exact ih (i + 1)
          (rkNext text ((256 ^ (pat.length - 1) : Int) % 101) pat.length i t)
          (acc ++ [i]) (by omega) ht2 hacc2
      · rw [if_neg hnm]
        have hk0 : k = 0 := by omega
        subst hk0
        rw [show List.range' (i + 1) 0 = [] from rfl]
        rw [show rkLoop text pat (hashMod pat)
          ((256 ^ (pat.length - 1) : Int) % 101)
          (text.length - pat.length) [] t (acc ++ [i]) = acc ++ [i]
          from rfl, hacc2,
          show i + 1 = text.length - pat.length + 1 from by omega]
    · rw [if_neg (fun hcc => hocc (hcond.1 hcc))]
      have hacc2 : acc =
          (List.range (i + 1)).filter
            (fun o => decide (occAt text pat o)) := by
        rw [List.range_succ, List.filter_append, hacc]
        have hnil : List.filter (fun o => decide (occAt text pat o)) [i] =
            [] := by
          simp [hocc]
        rw [hnil, List.append_nil]
      by_cases hnm : i < text.length - pat.length
      · rw [if_pos hnm]
        have ht2 : rkNext text ((256 ^ (pat.length - 1) : Int) % 101)
            pat.length i t =
            hashMod ((text.drop (i + 1)).take pat.length) := by
          rw [ht]
          exact rkNext_correct text hm (by omega)
        exact ih (i + 1)
          (rkNext text ((256 ^ (pat.length - 1) : Int) % 101) pat.length i t)
          acc (by omega) ht2 hacc2
      · rw [if_neg hnm]
        have hk0 : k = 0 := by omega
        subst hk0
        rw [show List.range' (i + 1) 0 = [] from rfl]
        rw [show rkLoop text pat (hashMod pat)
          ((256 ^ (pat.length - 1) : Int) % 101)
          (text.length - pat.length) [] t acc = acc from rfl, hacc2,
          show i + 1 = text.length - pat.length + 1 from by omega]

theorem rabin_karp_spec (text pat : List Nat) (hm : 1 ≤ pat.length)
    (hmn : pat.length ≤ text.length) :
    rabin_karp text pat = (List.range (text.length - pat.length + 1)).filter
      (fun o => decide (occAt text pat o)) := by
  rw [rabin_karp]
  conv_lhs => rw [List.range_eq_range']
  have ht : hashMod (text.take pat.length) =
      hashMod ((text.drop 0).take pat.length) := by
    rw [List.drop_zero]
  exact rkLoop_spec text pat hm hmn (text.length - pat.length + 1) 0
    (hashMod (text.take pat.length)) [] (by omega) ht rfl

/-- C7: with a nonempty pattern no longer than the text, `kmp_search` and
`rabin_karp` return the same index list — the increasing list of all
(possibly overlapping) occurrence positions — and on text "aaaa",
pattern "aa" both return `[0, 1, 2]`. -/
theorem C7_kmp_rabin_karp_equiv (text pat : List Nat) (hm : 1 ≤ pat.length)
    (hmn : pat.length ≤ text.length) :
    kmp_search text pat = rabin_karp text pat ∧
    kmp_search text pat = (List.range (text.length - pat.length + 1)).filter
      (fun o => decide (occAt text pat o)) ∧
    kmp_search [97, 97, 97, 97] [97, 97] = [0, 1, 2] ∧
    rabin_karp [97, 97, 97, 97] [97, 97] = [0, 1, 2] := by
  refine ⟨?_, kmp_search_spec text pat hm hmn, by decide, by decide⟩
  rw [kmp_search_spec text pat hm hmn, rabin_karp_spec text pat hm hmn]

/-- Witness for C7: the overlapping-match example "aaaa"/"aa" (character
code 97), hypotheses discharged by `decide`. -/
theorem C7_kmp_rabin_karp_equiv_witness :
    (1 ≤ ([97, 97] : List Nat).length ∧
      ([97, 97] : List Nat).length ≤ ([97, 97, 97, 97] : List Nat).length) ∧
    kmp_search [97, 97, 97, 97] [97, 97] =
      rabin_karp [97, 97, 97, 97] [97, 97] :=
  ⟨⟨by decide, by decide⟩,
    (C7_kmp_rabin_karp_equiv [97, 97, 97, 97] [97, 97] (by decide)
      (by decide)).1⟩

/-! ### Checked embeddings for the safety claim: Python list indexing
raises `IndexError` outside `-len ≤ i < len` (negative indices wrap). -/

/-- `l[i]` for an `int` index, Python semantics. -/
def pyIdx (l : List Nat) (i : Int) : Except Unit Nat :=
  if 0 ≤ i then
    if i < (l.length : Int) then Except.ok (l.getD i.toNat 0)
    else Except.error ()
  else
    if 0 ≤ (l.length : Int) + i then
      Except.ok (l.getD ((l.length : Int) + i).toNat 0)
    else Except.error ()

/-- `l[i]` for a nonnegative index. -/
def pyGetNat (l : List Nat) (i : Nat) : Except Unit Nat :=
  if i < l.length then Except.ok (l.getD i 0) else Except.error ()

/-- Second `while arr[prev] < target` loop of `jump_search` plus the final
equality check (src 680-688). -/
def jsLoop2 (arr : List Nat) (target : Nat) (n : Nat) (step : Nat) :
    Nat → Nat → Except Unit Int
  | 0, _ => Except.error ()
  | fuel + 1, prev =>
    match pyGetNat arr prev with
    | Except.error e => Except.error e
    | Except.ok v =>
      if v < target then
        if prev + 1 = min step n then Except.ok (-1)
        else jsLoop2 arr target n step fuel (prev + 1)
      else
        match pyGetNat arr prev with
        | Except.error e => Except.error e
        | Except.ok v2 =>
          if v2 = target then Except.ok (prev : Int) else Except.ok (-1)

/-- First `while arr[min(step, n) - 1] < target` loop of `jump_search`
(src 674-678); `int(n ** 0.5)` is `Nat.sqrt n`. -/
def jsLoop1 (arr : List Nat) (target : Nat) (n : Nat) :
    Nat → Nat → Nat → Except Unit Int
  | 0, _, _ => Except.error ()
  | fuel + 1, prev, step =>
    match pyIdx arr (((min step n : Nat) : Int) - 1) with
    | Except.error e => Except.error e
    | Except.ok v =>
      if v < target then
        if step ≥ n then Except.ok (-1)
        else jsLoop1 arr target n fuel step (step + Nat.sqrt n)
      else jsLoop2 arr target n step (n + 2) prev

/-- `SearchAlgorithms.jump_search` (src 661-688) with checked indexing;
`Except.error` is a raised `IndexError`. -/
def jump_search (arr : List Nat) (target : Nat) : Except Unit Int :=
  jsLoop1 arr target arr.length (arr.length + 2) 0 (Nat.sqrt arr.length)

/-- The initial-hash loop of `rabin_karp` (src 1256-1259), which reads
`text[i]` for every `i in range(m)` with checked indexing. -/
def rkInitGo (text pat : List Nat) :
    List Nat → Int → Int → Except Unit (Int × Int)
  | [], p, t => Except.ok (p, t)
  | i :: is, p, t =>
    match pyGetNat pat i, pyGetNat text i with
    | Except.ok c1, Except.ok c2 =>
      rkInitGo text pat is ((256 * p + (c1 : Int)) % 101)
        ((256 * t + (c2 : Int)) % 101)
    | _, _ => Except.error ()

def rabin_karp_checked_init (text pat : List Nat) : Except Unit (Int × Int) :=
  rkInitGo text pat (List.range pat.length) 0 0

/-- `Stack.pop` (src 82-86): `items` with the top at the end. -/
def stack_pop (items : List Nat) : Option Nat × List Nat :=
  if items.isEmpty then (none, items) else (items.getLast?, items.dropLast)

/-- `Stack.peek` (src 88-92). -/
def stack_peek (items : List Nat) : Option Nat :=
  if items.isEmpty then none else items.getLast?

theorem rkInitGo_error (text pat : List Nat) :
    ∀ (k a : Nat) (p t : Int), text.length < a + k → a ≤ text.length →
    rkInitGo text pat (List.range' a k) p t = Except.error () := by
  intro k
  induction k with
  | zero =>
    intro a p t h1 h2
    omega
  | succ k ih =>
    intro a p t h1 h2
    rw [List.range'_succ]
    by_cases ha : a < text.length
    · cases hp : pyGetNat pat a with
      | error e =>
        rw [show rkInitGo text pat (a :: List.range' (a + 1) k) p t =
          (match pyGetNat pat a, pyGetNat text a with
          | Except.ok c1, Except.ok c2 =>
            rkInitGo text pat (List.range' (a + 1) k)
              ((256 * p + (c1 : Int)) % 101) ((256 * t + (c2 : Int)) % 101)
          | _, _ => Except.error ()) from rfl, hp]
      | ok c1 =>
        have htx : pyGetNat text a = Except.ok (text.getD a 0) := by
          rw [pyGetNat, if_pos ha]
        rw [show rkInitGo text pat (a :: List.range' (a + 1) k) p t =
          (match pyGetNat pat a, pyGetNat text a with
          | Except.ok c1, Except.ok c2 =>
            rkInitGo text pat (List.range' (a + 1) k)
              ((256 * p + (c1 : Int)) % 101) ((256 * t + (c2 : Int)) % 101)
          | _, _ => Except.error ()) from rfl, hp, htx]
        exact ih (a + 1) _ _ (by omega) (by omega)
    · have hae : a = text.length := by omega
      have htx : pyGetNat text a = Except.error () := by
        rw [pyGetNat, if_neg (by omega)]
      cases hp : pyGetNat pat a with
      | error e =>
        rw [show rkInitGo text pat (a :: List.range' (a + 1) k) p t =
          (match pyGetNat pat a, pyGetNat text a with
          | Except.ok c1, Except.ok c2 =>
            rkInitGo text pat (List.range' (a + 1) k)
              ((256 * p + (c1 : Int)) % 101) ((256 * t + (c2 : Int)) % 101)
          | _, _ => Except.error ()) from rfl, hp]
      | ok c1 =>
        rw [show rkInitGo text pat (a :: List.range' (a + 1) k) p t =
          (match pyGetNat pat a, pyGetNat text a with
          | Except.ok c1, Except.ok c2 =>
            rkInitGo text pat (List.range' (a + 1) k)
              ((256 * p + (c1 : Int)) % 101) ((256 * t + (c2 : Int)) % 101)
          | _, _ => Except.error ()) from rfl, hp, htx]

/-- C8 counterexample record: the safety claim is false of the code.
`jump_search` on the empty array evaluates `arr[min(step, n) - 1]` =
`arr[-1]` and raises `IndexError` instead of returning `-1`, and
`rabin_karp`'s initial-hash loop reads `text[i]` out of range whenever the
pattern is longer than the text.  (`Stack.pop`/`Stack.peek` do return
`None` on the empty stack, as claimed.) -/
theorem C8_safety_counterexample :
    (∀ target : Nat, jump_search [] target = Except.error ()) ∧
    (∀ text pat : List Nat, text.length < pat.length →
      rabin_karp_checked_init text pat = Except.error ()) ∧
    stack_pop [] = (none, []) ∧ stack_peek [] = none := by
  refine ⟨?_, ?_, rfl, rfl⟩
  · intro target
    rfl
  · intro text pat hlt
    rw [rabin_karp_checked_init, List.range_eq_range']
    exact rkInitGo_error text pat pat.length 0 0 0 (by omega) (by omega)

/-- Witness for C8 at concrete inputs: searching the empty array with
target 5, and matching pattern "a" against the empty text. -/
theorem C8_safety_counterexample_witness :
    jump_search [] 5 = Except.error () ∧
    rabin_karp_checked_init [] [97] = Except.error () :=
  ⟨C8_safety_counterexample.1 5,
    C8_safety_counterexample.2.1 [] [97] (by decide)⟩

end AlgoDS
